import Mathlib

set_option maxRecDepth 10000

/-!
Verification of the core algorithms of an LSM-tree key-value store
(TypeScript source), via a shallow embedding in Lean.

Strings are modelled as lists of Unicode codepoints (`Str`).  JavaScript
builtins used by the source are modelled explicitly:

* `listCmp` — lexicographic comparison of lists of naturals, the common
  skeleton of every string comparison below;
* `utf16Units` / `utf8Bytes` — the UTF-16 code-unit and UTF-8 byte
  encodings of a codepoint string; JavaScript's native `<`, `<=` on
  strings is lexicographic comparison of UTF-16 code units
  (`jsCompare`), and "byte-wise" order is `utf8Compare`;
* `localeCompare` — a model of `String.prototype.localeCompare` under
  the default (root/en) Unicode collation, restricted to the ASCII
  alphanumeric repertoire: a primary pass compares characters
  case-insensitively with digits before letters, and a tertiary pass
  orders lowercase before uppercase.  On ASCII alphanumeric strings this
  agrees with the builtin in Node's default configuration; on such
  strings it is a genuine linear order.
-/

namespace LSM

/-- A JavaScript string, modelled as its list of Unicode codepoints. -/
abbrev Str := List Nat

/-- Lexicographic three-way comparison of lists of naturals, with values
in {-1, 0, 1}. -/
def listCmp : List Nat → List Nat → Int
  | [], [] => 0
  | [], _ :: _ => -1
  | _ :: _, [] => 1
  | a :: as, b :: bs => if a < b then -1 else if b < a then 1 else listCmp as bs

theorem listCmp_self (a : List Nat) : listCmp a a = 0 := by
  induction a with
  | nil => rfl
  | cons x xs ih => simp [listCmp, ih]

theorem listCmp_swap (a b : List Nat) : listCmp a b = -(listCmp b a) := by
  induction a generalizing b with
  | nil => cases b <;> rfl
  | cons x xs ih =>
    cases b with
    | nil => rfl
    | cons y ys =>
      by_cases hxy : x < y
      · have : ¬ y < x := by omega
        simp [listCmp, hxy, this]
      · by_cases hyx : y < x
        · simp [listCmp, hxy, hyx]
        · simp [listCmp, hxy, hyx, ih ys]

theorem listCmp_eq_zero_iff (a b : List Nat) : listCmp a b = 0 ↔ a = b := by
  induction a generalizing b with
  | nil => cases b <;> simp [listCmp]
  | cons x xs ih =>
    cases b with
    | nil => simp [listCmp]
    | cons y ys =>
      by_cases hxy : x < y
      · simp [listCmp, hxy]; omega
      · by_cases hyx : y < x
        · simp [listCmp, hxy, hyx]; omega
        · have hxy' : x = y := by omega
          simp [listCmp, hxy, hyx, hxy', ih ys]

theorem listCmp_cases (a b : List Nat) :
    listCmp a b = -1 ∨ listCmp a b = 0 ∨ listCmp a b = 1 := by
  induction a generalizing b with
  | nil => cases b <;> simp [listCmp]
  | cons x xs ih =>
    cases b with
    | nil => simp [listCmp]
    | cons y ys =>
      by_cases hxy : x < y
      · simp [listCmp, hxy]
      · by_cases hyx : y < x
        · simp [listCmp, hxy, hyx]
        · simpa [listCmp, hxy, hyx] using ih ys

theorem listCmp_trans_neg {a b c : List Nat}
    (hab : listCmp a b = -1) (hbc : listCmp b c = -1) : listCmp a c = -1 := by
  induction a generalizing b c with
  | nil =>
    cases c with
    | nil =>
      cases b with
      | nil => simp [listCmp] at hab
      | cons y ys => simp [listCmp] at hbc
    | cons z zs => rfl
  | cons x xs ih =>
    cases b with
    | nil => simp [listCmp] at hab
    | cons y ys =>
      cases c with
      | nil => simp [listCmp] at hbc
      | cons z zs =>
        by_cases hxy : x < y
        · by_cases hyz : y < z
          · have hxz : x < z := by omega
            simp [listCmp, hxz]
          · by_cases hzy : z < y
            · simp [listCmp, hyz, hzy] at hbc
            · have hyz' : y = z := by omega
              subst hyz'
              simp [listCmp, hxy]
        · by_cases hyx : y < x
          · simp [listCmp, hxy, hyx] at hab
          · have hxy' : x = y := by omega
            subst hxy'
            simp [listCmp, hxy] at hab
            by_cases hyz : x < z
            · simp [listCmp, hyz]
            · by_cases hzy : z < x
              · simp [listCmp, hyz, hzy] at hbc
              · have : x = z := by omega
                subst this
                simp [listCmp, hyz] at hbc ⊢
                exact ih hab hbc

theorem listCmp_le_trans {a b c : List Nat}
    (hab : listCmp a b ≤ 0) (hbc : listCmp b c ≤ 0) : listCmp a c ≤ 0 := by
  rcases listCmp_cases a b with h1 | h1 | h1
  · rcases listCmp_cases b c with h2 | h2 | h2
    · simp [listCmp_trans_neg h1 h2]
    · rw [listCmp_eq_zero_iff] at h2; subst h2; simp [h1]
    · omega
  · rw [listCmp_eq_zero_iff] at h1; subst h1; exact hbc
  · omega

/-- UTF-16 code units of a codepoint string (surrogate pairs for
codepoints above U+FFFF).  JavaScript compares strings by these units. -/
def utf16Units : Str → List Nat
  | [] => []
  | c :: cs =>
    (if c < 65536 then [c]
     else [55296 + (c - 65536) / 1024, 56320 + (c - 65536) % 1024]) ++ utf16Units cs

/-- UTF-8 encoding of a codepoint string. -/
def utf8Bytes : Str → List Nat
  | [] => []
  | c :: cs =>
    (if c < 128 then [c]
     else if c < 2048 then [192 + c / 64, 128 + c % 64]
     else if c < 65536 then [224 + c / 4096, 128 + (c / 64) % 64, 128 + c % 64]
     else [240 + c / 262144, 128 + (c / 4096) % 64, 128 + (c / 64) % 64, 128 + c % 64])
    ++ utf8Bytes cs

/-- Model of Node's `Buffer.byteLength(s, "utf8")`. -/
def utf8Len (s : Str) : Nat := (utf8Bytes s).length

/-- JavaScript native string comparison (`<`, `<=`, `>` on strings):
lexicographic over UTF-16 code units. -/
def jsCompare (a b : Str) : Int := listCmp (utf16Units a) (utf16Units b)

/-- Byte-wise comparison of the UTF-8 encodings (equivalently, for
well-formed strings, lexicographic codepoint order). -/
def utf8Compare (a b : Str) : Int := listCmp (utf8Bytes a) (utf8Bytes b)

/-- Lexicographic codepoint comparison. -/
def cpCompare (a b : Str) : Int := listCmp a b

/-- Primary collation weight of a character under the default (root)
Unicode collation, restricted to ASCII alphanumerics: digits sort before
letters, and letters compare case-insensitively.  Characters outside the
modelled repertoire are pushed past it unchanged. -/
def lcPrimary (c : Nat) : Nat :=
  if 48 ≤ c ∧ c ≤ 57 then c - 48
  else if 65 ≤ c ∧ c ≤ 90 then 10 + (c - 65)
  else if 97 ≤ c ∧ c ≤ 122 then 10 + (c - 97)
  else 1000 + c

/-- Tertiary (case) collation weight: lowercase and digits before
uppercase. -/
def lcTertiary (c : Nat) : Nat := if 65 ≤ c ∧ c ≤ 90 then 1 else 0

/-- Lexicographic combination of two `listCmp` passes: compare the first
components, and break a tie with the second components. -/
def lexPairCmp (p q : List Nat × List Nat) : Int :=
  if listCmp p.1 q.1 = 0 then listCmp p.2 q.2 else listCmp p.1 q.1

/-- Collation key of a string: primary weights, then tertiary weights. -/
def lcKey (a : Str) : List Nat × List Nat := (a.map lcPrimary, a.map lcTertiary)

/-- Model of `String.prototype.localeCompare` under the default
(root/en) collation, faithful on ASCII alphanumeric strings: compare the
primary weights lexicographically, and break a primary tie with the
tertiary (case) weights. -/
def localeCompare (a b : Str) : Int := lexPairCmp (lcKey a) (lcKey b)

theorem lexPairCmp_self (p : List Nat × List Nat) : lexPairCmp p p = 0 := by
  simp [lexPairCmp, listCmp_self]

theorem lexPairCmp_swap (p q : List Nat × List Nat) :
    lexPairCmp p q = -(lexPairCmp q p) := by
  unfold lexPairCmp
  have hs := listCmp_swap p.1 q.1
  by_cases h : listCmp p.1 q.1 = 0
  · rw [if_pos h, if_pos (by omega), listCmp_swap p.2 q.2]
  · rw [if_neg h, if_neg (by omega)]
    exact listCmp_swap p.1 q.1

theorem lexPairCmp_eq_zero_iff (p q : List Nat × List Nat) :
    lexPairCmp p q = 0 ↔ p.1 = q.1 ∧ p.2 = q.2 := by
  unfold lexPairCmp
  by_cases h : listCmp p.1 q.1 = 0
  · rw [listCmp_eq_zero_iff] at h
    simp [h, listCmp_self, listCmp_eq_zero_iff]
  · rw [if_neg h]
    constructor
    · intro h0; exact absurd h0 h
    · rintro ⟨h1, -⟩; exact absurd ((listCmp_eq_zero_iff _ _).mpr h1) h

theorem lexPairCmp_trans_neg {p q r : List Nat × List Nat}
    (hab : lexPairCmp p q < 0) (hbc : lexPairCmp q r < 0) : lexPairCmp p r < 0 := by
  have neg_iff : ∀ x y : List Nat, listCmp x y < 0 ↔ listCmp x y = -1 := by
    intro x y; rcases listCmp_cases x y with h | h | h <;> simp [h]
  unfold lexPairCmp at *
  by_cases h1 : listCmp p.1 q.1 = 0
  · rw [listCmp_eq_zero_iff] at h1
    rw [if_pos ((listCmp_eq_zero_iff _ _).mpr h1)] at hab
    by_cases h2 : listCmp q.1 r.1 = 0
    · rw [listCmp_eq_zero_iff] at h2
      rw [if_pos ((listCmp_eq_zero_iff _ _).mpr h2)] at hbc
      rw [h1, h2, if_pos ((listCmp_eq_zero_iff _ _).mpr rfl)]
      rw [neg_iff] at hab hbc ⊢
      exact listCmp_trans_neg hab hbc
    · rw [if_neg h2] at hbc
      rw [h1, if_neg h2]
      exact hbc
  · rw [if_neg h1] at hab
    by_cases h2 : listCmp q.1 r.1 = 0
    · rw [listCmp_eq_zero_iff] at h2
      rw [← h2, if_neg h1]
      exact hab
    · rw [if_neg h2] at hbc
      rw [neg_iff] at hab hbc
      have h3 := listCmp_trans_neg hab hbc
      rw [if_neg (by omega), h3]
      omega

theorem lexPairCmp_le_trans {p q r : List Nat × List Nat}
    (hab : lexPairCmp p q ≤ 0) (hbc : lexPairCmp q r ≤ 0) : lexPairCmp p r ≤ 0 := by
  rcases lt_or_eq_of_le hab with h1 | h1
  · rcases lt_or_eq_of_le hbc with h2 | h2
    · exact le_of_lt (lexPairCmp_trans_neg h1 h2)
    · have h2' := (lexPairCmp_eq_zero_iff q r).mp h2
      have : q = r := Prod.ext h2'.1 h2'.2
      subst this; exact le_of_lt h1
  · have h1' := (lexPairCmp_eq_zero_iff p q).mp h1
    have : p = q := Prod.ext h1'.1 h1'.2
    subst this; exact hbc

theorem lcChar_inj {x y : Nat} (hp : lcPrimary x = lcPrimary y)
    (ht : lcTertiary x = lcTertiary y) : x = y := by
  unfold lcPrimary at hp
  unfold lcTertiary at ht
  split_ifs at hp ht <;> omega

theorem lcKey_inj {a b : Str} (h : lcKey a = lcKey b) : a = b := by
  simp only [lcKey, Prod.mk.injEq] at h
  obtain ⟨hp, ht⟩ := h
  induction a generalizing b with
  | nil => cases b with
    | nil => rfl
    | cons y ys => simp at hp
  | cons x xs ih =>
    cases b with
    | nil => simp at hp
    | cons y ys =>
      simp at hp ht
      rw [lcChar_inj hp.1 ht.1, ih hp.2 ht.2]

theorem localeCompare_self (a : Str) : localeCompare a a = 0 :=
  lexPairCmp_self _

theorem localeCompare_swap (a b : Str) : localeCompare a b = -(localeCompare b a) :=
  lexPairCmp_swap _ _

theorem localeCompare_eq_zero_iff (a b : Str) : localeCompare a b = 0 ↔ a = b := by
  unfold localeCompare
  rw [lexPairCmp_eq_zero_iff]
  constructor
  · intro h; exact lcKey_inj (Prod.ext h.1 h.2)
  · intro h; subst h; simp

theorem localeCompare_trans_neg {a b c : Str}
    (hab : localeCompare a b < 0) (hbc : localeCompare b c < 0) :
    localeCompare a c < 0 :=
  lexPairCmp_trans_neg hab hbc

theorem localeCompare_le_trans {a b c : Str}
    (hab : localeCompare a b ≤ 0) (hbc : localeCompare b c ≤ 0) :
    localeCompare a c ≤ 0 :=
  lexPairCmp_le_trans hab hbc

/-- Characters for which the `localeCompare` model provably agrees with
codepoint order: lowercase ASCII letters and ASCII digits. -/
def plainChar (c : Nat) : Prop := (48 ≤ c ∧ c ≤ 57) ∨ (97 ≤ c ∧ c ≤ 122)

instance : DecidablePred plainChar := fun c => by unfold plainChar; infer_instance

/-- A string drawn entirely from lowercase ASCII letters and digits. -/
def plainStr (s : Str) : Prop := ∀ c ∈ s, plainChar c

instance : DecidablePred plainStr := fun s => by unfold plainStr; infer_instance

theorem plainStr_ascii {s : Str} (h : plainStr s) : ∀ c ∈ s, c < 128 := by
  intro c hc
  have := h c hc
  unfold plainChar at this
  omega

theorem utf8Bytes_ascii {s : Str} (h : ∀ c ∈ s, c < 128) : utf8Bytes s = s := by
  induction s with
  | nil => rfl
  | cons c cs ih =>
    have hc : c < 128 := h c (by simp)
    simp [utf8Bytes, hc, ih (fun x hx => h x (by simp [hx]))]

theorem utf16Units_ascii {s : Str} (h : ∀ c ∈ s, c < 128) : utf16Units s = s := by
  induction s with
  | nil => rfl
  | cons c cs ih =>
    have hc : c < 65536 := by have := h c (by simp); omega
    simp [utf16Units, hc, ih (fun x hx => h x (by simp [hx]))]

theorem lcPrimary_lt_iff {x y : Nat} (hx : plainChar x) (hy : plainChar y) :
    lcPrimary x < lcPrimary y ↔ x < y := by
  unfold plainChar at hx hy
  unfold lcPrimary
  split_ifs <;> omega

theorem listCmp_map_lcPrimary {a b : Str} (ha : plainStr a) (hb : plainStr b) :
    listCmp (a.map lcPrimary) (b.map lcPrimary) = listCmp a b := by
  induction a generalizing b with
  | nil => cases b <;> simp [listCmp]
  | cons x xs ih =>
    cases b with
    | nil => simp [listCmp]
    | cons y ys =>
      have hx := ha x (by simp)
      have hy := hb y (by simp)
      have hxs : plainStr xs := fun c hc => ha c (by simp [hc])
      have hys : plainStr ys := fun c hc => hb c (by simp [hc])
      have h1 := lcPrimary_lt_iff hx hy
      have h2 := lcPrimary_lt_iff hy hx
      by_cases hlt : x < y
      · simp [listCmp, hlt, h1.mpr hlt]
      · by_cases hgt : y < x
        · have : ¬ lcPrimary x < lcPrimary y := by rw [h1]; omega
          simp [listCmp, hlt, hgt, this, h2.mpr hgt]
        · have hxy : x = y := by omega
          subst hxy
          simp [listCmp, ih hxs hys]

theorem localeCompare_plain {a b : Str} (ha : plainStr a) (hb : plainStr b) :
    localeCompare a b = listCmp a b := by
  unfold localeCompare lexPairCmp lcKey
  by_cases h : listCmp (a.map lcPrimary) (b.map lcPrimary) = 0
  · rw [if_pos h]
    rw [listCmp_map_lcPrimary ha hb, listCmp_eq_zero_iff] at h
    subst h
    simp [listCmp_self]
  · rw [if_neg h, listCmp_map_lcPrimary ha hb]

theorem utf8Compare_plain {a b : Str} (ha : plainStr a) (hb : plainStr b) :
    utf8Compare a b = listCmp a b := by
  unfold utf8Compare
  rw [utf8Bytes_ascii (plainStr_ascii ha), utf8Bytes_ascii (plainStr_ascii hb)]

theorem jsCompare_plain {a b : Str} (ha : plainStr a) (hb : plainStr b) :
    jsCompare a b = listCmp a b := by
  unfold jsCompare
  rw [utf16Units_ascii (plainStr_ascii ha), utf16Units_ascii (plainStr_ascii hb)]

/-! ### Merge iterator entry types (MergeIteratorTypes.ts) -/

/-- An entry flowing through the merge iterator. -/
structure MergeEntry where
  key : Str
  value : Str
  timestamp : Nat
  deleted : Bool
  deriving Repr, DecidableEq

/-- A merge entry tagged with the index of the source it came from. -/
structure HeapEntry extends MergeEntry where
  sourceIndex : Nat
  deriving Repr, DecidableEq

/-- A key-value pair yielded by the merge iterator. -/
structure KVPair where
  key : Str
  value : Str
  deriving Repr, DecidableEq

/-- MergeIterator.compareHeapEntries: order heap entries by
`localeCompare` on keys, breaking ties by source index. -/
def compareHeapEntries (a b : HeapEntry) : Int :=
  let keyCompare := localeCompare a.key b.key
  if keyCompare ≠ 0 then keyCompare
  else (a.sourceIndex : Int) - (b.sourceIndex : Int)

/-! ### SSTable writer ascending-key check (SSTableWriter.ts) -/

/-- An SSTable data entry (SSTableTypes.ts). -/
structure SSTableEntry where
  key : Str
  value : Str
  timestamp : Nat
  deleted : Bool
  deriving Repr, DecidableEq

/-- In-memory state of an SSTableWriter before `build`. -/
structure WriterState where
  entries : List SSTableEntry
  lastKey : Option Str
  built : Bool
  deriving Repr, DecidableEq

/-- SSTableWriter.add: reject after `build`, reject a key that is `<=`
the previous key under JavaScript native string comparison (UTF-16
code-unit order), otherwise append the entry and remember its key. -/
def writerAdd (w : WriterState) (entry : SSTableEntry) : Except Str WriterState :=
  if w.built then .error [66]
  else
    match w.lastKey with
    | some lk =>
      if jsCompare entry.key lk ≤ 0 then .error [79]
      else .ok { entries := w.entries ++ [entry], lastKey := some entry.key, built := false }
    | none => .ok { entries := w.entries ++ [entry], lastKey := some entry.key, built := false }

/-! ### SortedMap (SortedMap.ts)

The source is a red-black tree whose `set`, `findNode`, `entries` and
`rangeTraversal` all compare keys with `key.localeCompare(other)`.  The
red-black recoloring and rotations (`fixInsert`, `rotateLeft`,
`rotateRight`) only rebalance the tree: they preserve the in-order
contents, so the embedding keeps the comparison structure and omits the
balance bookkeeping. -/

inductive Tree (V : Type) where
  | leaf
  | node (left : Tree V) (key : Str) (value : V) (right : Tree V)
  deriving Repr, DecidableEq

namespace Tree

/-- SortedMap.set: standard BST insert; an existing key (localeCompare
returns 0) has its value updated in place. -/
def set {V : Type} : Tree V → Str → V → Tree V
  | leaf, k, v => node leaf k v leaf
  | node l key val r, k, v =>
    let cmp := localeCompare k key
    if cmp = 0 then node l key v r
    else if cmp < 0 then node (set l k v) key val r
    else node l key val (set r k v)

/-- SortedMap.findNode / get: walk by localeCompare. -/
def get {V : Type} : Tree V → Str → Option V
  | leaf, _ => none
  | node l key v r, k =>
    let cmp := localeCompare k key
    if cmp = 0 then some v
    else if cmp < 0 then get l k
    else get r k

/-- SortedMap.entries: in-order traversal. -/
def entries {V : Type} : Tree V → List (Str × V)
  | leaf => []
  | node l k v r => entries l ++ (k, v) :: entries r

/-- SortedMap.rangeTraversal: visit the left subtree when this key is
past the start, include this key when it lies in the closed range, visit
the right subtree when this key is before the end. -/
def range {V : Type} : Tree V → Str → Str → List (Str × V)
  | leaf, _, _ => []
  | node l key v r, s, e =>
    let cmpStart := localeCompare key s
    let cmpEnd := localeCompare key e
    (if 0 < cmpStart then range l s e else []) ++
    (if 0 ≤ cmpStart ∧ cmpEnd ≤ 0 then [(key, v)] else []) ++
    (if cmpEnd < 0 then range r s e else [])

/-- All keys of the tree satisfy a predicate. -/
def ForallKeys {V : Type} (p : Str → Prop) : Tree V → Prop
  | leaf => True
  | node l k _ r => p k ∧ ForallKeys p l ∧ ForallKeys p r

/-- Binary-search-tree invariant under the localeCompare order. -/
def BST {V : Type} : Tree V → Prop
  | leaf => True
  | node l k _ r =>
      ForallKeys (fun x => localeCompare x k < 0) l ∧
      ForallKeys (fun x => localeCompare k x < 0) r ∧ BST l ∧ BST r

theorem forallKeys_imp {V : Type} {p q : Str → Prop} {t : Tree V}
    (h : ForallKeys p t) (himp : ∀ x, p x → q x) : ForallKeys q t := by
  induction t with
  | leaf => trivial
  | node l k v r ihl ihr =>
    obtain ⟨hk, hl, hr⟩ := h
    exact ⟨himp k hk, ihl hl, ihr hr⟩

theorem forallKeys_set {V : Type} {p : Str → Prop} {t : Tree V} {k : Str} {v : V}
    (h : ForallKeys p t) (hk : p k) : ForallKeys p (set t k v) := by
  induction t with
  | leaf => exact ⟨hk, trivial, trivial⟩
  | node l key val r ihl ihr =>
    obtain ⟨hkey, hl, hr⟩ := h
    unfold set
    by_cases h0 : localeCompare k key = 0
    · simp only [h0, if_pos rfl]
      exact ⟨hkey, hl, hr⟩
    · by_cases hneg : localeCompare k key < 0
      · simp only [if_neg h0, if_pos hneg]
        exact ⟨hkey, ihl hl, hr⟩
      · simp only [if_neg h0, if_neg hneg]
        exact ⟨hkey, hl, ihr hr⟩

theorem bst_set {V : Type} {t : Tree V} {k : Str} {v : V}
    (h : BST t) : BST (set t k v) := by
  induction t with
  | leaf => exact ⟨trivial, trivial, trivial, trivial⟩
  | node l key val r ihl ihr =>
    obtain ⟨hfl, hfr, hl, hr⟩ := h
    unfold set
    by_cases h0 : localeCompare k key = 0
    · rw [localeCompare_eq_zero_iff] at h0
      subst h0
      simp only [localeCompare_self, if_pos rfl]
      exact ⟨hfl, hfr, hl, hr⟩
    · by_cases hneg : localeCompare k key < 0
      · simp only [if_neg h0, if_pos hneg]
        exact ⟨forallKeys_set hfl hneg, hfr, ihl hl, hr⟩
      · have hpos : localeCompare key k < 0 := by
          have := localeCompare_swap k key
          omega
        simp only [if_neg h0, if_neg hneg]
        exact ⟨hfl, forallKeys_set hfr hpos, hl, ihr hr⟩

theorem get_set_eq {V : Type} (t : Tree V) (k : Str) (v : V) :
    get (set t k v) k = some v := by
  induction t with
  | leaf => simp [set, get, localeCompare_self]
  | node l key val r ihl ihr =>
    unfold set
    by_cases h0 : localeCompare k key = 0
    · simp [h0, get]
    · by_cases hneg : localeCompare k key < 0
      · simp [get, h0, hneg, ihl]
      · simp [get, h0, hneg, ihr]

theorem get_set_ne {V : Type} (t : Tree V) {k k' : Str} (v : V) (hne : k' ≠ k) :
    get (set t k v) k' = get t k' := by
  have hcmp : localeCompare k' k ≠ 0 := by
    intro h; exact hne ((localeCompare_eq_zero_iff _ _).mp h)
  induction t with
  | leaf =>
    simp only [set, get]
    rw [if_neg hcmp]
    by_cases h : localeCompare k' k < 0 <;> simp [h, get]
  | node l key val r ihl ihr =>
    unfold set
    by_cases h0 : localeCompare k key = 0
    · rw [localeCompare_eq_zero_iff] at h0
      subst h0
      simp [get, localeCompare_self, hcmp]
    · by_cases hneg : localeCompare k key < 0
      · simp only [if_neg h0, if_pos hneg]
        unfold get
        by_cases h1 : localeCompare k' key = 0
        · rw [if_pos h1, if_pos h1]
        · by_cases h2 : localeCompare k' key < 0 <;> simp [h1, h2, ihl]
      · simp only [if_neg h0, if_neg hneg]
        unfold get
        by_cases h1 : localeCompare k' key = 0
        · rw [if_pos h1, if_pos h1]
        · by_cases h2 : localeCompare k' key < 0 <;> simp [h1, h2, ihr]

end Tree

theorem localeCompare_lt_of_lt_of_le {a b c : Str}
    (h1 : localeCompare a b < 0) (h2 : localeCompare b c ≤ 0) :
    localeCompare a c < 0 := by
  rcases lt_or_eq_of_le h2 with h | h
  · exact localeCompare_trans_neg h1 h
  · have hbc := (localeCompare_eq_zero_iff b c).mp h
    subst hbc; exact h1

theorem localeCompare_lt_of_le_of_lt {a b c : Str}
    (h1 : localeCompare a b ≤ 0) (h2 : localeCompare b c < 0) :
    localeCompare a c < 0 := by
  rcases lt_or_eq_of_le h1 with h | h
  · exact localeCompare_trans_neg h h2
  · have hab := (localeCompare_eq_zero_iff a b).mp h
    subst hab; exact h2

theorem localeCompare_irrefl (a : Str) : ¬ localeCompare a a < 0 := by
  rw [localeCompare_self]; omega

namespace Tree

theorem forallKeys_entries {V : Type} {p : Str → Prop} {t : Tree V}
    (h : ForallKeys p t) : ∀ q ∈ t.entries, p q.1 := by
  induction t with
  | leaf => simp [entries]
  | node l k v r ihl ihr =>
    obtain ⟨hk, hl, hr⟩ := h
    intro q hq
    rw [entries] at hq
    rcases List.mem_append.mp hq with h1 | h1
    · exact ihl hl q h1
    · rcases List.mem_cons.mp h1 with h2 | h2
      · rw [h2]; exact hk
      · exact ihr hr q h2

theorem entries_pairwise {V : Type} {t : Tree V} (h : BST t) :
    t.entries.Pairwise (fun p q => localeCompare p.1 q.1 < 0) := by
  induction t with
  | leaf => simp [entries]
  | node l k v r ihl ihr =>
    obtain ⟨hfl, hfr, hl, hr⟩ := h
    rw [entries, List.pairwise_append]
    refine ⟨ihl hl, ?_, ?_⟩
    · rw [List.pairwise_cons]
      exact ⟨fun q hq => forallKeys_entries hfr q hq, ihr hr⟩
    · intro x hx y hy
      have hxk : localeCompare x.1 k < 0 := forallKeys_entries hfl x hx
      rcases List.mem_cons.mp hy with h2 | h2
      · rw [h2]; exact hxk
      · have hky : localeCompare k y.1 < 0 := forallKeys_entries hfr y h2
        exact localeCompare_trans_neg hxk hky

theorem get_eq_some_iff {V : Type} {t : Tree V} (h : BST t) (k : Str) (v : V) :
    t.get k = some v ↔ (k, v) ∈ t.entries := by
  induction t with
  | leaf => simp [get, entries]
  | node l key val r ihl ihr =>
    obtain ⟨hfl, hfr, hl, hr⟩ := h
    rw [entries]
    unfold get
    by_cases h0 : localeCompare k key = 0
    · have hk : k = key := (localeCompare_eq_zero_iff _ _).mp h0
      subst hk
      rw [if_pos h0]
      simp only [List.mem_append, List.mem_cons, Prod.mk.injEq, Option.some.injEq]
      constructor
      · intro hv
        exact Or.inr (Or.inl ⟨trivial, hv.symm⟩)
      · rintro (hmem | ⟨-, rfl⟩ | hmem)
        · have hlt : localeCompare k k < 0 := forallKeys_entries hfl _ hmem
          exact absurd hlt (localeCompare_irrefl k)
        · rfl
        · have hlt : localeCompare k k < 0 := forallKeys_entries hfr _ hmem
          exact absurd hlt (localeCompare_irrefl k)
    · by_cases hneg : localeCompare k key < 0
      · rw [if_neg h0, if_pos hneg, ihl hl]
        simp only [List.mem_append, List.mem_cons, Prod.mk.injEq]
        constructor
        · exact fun hm => Or.inl hm
        · rintro (hm | ⟨rfl, -⟩ | hm)
          · exact hm
          · exact absurd (localeCompare_self k) h0
          · have hlt : localeCompare key k < 0 := forallKeys_entries hfr _ hm
            have hs := localeCompare_swap k key
            omega
      · rw [if_neg h0, if_neg hneg, ihr hr]
        simp only [List.mem_append, List.mem_cons, Prod.mk.injEq]
        constructor
        · exact fun hm => Or.inr (Or.inr hm)
        · rintro (hm | ⟨rfl, -⟩ | hm)
          · have hlt : localeCompare k key < 0 := forallKeys_entries hfl _ hm
            exact absurd hlt hneg
          · exact absurd (localeCompare_self k) h0
          · exact hm

theorem range_eq_filter {V : Type} {t : Tree V} (h : BST t) (s e : Str) :
    t.range s e =
      t.entries.filter
        (fun p => decide (0 ≤ localeCompare p.1 s) && decide (localeCompare p.1 e ≤ 0)) := by
  induction t with
  | leaf => simp [range, entries]
  | node l key v r ihl ihr =>
    obtain ⟨hfl, hfr, hl, hr⟩ := h
    rw [entries, range, List.filter_append, List.filter_cons]
    have hleft : ¬ 0 < localeCompare key s →
        l.entries.filter
          (fun p => decide (0 ≤ localeCompare p.1 s) && decide (localeCompare p.1 e ≤ 0)) = [] := by
      intro hle
      rw [List.filter_eq_nil_iff]
      intro p hp
      have hpk : localeCompare p.1 key < 0 := forallKeys_entries hfl p hp
      have hps : localeCompare p.1 s < 0 :=
        localeCompare_lt_of_lt_of_le hpk (by omega)
      simp only [Bool.and_eq_true, decide_eq_true_eq, not_and]
      intro hc
      omega
    have hright : ¬ localeCompare key e < 0 →
        r.entries.filter
          (fun p => decide (0 ≤ localeCompare p.1 s) && decide (localeCompare p.1 e ≤ 0)) = [] := by
      intro hge
      rw [List.filter_eq_nil_iff]
      intro p hp
      have hkp : localeCompare key p.1 < 0 := forallKeys_entries hfr p hp
      have hep : localeCompare e p.1 < 0 :=
        localeCompare_lt_of_le_of_lt (by have := localeCompare_swap key e; omega) hkp
      have hf : ¬ localeCompare p.1 e ≤ 0 := by
        have := localeCompare_swap p.1 e; omega
      simp only [Bool.and_eq_true, decide_eq_true_eq, not_and]
      intro hc
      omega
    have hL : (if 0 < localeCompare key s then l.range s e else []) =
        l.entries.filter
          (fun p => decide (0 ≤ localeCompare p.1 s) && decide (localeCompare p.1 e ≤ 0)) := by
      by_cases hs : 0 < localeCompare key s
      · rw [if_pos hs, ihl hl]
      · rw [if_neg hs, hleft hs]
    have hR : (if localeCompare key e < 0 then r.range s e else []) =
        r.entries.filter
          (fun p => decide (0 ≤ localeCompare p.1 s) && decide (localeCompare p.1 e ≤ 0)) := by
      by_cases he : localeCompare key e < 0
      · rw [if_pos he, ihr hr]
      · rw [if_neg he, hright he]
    rw [hL, hR]
    by_cases hmidP : 0 ≤ localeCompare key s ∧ localeCompare key e ≤ 0
    · have hmidB : (decide (0 ≤ localeCompare key s) && decide (localeCompare key e ≤ 0)) = true := by
        simp only [Bool.and_eq_true, decide_eq_true_eq]
        exact hmidP
      rw [if_pos hmidP, if_pos hmidB]
      simp
    · have hmidB : ¬ ((decide (0 ≤ localeCompare key s) && decide (localeCompare key e ≤ 0)) = true) := by
        simp only [Bool.and_eq_true, decide_eq_true_eq]
        exact hmidP
      rw [if_neg hmidP, if_neg hmidB]
      simp

end Tree

/-! ### MemTable (MemTable.ts, MemTableEntry.ts) -/

/-- An entry of the MemTable. -/
structure MemTableEntry where
  value : Str
  timestamp : Nat
  deleted : Bool
  deriving Repr, DecidableEq

/-- State of a MemTable: the sorted map, the byte counter and the size
limit. -/
structure MemTable where
  data : Tree MemTableEntry
  currentSize : Int
  sizeLimit : Int
  deriving Repr

/-- MemTable.calculateEntrySize: UTF-8 byte length of key and value plus
fixed metadata overhead (timestamp 8 + deleted flag 1 + node overhead
40). -/
def calculateEntrySize (key : Str) (entry : MemTableEntry) : Int :=
  (utf8Len key : Int) + (utf8Len entry.value : Int) + (8 + 1 + 40)

/-- MemTable.put: subtract the footprint of an existing entry for the
key, store the new entry (timestamped `now`), and add its footprint. -/
def MemTable.put (m : MemTable) (key value : Str) (deleted : Bool) (now : Nat) : MemTable :=
  let afterRemove : Int :=
    match m.data.get key with
    | some existing => m.currentSize - calculateEntrySize key existing
    | none => m.currentSize
  let entry : MemTableEntry := ⟨value, now, deleted⟩
  { data := m.data.set key entry
    currentSize := afterRemove + calculateEntrySize key entry
    sizeLimit := m.sizeLimit }

/-- MemTable.delete: subtract the footprint of an existing entry for the
key, then call `put` with an empty value and the tombstone flag. -/
def MemTable.delete (m : MemTable) (key : Str) (now : Nat) : MemTable :=
  let m1 :=
    match m.data.get key with
    | some existing =>
      { m with currentSize := m.currentSize - calculateEntrySize key existing }
    | none => m
  m1.put key [] true now

/-- MemTable.clear: reset the map and the counter. -/
def MemTable.clear (m : MemTable) : MemTable :=
  { m with data := .leaf, currentSize := 0 }

/-- MemTable.isFull: the counter has reached the limit. -/
def MemTable.isFull (m : MemTable) : Bool := m.sizeLimit ≤ m.currentSize

/-- MemTable.getAllSorted: all entries in localeCompare order. -/
def MemTable.getAllSorted (m : MemTable) : List (Str × MemTableEntry) := m.data.entries

/-- MemTable.getRange: entries with keys in the closed range. -/
def MemTable.getRange (m : MemTable) (startKey endKey : Str) : List (Str × MemTableEntry) :=
  m.data.range startKey endKey

/-- Sum of the per-entry footprints of everything stored in the map —
the value the spec says `current_size` always equals. -/
def MemTable.footprint (m : MemTable) : Int :=
  (m.data.entries.map (fun p => calculateEntrySize p.1 p.2)).sum

/-! ### Byte buffers (model of Node Buffer primitives)

A Buffer is a list of bytes.  `beBytes n v` is the n-byte big-endian
encoding written by `writeUInt16BE` / `writeUInt32BE` /
`writeBigUInt64BE` (n = 2, 4, 8); `beVal` is the corresponding read;
`bufWrite` models writing a byte sequence into a buffer at an offset. -/

/-- Big-endian bytes of a value (most significant byte first). -/
def beBytes : Nat → Nat → List Nat
  | 0, _ => []
  | n + 1, v => (v / 256 ^ n % 256) :: beBytes n v

/-- Big-endian value of a byte list. -/
def beVal (bs : List Nat) : Nat := bs.foldl (fun acc b => acc * 256 + b % 256) 0

/-- Write `bytes` into `buf` starting at `off`, replacing what is
there. -/
def bufWrite (buf : List Nat) (off : Nat) (bytes : List Nat) : List Nat :=
  buf.take off ++ bytes ++ buf.drop (off + bytes.length)

theorem beBytes_length (n v : Nat) : (beBytes n v).length = n := by
  induction n generalizing v with
  | zero => rfl
  | succ n ih => simp [beBytes, ih]

theorem bufWrite_append_rep (pre : List Nat) (m : Nat) (bytes : List Nat) (off : Nat)
    (hoff : off = pre.length) :
    bufWrite (pre ++ List.replicate m 0) off bytes
      = (pre ++ bytes) ++ List.replicate (m - bytes.length) 0 := by
  subst hoff
  unfold bufWrite
  rw [List.take_left, List.drop_append, List.drop_replicate]

/-! ### SSTable footer serialization (SSTableSerializer.ts, SSTableTypes.ts) -/

/-- SSTABLE_MAGIC from SSTableTypes.ts. -/
def SSTABLE_MAGIC : Nat := 0x5353544C

/-- SSTABLE_VERSION from SSTableTypes.ts. -/
def SSTABLE_VERSION : Nat := 2

/-- SSTableSerializer.serializeFooter: allocate a buffer of
46 + |firstKey| + |lastKey| bytes and write, at the source's offsets:
file number (u32), entry count (u32), data offset (u64), index offset
(u64), first key length (u16) and bytes, last key length (u16) and
bytes, created-at (u64), version (u16), footer size (u32), magic (u32),
all big-endian.  The `allocUnsafe` buffer is modelled as zero-filled;
every byte is overwritten. -/
def serializeFooter (fileNumber entryCount dataOffset indexOffset : Nat)
    (firstKey lastKey : Str) (createdAt : Nat) : List Nat :=
  let firstKeyBuf := utf8Bytes firstKey
  let lastKeyBuf := utf8Bytes lastKey
  let totalSize := 46 + firstKeyBuf.length + lastKeyBuf.length
  bufWrite (bufWrite (bufWrite (bufWrite (bufWrite (bufWrite (bufWrite (bufWrite (bufWrite
    (bufWrite (bufWrite (bufWrite (List.replicate totalSize 0)
      0 (beBytes 4 fileNumber))
      4 (beBytes 4 entryCount))
      8 (beBytes 8 dataOffset))
      16 (beBytes 8 indexOffset))
      24 (beBytes 2 firstKeyBuf.length))
      26 firstKeyBuf)
      (26 + firstKeyBuf.length) (beBytes 2 lastKeyBuf.length))
      (28 + firstKeyBuf.length) lastKeyBuf)
      (28 + firstKeyBuf.length + lastKeyBuf.length) (beBytes 8 createdAt))
      (36 + firstKeyBuf.length + lastKeyBuf.length) (beBytes 2 SSTABLE_VERSION))
      (38 + firstKeyBuf.length + lastKeyBuf.length) (beBytes 4 totalSize))
      (42 + firstKeyBuf.length + lastKeyBuf.length) (beBytes 4 SSTABLE_MAGIC)

/-- Modelled from the spec: the claimed version-2 footer layout, with a
filter_offset u64 field between index_offset and first_key_len (the
spec says the field is present because the written version is 2). -/
def specFooterV2 (fileNumber entryCount dataOffset indexOffset filterOffset : Nat)
    (firstKey lastKey : Str) (createdAt : Nat) : List Nat :=
  beBytes 4 fileNumber ++ beBytes 4 entryCount ++ beBytes 8 dataOffset ++
  beBytes 8 indexOffset ++ beBytes 8 filterOffset ++
  beBytes 2 (utf8Bytes firstKey).length ++ utf8Bytes firstKey ++
  beBytes 2 (utf8Bytes lastKey).length ++ utf8Bytes lastKey ++
  beBytes 8 createdAt ++ beBytes 2 SSTABLE_VERSION ++
  beBytes 4 (54 + (utf8Bytes firstKey).length + (utf8Bytes lastKey).length) ++
  beBytes 4 SSTABLE_MAGIC

theorem serializeFooter_eq_layout (fileNumber entryCount dataOffset indexOffset createdAt : Nat)
    (firstKey lastKey : Str) :
    serializeFooter fileNumber entryCount dataOffset indexOffset firstKey lastKey createdAt
      = beBytes 4 fileNumber ++ beBytes 4 entryCount ++ beBytes 8 dataOffset ++
        beBytes 8 indexOffset ++
        beBytes 2 (utf8Bytes firstKey).length ++ utf8Bytes firstKey ++
        beBytes 2 (utf8Bytes lastKey).length ++ utf8Bytes lastKey ++
        beBytes 8 createdAt ++ beBytes 2 SSTABLE_VERSION ++
        beBytes 4 (46 + (utf8Bytes firstKey).length + (utf8Bytes lastKey).length) ++
        beBytes 4 SSTABLE_MAGIC := by
  simp only [serializeFooter]
  generalize utf8Bytes firstKey = FK
  generalize utf8Bytes lastKey = LK
  set T := 46 + FK.length + LK.length with hT
  set a1 := beBytes 4 fileNumber with ha1
  set a2 := beBytes 4 entryCount with ha2
  set a3 := beBytes 8 dataOffset with ha3
  set a4 := beBytes 8 indexOffset with ha4
  set a5 := beBytes 2 FK.length with ha5
  set a7 := beBytes 2 LK.length with ha7
  set a9 := beBytes 8 createdAt with ha9
  set a10 := beBytes 2 SSTABLE_VERSION with ha10
  set a11 := beBytes 4 T with ha11
  set a12 := beBytes 4 SSTABLE_MAGIC with ha12
  have l1 : a1.length = 4 := by rw [ha1]; exact beBytes_length 4 fileNumber
  have l2 : a2.length = 4 := by rw [ha2]; exact beBytes_length 4 entryCount
  have l3 : a3.length = 8 := by rw [ha3]; exact beBytes_length 8 dataOffset
  have l4 : a4.length = 8 := by rw [ha4]; exact beBytes_length 8 indexOffset
  have l5 : a5.length = 2 := by rw [ha5]; exact beBytes_length 2 FK.length
  have l7 : a7.length = 2 := by rw [ha7]; exact beBytes_length 2 LK.length
  have l9 : a9.length = 8 := by rw [ha9]; exact beBytes_length 8 createdAt
  have l10 : a10.length = 2 := by rw [ha10]; exact beBytes_length 2 SSTABLE_VERSION
  have l11 : a11.length = 4 := by rw [ha11]; exact beBytes_length 4 T
  have s1 : bufWrite (List.replicate T 0) 0 a1 = a1 ++ List.replicate (T - 4) 0 := by
    have h := bufWrite_append_rep [] T a1 0 rfl
    rw [List.nil_append] at h
    rw [h, List.nil_append]
    have hc : T - a1.length = T - 4 := by omega
    rw [hc]
  have s2 : bufWrite (a1 ++ List.replicate (T - 4) 0) 4 a2
      = (a1 ++ a2) ++ List.replicate (T - 8) 0 := by
    rw [bufWrite_append_rep a1 (T - 4) a2 4 (by omega)]
    have hc : T - 4 - a2.length = T - 8 := by omega
    rw [hc]
  have s3 : bufWrite ((a1 ++ a2) ++ List.replicate (T - 8) 0) 8 a3
      = ((a1 ++ a2) ++ a3) ++ List.replicate (T - 16) 0 := by
    rw [bufWrite_append_rep (a1 ++ a2) (T - 8) a3 8
      (by simp only [List.length_append]; omega)]
    have hc : T - 8 - a3.length = T - 16 := by omega
    rw [hc]
  have s4 : bufWrite (((a1 ++ a2) ++ a3) ++ List.replicate (T - 16) 0) 16 a4
      = (((a1 ++ a2) ++ a3) ++ a4) ++ List.replicate (T - 24) 0 := by
    rw [bufWrite_append_rep ((a1 ++ a2) ++ a3) (T - 16) a4 16
      (by simp only [List.length_append]; omega)]
    have hc : T - 16 - a4.length = T - 24 := by omega
    rw [hc]
  have s5 : bufWrite ((((a1 ++ a2) ++ a3) ++ a4) ++ List.replicate (T - 24) 0) 24 a5
      = ((((a1 ++ a2) ++ a3) ++ a4) ++ a5) ++ List.replicate (T - 26) 0 := by
    rw [bufWrite_append_rep (((a1 ++ a2) ++ a3) ++ a4) (T - 24) a5 24
      (by simp only [List.length_append]; omega)]
    have hc : T - 24 - a5.length = T - 26 := by omega
    rw [hc]
  have s6 : bufWrite (((((a1 ++ a2) ++ a3) ++ a4) ++ a5) ++ List.replicate (T - 26) 0) 26 FK
      = (((((a1 ++ a2) ++ a3) ++ a4) ++ a5) ++ FK)
        ++ List.replicate (T - (26 + FK.length)) 0 := by
    rw [bufWrite_append_rep ((((a1 ++ a2) ++ a3) ++ a4) ++ a5) (T - 26) FK 26
      (by simp only [List.length_append]; omega)]
    have hc : T - 26 - FK.length = T - (26 + FK.length) := by omega
    rw [hc]
  have s7 : bufWrite
        ((((((a1 ++ a2) ++ a3) ++ a4) ++ a5) ++ FK) ++ List.replicate (T - (26 + FK.length)) 0)
        (26 + FK.length) a7
      = ((((((a1 ++ a2) ++ a3) ++ a4) ++ a5) ++ FK) ++ a7)
        ++ List.replicate (T - (28 + FK.length)) 0 := by
    rw [bufWrite_append_rep (((((a1 ++ a2) ++ a3) ++ a4) ++ a5) ++ FK)
      (T - (26 + FK.length)) a7 (26 + FK.length)
      (by simp only [List.length_append]; omega)]
    have hc : T - (26 + FK.length) - a7.length = T - (28 + FK.length) := by omega
    rw [hc]
  have s8 : bufWrite
        (((((((a1 ++ a2) ++ a3) ++ a4) ++ a5) ++ FK) ++ a7)
          ++ List.replicate (T - (28 + FK.length)) 0)
        (28 + FK.length) LK
      = (((((((a1 ++ a2) ++ a3) ++ a4) ++ a5) ++ FK) ++ a7) ++ LK)
        ++ List.replicate (T - (28 + FK.length + LK.length)) 0 := by
    rw [bufWrite_append_rep ((((((a1 ++ a2) ++ a3) ++ a4) ++ a5) ++ FK) ++ a7)
      (T - (28 + FK.length)) LK (28 + FK.length)
      (by simp only [List.length_append]; omega)]
    have hc : T - (28 + FK.length) - LK.length = T - (28 + FK.length + LK.length) := by omega
    rw [hc]
  have s9 : bufWrite
        ((((((((a1 ++ a2) ++ a3) ++ a4) ++ a5) ++ FK) ++ a7) ++ LK)
          ++ List.replicate (T - (28 + FK.length + LK.length)) 0)
        (28 + FK.length + LK.length) a9
      = ((((((((a1 ++ a2) ++ a3) ++ a4) ++ a5) ++ FK) ++ a7) ++ LK) ++ a9)
        ++ List.replicate (T - (36 + FK.length + LK.length)) 0 := by
    rw [bufWrite_append_rep (((((((a1 ++ a2) ++ a3) ++ a4) ++ a5) ++ FK) ++ a7) ++ LK)
      (T - (28 + FK.length + LK.length)) a9 (28 + FK.length + LK.length)
      (by simp only [List.length_append]; omega)]
    have hc : T - (28 + FK.length + LK.length) - a9.length
        = T - (36 + FK.length + LK.length) := by omega
    rw [hc]
  have s10 : bufWrite
        (((((((((a1 ++ a2) ++ a3) ++ a4) ++ a5) ++ FK) ++ a7) ++ LK) ++ a9)
          ++ List.replicate (T - (36 + FK.length + LK.length)) 0)
        (36 + FK.length + LK.length) a10
      = (((((((((a1 ++ a2) ++ a3) ++ a4) ++ a5) ++ FK) ++ a7) ++ LK) ++ a9) ++ a10)
        ++ List.replicate (T - (38 + FK.length + LK.length)) 0 := by
    rw [bufWrite_append_rep ((((((((a1 ++ a2) ++ a3) ++ a4) ++ a5) ++ FK) ++ a7) ++ LK) ++ a9)
      (T - (36 + FK.length + LK.length)) a10 (36 + FK.length + LK.length)
      (by simp only [List.length_append]; omega)]
    have hc : T - (36 + FK.length + LK.length) - a10.length
        = T - (38 + FK.length + LK.length) := by omega
    rw [hc]
  have s11 : bufWrite
        ((((((((((a1 ++ a2) ++ a3) ++ a4) ++ a5) ++ FK) ++ a7) ++ LK) ++ a9) ++ a10)
          ++ List.replicate (T - (38 + FK.length + LK.length)) 0)
        (38 + FK.length + LK.length) a11
      = ((((((((((a1 ++ a2) ++ a3) ++ a4) ++ a5) ++ FK) ++ a7) ++ LK) ++ a9) ++ a10) ++ a11)
        ++ List.replicate (T - (42 + FK.length + LK.length)) 0 := by
    rw [bufWrite_append_rep
      (((((((((a1 ++ a2) ++ a3) ++ a4) ++ a5) ++ FK) ++ a7) ++ LK) ++ a9) ++ a10)
      (T - (38 + FK.length + LK.length)) a11 (38 + FK.length + LK.length)
      (by simp only [List.length_append]; omega)]
    have hc : T - (38 + FK.length + LK.length) - a11.length
        = T - (42 + FK.length + LK.length) := by omega
    rw [hc]
  have s12 : bufWrite
        (((((((((((a1 ++ a2) ++ a3) ++ a4) ++ a5) ++ FK) ++ a7) ++ LK) ++ a9) ++ a10) ++ a11)
          ++ List.replicate (T - (42 + FK.length + LK.length)) 0)
        (42 + FK.length + LK.length) a12
      = ((((((((((((a1 ++ a2) ++ a3) ++ a4) ++ a5) ++ FK) ++ a7) ++ LK) ++ a9) ++ a10) ++ a11)
          ++ a12) : List Nat) := by
    rw [bufWrite_append_rep
      ((((((((((a1 ++ a2) ++ a3) ++ a4) ++ a5) ++ FK) ++ a7) ++ LK) ++ a9) ++ a10) ++ a11)
      (T - (42 + FK.length + LK.length)) a12 (42 + FK.length + LK.length)
      (by simp only [List.length_append]; omega)]
    have ha12l : a12.length = 4 := by rw [ha12]; exact beBytes_length 4 SSTABLE_MAGIC
    have hc : T - (42 + FK.length + LK.length) - a12.length = 0 := by omega
    rw [hc, List.replicate_zero, List.append_nil]
  rw [s1, s2, s3, s4, s5, s6, s7, s8, s9, s10, s11, s12]

/-! ### Claim C2 -/

/-- C2 counterexample: at the key pair ("a", "B") the comparator used by
SortedMap.set / findNode and by MergeIterator.compareHeapEntries
(`localeCompare`) orders "a" strictly before "B", while byte-wise
comparison of the UTF-8 encodings orders "B" strictly before "a"; and a
SortedMap holding both keys iterates them as ["a", "B"], not in
codepoint order.  So it is false that every key comparison in the system
agrees with codepoint order. -/
theorem C2_counterexample :
    localeCompare [97] [66] < 0 ∧ 0 < utf8Compare [97] [66] ∧
    compareHeapEntries ⟨⟨[97], [], 0, false⟩, 0⟩ ⟨⟨[66], [], 0, false⟩, 0⟩ < 0 ∧
    (Tree.set (Tree.set Tree.leaf [97] (0 : Nat)) [66] 0).entries.map Prod.fst
      = [[97], [66]] := by
  decide

/-- C2 (amended): restricted to keys over lowercase ASCII letters and
digits, all key comparisons agree: the SortedMap / merge-iterator
comparator (`localeCompare`), the heap comparator on distinct keys, and
the SSTable writer's native ascending check all coincide with byte-wise
comparison of the UTF-8 encodings. -/
theorem C2_keyComparisons_agree_on_plain (a b : Str) (ha : plainStr a) (hb : plainStr b) :
    localeCompare a b = utf8Compare a b ∧
    jsCompare a b = utf8Compare a b ∧
    (∀ e f : HeapEntry, e.key = a → f.key = b → a ≠ b →
        compareHeapEntries e f = utf8Compare a b) ∧
    (∀ w entry, w.built = false → w.lastKey = some a → entry.key = b →
        ((∃ w', writerAdd w entry = .ok w') ↔ 0 < utf8Compare b a)) := by
  have hlc := localeCompare_plain ha hb
  have hu8 := utf8Compare_plain ha hb
  have hjs := jsCompare_plain ha hb
  refine ⟨by rw [hlc, hu8], by rw [hjs, hu8], ?_, ?_⟩
  · intro e f he hf hne
    have hne0 : localeCompare a b ≠ 0 := fun h => hne ((localeCompare_eq_zero_iff a b).mp h)
    unfold compareHeapEntries
    rw [he, hf, if_pos hne0, hlc, hu8]
  · intro w entry hbuilt hlast hkey
    have hba : jsCompare b a = utf8Compare b a := by
      rw [jsCompare_plain hb ha, utf8Compare_plain hb ha]
    simp only [writerAdd, hbuilt, hlast, hkey, Bool.false_eq_true, if_false]
    by_cases hle : jsCompare b a ≤ 0
    · rw [if_pos hle]
      constructor
      · rintro ⟨w', hw⟩
        exact absurd hw (by simp)
      · intro h
        omega
    · rw [if_neg hle]
      exact ⟨fun _ => by omega, fun _ => ⟨_, rfl⟩⟩

/-- C2 witness: the amended agreement instantiated at the concrete plain
keys "a" and "b". -/
theorem C2_keyComparisons_agree_on_plain_witness :
    plainStr [97] ∧ plainStr [98] ∧ localeCompare [97] [98] = utf8Compare [97] [98] :=
  ⟨by decide, by decide,
    (C2_keyComparisons_agree_on_plain [97] [98] (by decide) (by decide)).1⟩

/-! ### Claim C7 -/

/-- C7 counterexample: the footer written by serializeFooter for file
number 1, entry count 1, offsets 0, first key "a", last key "b" is 48
bytes and contains no filter_offset field: it cannot equal the claimed
version-2 layout (which has a u64 filter_offset and is 56 bytes here)
for any filter offset value. -/
theorem C7_counterexample :
    ¬ ∃ filterOffset, serializeFooter 1 1 0 0 [97] [98] 0
        = specFooterV2 1 1 0 0 filterOffset [97] [98] 0 := by
  rintro ⟨fo, h⟩
  have h97 : utf8Bytes [97] = [97] := by decide
  have h98 : utf8Bytes [98] = [98] := by decide
  have h1 : (serializeFooter 1 1 0 0 [97] [98] 0).length = 48 := by
    rw [serializeFooter_eq_layout]
    simp [beBytes_length, List.length_append, h97, h98]
  have h2 : (specFooterV2 1 1 0 0 fo [97] [98] 0).length = 56 := by
    simp [specFooterV2, h97, h98, beBytes_length, List.length_append]
  rw [h, h2] at h1
  omega

/-- C7 (amended): for inputs in the ranges Node's buffer writers accept,
the serialized footer contains, in order and big-endian: file_number
(u32), entry_count (u32), data_offset (u64), index_offset (u64),
first_key_len (u16) and first_key, last_key_len (u16) and last_key,
created_at (u64), version (u16 = 2), footer_size (u32) and magic
(u32 = 0x5353544C) — with no filter_offset field despite version 2 —
and footer_size and magic occupy the last 8 bytes. -/
theorem C7_footerFields (fileNumber entryCount dataOffset indexOffset createdAt : Nat)
    (firstKey lastKey : Str)
    (hfn : fileNumber < 2 ^ 32) (hec : entryCount < 2 ^ 32)
    (hdo : dataOffset < 2 ^ 64) (hio : indexOffset < 2 ^ 64) (hca : createdAt < 2 ^ 64)
    (hfk : (utf8Bytes firstKey).length < 2 ^ 16) (hlk : (utf8Bytes lastKey).length < 2 ^ 16) :
    serializeFooter fileNumber entryCount dataOffset indexOffset firstKey lastKey createdAt
      = beBytes 4 fileNumber ++ beBytes 4 entryCount ++ beBytes 8 dataOffset ++
        beBytes 8 indexOffset ++
        beBytes 2 (utf8Bytes firstKey).length ++ utf8Bytes firstKey ++
        beBytes 2 (utf8Bytes lastKey).length ++ utf8Bytes lastKey ++
        beBytes 8 createdAt ++ beBytes 2 SSTABLE_VERSION ++
        beBytes 4 (46 + (utf8Bytes firstKey).length + (utf8Bytes lastKey).length) ++
        beBytes 4 SSTABLE_MAGIC
    ∧ (serializeFooter fileNumber entryCount dataOffset indexOffset firstKey lastKey
        createdAt).length
        = 46 + (utf8Bytes firstKey).length + (utf8Bytes lastKey).length
    ∧ (serializeFooter fileNumber entryCount dataOffset indexOffset firstKey lastKey
        createdAt).drop
          (38 + (utf8Bytes firstKey).length + (utf8Bytes lastKey).length)
        = beBytes 4 (46 + (utf8Bytes firstKey).length + (utf8Bytes lastKey).length) ++
          beBytes 4 SSTABLE_MAGIC := by
  refine ⟨serializeFooter_eq_layout fileNumber entryCount dataOffset indexOffset createdAt
    firstKey lastKey, ?_, ?_⟩
  · rw [serializeFooter_eq_layout]
    simp only [List.length_append, beBytes_length]
    omega
  · rw [serializeFooter_eq_layout, List.append_assoc]
    rw [List.drop_left' (by simp only [List.length_append, beBytes_length]; omega)]

/-- C7 witness: the amended layout instantiated at concrete inputs. -/
theorem C7_footerFields_witness :
    (serializeFooter 1 1 0 0 [97] [98] 0).length
      = 46 + (utf8Bytes [97]).length + (utf8Bytes [98]).length :=
  (C7_footerFields 1 1 0 0 0 [97] [98] (by decide) (by decide) (by decide) (by decide)
    (by decide) (by decide) (by decide)).2.1

/-! ### Claim C6 -/

/-- C6: the code's size accounting breaks on delete.  Putting key "a"
with value "xx" makes `currentSize` 52 (= 1 + 2 + 49), matching the
stored footprint; deleting "a" then subtracts the old footprint twice
(once in `delete`, once again inside the `put` it calls) before adding
the tombstone footprint 50, leaving `currentSize` at -2 while the sum of
stored footprints is 50.  The claimed invariant `current_size = sum of
footprints` fails. -/
theorem C6_delete_double_subtracts :
    (((MemTable.mk Tree.leaf 0 1000).put [97] [120, 120] false 0).currentSize = 52 ∧
      MemTable.footprint ((MemTable.mk Tree.leaf 0 1000).put [97] [120, 120] false 0) = 52) ∧
    ((((MemTable.mk Tree.leaf 0 1000).put [97] [120, 120] false 0).delete [97] 1).currentSize
        = -2 ∧
      MemTable.footprint
        (((MemTable.mk Tree.leaf 0 1000).put [97] [120, 120] false 0).delete [97] 1) = 50) ∧
    (((MemTable.mk Tree.leaf 0 1000).put [97] [120, 120] false 0).delete [97] 1).currentSize ≠
      MemTable.footprint
        (((MemTable.mk Tree.leaf 0 1000).put [97] [120, 120] false 0).delete [97] 1) := by
  decide

/-! ### WAL (WAL.ts, LogEntry.ts)

Strings read back from disk are represented by their raw UTF-8 byte
lists (decoding is the identity on this representation). -/

/-- Log operation kinds (LogEntry.ts). -/
inductive LogOperationType where
  | PUT
  | DELETE
  | BATCH_PUT
  deriving Repr, DecidableEq

/-- A WAL log entry (LogEntry.ts): optional fields mirror the
TypeScript optional properties. -/
structure LogEntry where
  sequenceId : Nat
  timestamp : Nat
  operation : LogOperationType
  key : Option Str := none
  value : Option Str := none
  keys : Option (List Str) := none
  values : Option (List Str) := none
  deriving Repr, DecidableEq

/-- WAL.operationToCode. -/
def operationToCode : LogOperationType → Nat
  | .PUT => 1
  | .DELETE => 2
  | .BATCH_PUT => 3

/-- WAL.codeToOperation: unknown codes throw. -/
def codeToOperation (code : Nat) : Except Unit LogOperationType :=
  if code = 1 then .ok .PUT
  else if code = 2 then .ok .DELETE
  else if code = 3 then .ok .BATCH_PUT
  else .error ()

/-- The reflected CRC-32 polynomial used by WAL.calculateChecksum. -/
def CRC_POLY : Nat := 0xEDB88320

/-- One iteration of the inner loop of WAL.calculateChecksum:
`crc = (crc >>> 1) ^ (0xEDB88320 & -(crc & 1))`. -/
def crc32Step (crc : Nat) : Nat :=
  (crc / 2) ^^^ (if crc % 2 = 1 then CRC_POLY else 0)

/-- Processing one byte: xor it in, then eight shift steps. -/
def crc32Byte (crc b : Nat) : Nat := (crc32Step)^[8] (crc ^^^ b)

/-- WAL.calculateChecksum: CRC-32 over a byte buffer, starting from
0xFFFFFFFF and complementing (xor with 0xFFFFFFFF) at the end. -/
def calculateChecksum (buffer : List Nat) : Nat :=
  (buffer.foldl crc32Byte 0xFFFFFFFF) ^^^ 0xFFFFFFFF

theorem crc32Step_lt {c : Nat} (h : c < 2 ^ 32) : crc32Step c < 2 ^ 32 := by
  unfold crc32Step
  have h1 : c / 2 < 2 ^ 32 := by omega
  by_cases hp : c % 2 = 1
  · rw [if_pos hp]
    exact Nat.xor_lt_two_pow h1 (by norm_num [CRC_POLY])
  · rw [if_neg hp]
    simpa using h1

theorem crc32Step_inj {c c' : Nat} (hc : c < 2 ^ 32) (hc' : c' < 2 ^ 32)
    (h : crc32Step c = crc32Step c') : c = c' := by
  have hxor_ge : ∀ x : Nat, x < 2 ^ 31 → 2 ^ 31 ≤ x ^^^ CRC_POLY := by
    intro x hx
    apply Nat.testBit_implies_ge
    rw [Nat.testBit_xor, Nat.testBit_lt_two_pow hx]
    decide
  unfold crc32Step at h
  by_cases hp : c % 2 = 1 <;> by_cases hp' : c' % 2 = 1
  · rw [if_pos hp, if_pos hp'] at h
    have := Nat.xor_left_inj.mp h
    omega
  · rw [if_pos hp, if_neg hp'] at h
    simp only [Nat.xor_zero] at h
    have h1 : 2 ^ 31 ≤ c / 2 ^^^ CRC_POLY := hxor_ge _ (by omega)
    omega
  · rw [if_neg hp, if_pos hp'] at h
    simp only [Nat.xor_zero] at h
    have h1 : 2 ^ 31 ≤ c' / 2 ^^^ CRC_POLY := hxor_ge _ (by omega)
    omega
  · rw [if_neg hp, if_neg hp'] at h
    simp only [Nat.xor_zero] at h
    omega

theorem iterate_crc32Step_lt (n : Nat) {c : Nat} (h : c < 2 ^ 32) :
    (crc32Step)^[n] c < 2 ^ 32 := by
  induction n generalizing c with
  | zero => simpa using h
  | succ n ih =>
    rw [Function.iterate_succ_apply]
    exact ih (crc32Step_lt h)

theorem iterate_crc32Step_inj (n : Nat) {c c' : Nat} (hc : c < 2 ^ 32) (hc' : c' < 2 ^ 32)
    (h : (crc32Step)^[n] c = (crc32Step)^[n] c') : c = c' := by
  induction n generalizing c c' with
  | zero => simpa using h
  | succ n ih =>
    rw [Function.iterate_succ_apply, Function.iterate_succ_apply] at h
    exact crc32Step_inj hc hc' (ih (crc32Step_lt hc) (crc32Step_lt hc') h)

theorem crc32Byte_lt {c b : Nat} (hc : c < 2 ^ 32) (hb : b < 2 ^ 32) :
    crc32Byte c b < 2 ^ 32 :=
  iterate_crc32Step_lt 8 (Nat.xor_lt_two_pow hc hb)

theorem crc32Byte_inj_state {c c' b : Nat} (hc : c < 2 ^ 32) (hc' : c' < 2 ^ 32)
    (hb : b < 2 ^ 32) (h : crc32Byte c b = crc32Byte c' b) : c = c' := by
  have h1 := iterate_crc32Step_inj 8 (Nat.xor_lt_two_pow hc hb) (Nat.xor_lt_two_pow hc' hb) h
  exact Nat.xor_left_inj.mp h1

theorem crc32Byte_inj_byte {c b b' : Nat} (hc : c < 2 ^ 32) (hb : b < 2 ^ 32)
    (hb' : b' < 2 ^ 32) (h : crc32Byte c b = crc32Byte c b') : b = b' := by
  have h1 := iterate_crc32Step_inj 8 (Nat.xor_lt_two_pow hc hb) (Nat.xor_lt_two_pow hc hb') h
  exact Nat.xor_right_inj.mp h1

theorem foldl_crc32Byte_lt {l : List Nat} (hl : ∀ x ∈ l, x < 256) {s : Nat}
    (hs : s < 2 ^ 32) : l.foldl crc32Byte s < 2 ^ 32 := by
  induction l generalizing s with
  | nil => simpa using hs
  | cons x xs ih =>
    rw [List.foldl_cons]
    exact ih (fun y hy => hl y (by simp [hy]))
      (crc32Byte_lt hs (by have := hl x (by simp); omega))

theorem foldl_crc32Byte_ne {l : List Nat} (hl : ∀ x ∈ l, x < 256) {s t : Nat}
    (hs : s < 2 ^ 32) (ht : t < 2 ^ 32) (hne : s ≠ t) :
    l.foldl crc32Byte s ≠ l.foldl crc32Byte t := by
  induction l generalizing s t with
  | nil => simpa using hne
  | cons x xs ih =>
    rw [List.foldl_cons, List.foldl_cons]
    have hx : x < 2 ^ 32 := by have := hl x (by simp); omega
    exact ih (fun y hy => hl y (by simp [hy])) (crc32Byte_lt hs hx) (crc32Byte_lt ht hx)
      (fun hEq => hne (crc32Byte_inj_state hs ht hx hEq))

/-- A single changed byte anywhere in the buffer changes the CRC-32. -/
theorem calculateChecksum_flip (P S : List Nat) (b b' : Nat)
    (hP : ∀ x ∈ P, x < 256) (hS : ∀ x ∈ S, x < 256)
    (hb : b < 256) (hb' : b' < 256) (hne : b ≠ b') :
    calculateChecksum (P ++ b :: S) ≠ calculateChecksum (P ++ b' :: S) := by
  unfold calculateChecksum
  intro h
  have h1 := Nat.xor_left_inj.mp h
  rw [List.foldl_append, List.foldl_append, List.foldl_cons, List.foldl_cons] at h1
  have hs0 : P.foldl crc32Byte 0xFFFFFFFF < 2 ^ 32 := foldl_crc32Byte_lt hP (by norm_num)
  have hd : crc32Byte (P.foldl crc32Byte 0xFFFFFFFF) b
      ≠ crc32Byte (P.foldl crc32Byte 0xFFFFFFFF) b' :=
    fun hEq => hne (crc32Byte_inj_byte hs0 (by omega) (by omega) hEq)
  exact foldl_crc32Byte_ne hS (crc32Byte_lt hs0 (by omega)) (crc32Byte_lt hs0 (by omega)) hd h1

/-- JavaScript falsiness of an optional string: absent or empty. -/
def strFalsy : Option Str → Bool
  | none => true
  | some [] => true
  | some (_ :: _) => false

/-- WAL.serializePayload.  The PUT case guards with
`!entry.key || !entry.value`, so an absent OR EMPTY key or value throws
(error code 80); DELETE guards only the key (code 68); BATCH_PUT
requires both arrays present with equal lengths (code 66) — note an
empty array is truthy in JavaScript.  Payload layouts are:
PUT `[keyLen u16][key][valueLen u32][value]`, DELETE `[keyLen u16][key]`,
BATCH_PUT `[count u32]` then key/value pairs. -/
def serializePayload (entry : LogEntry) : Except Str (List Nat) :=
  match entry.operation with
  | .PUT =>
    if strFalsy entry.key || strFalsy entry.value then .error [80]
    else
      let keyBuf := utf8Bytes (entry.key.getD [])
      let valueBuf := utf8Bytes (entry.value.getD [])
      .ok (beBytes 2 keyBuf.length ++ keyBuf ++ beBytes 4 valueBuf.length ++ valueBuf)
  | .DELETE =>
    if strFalsy entry.key then .error [68]
    else
      let keyBuf := utf8Bytes (entry.key.getD [])
      .ok (beBytes 2 keyBuf.length ++ keyBuf)
  | .BATCH_PUT =>
    match entry.keys, entry.values with
    | some ks, some vs =>
      if ks.length ≠ vs.length then .error [66]
      else
        .ok (beBytes 4 ks.length ++
          (List.zip ks vs).foldr
            (fun kv acc =>
              beBytes 2 (utf8Bytes kv.1).length ++ utf8Bytes kv.1 ++
              beBytes 4 (utf8Bytes kv.2).length ++ utf8Bytes kv.2 ++ acc) [])
    | _, _ => .error [66]

/-! ### Group-commit batch flush (WAL.flushBatch, WAL.append) -/

/-- Outcome of a pending append's promise after a batch flush. -/
inductive PromiseOutcome where
  | resolved
  | rejected
  deriving Repr, DecidableEq

/-- I/O fault model for one batch flush: whether the i-th `writeEntry`
succeeds, and whether the final fsync succeeds. -/
structure FlushIO where
  writeOk : Nat → Bool
  syncOk : Bool

/-- The write loop of WAL.flushBatch: write each batch entry in order;
the first failing write throws out of the loop. Returns the number of
entries written on success. -/
def runWrites (io : FlushIO) : Nat → List LogEntry → Except Unit Nat
  | i, [] => .ok i
  | i, _ :: rest => if io.writeOk i then runWrites io (i + 1) rest else .error ()

/-- WAL.flushBatch: snapshot the pending batch, write every entry, then
one fsync; on success resolve every promise of the batch in order, on
any thrown error reject every promise of the batch in order.  Returns
the outcome of each pending append, index-aligned with the batch. -/
def flushBatch (batch : List LogEntry) (io : FlushIO) : List PromiseOutcome :=
  match runWrites io 0 batch with
  | .error _ => batch.map fun _ => .rejected
  | .ok _ =>
    if io.syncOk then batch.map fun _ => .resolved
    else batch.map fun _ => .rejected

/-! ### Claim C4 -/

/-- C4: group-commit atomicity of a batch flush.  Every batch is
all-or-nothing: each pending append of the batch gets an outcome, and
either every one resolves or every one rejects; when the writes and the
fsync all succeed every append resolves, and when any write or the
fsync fails every append rejects.  No batch mixes outcomes. -/
theorem C4_group_commit_atomicity (batch : List LogEntry) (io : FlushIO) :
    (flushBatch batch io).length = batch.length ∧
    ((∀ o ∈ flushBatch batch io, o = PromiseOutcome.resolved) ∨
      (∀ o ∈ flushBatch batch io, o = PromiseOutcome.rejected)) ∧
    ((∃ n, runWrites io 0 batch = .ok n) ∧ io.syncOk = true →
      ∀ o ∈ flushBatch batch io, o = PromiseOutcome.resolved) ∧
    ((∀ n, runWrites io 0 batch ≠ .ok n) ∨ io.syncOk = false →
      ∀ o ∈ flushBatch batch io, o = PromiseOutcome.rejected) := by
  have hconst : ∀ (c : PromiseOutcome) (l : List LogEntry), ∀ o ∈ l.map (fun _ => c), o = c := by
    intro c l o ho
    obtain ⟨a, -, he⟩ := List.mem_map.mp ho
    exact he.symm
  have hferr : ∀ e, runWrites io 0 batch = .error e →
      flushBatch batch io = batch.map fun _ => PromiseOutcome.rejected := by
    intro e h
    unfold flushBatch
    rw [h]
  have hfok : ∀ n, runWrites io 0 batch = .ok n →
      flushBatch batch io =
        if io.syncOk then batch.map fun _ => PromiseOutcome.resolved
        else batch.map fun _ => PromiseOutcome.rejected := by
    intro n h
    unfold flushBatch
    rw [h]
  rcases hrw : runWrites io 0 batch with e | n
  · rw [hferr e hrw]
    refine ⟨by simp, Or.inr (hconst _ _), ?_, fun _ => hconst _ _⟩
    rintro ⟨⟨n, hn⟩, -⟩
    exact absurd hn (by simp)
  · by_cases hsync : io.syncOk
    · rw [hfok n hrw, if_pos hsync]
      refine ⟨by simp, Or.inl (hconst _ _), fun _ => hconst _ _, ?_⟩
      rintro (h | h)
      · exact absurd rfl (h n)
      · rw [h] at hsync
        exact absurd hsync (by simp)
    · rw [hfok n hrw, if_neg hsync]
      refine ⟨by simp, Or.inr (hconst _ _), ?_, fun _ => hconst _ _⟩
      rintro ⟨-, hs⟩
      exact absurd hs hsync

/-- C4 witness: a two-append batch with all I/O succeeding resolves
both appends. -/
theorem C4_group_commit_atomicity_witness :
    ∀ o ∈ flushBatch [⟨0, 0, LogOperationType.PUT, some [97], some [98], none, none⟩,
        ⟨1, 0, LogOperationType.DELETE, some [97], none, none, none⟩]
      ⟨fun _ => true, true⟩, o = PromiseOutcome.resolved :=
  (C4_group_commit_atomicity _ _).2.2.1 ⟨⟨2, rfl⟩, rfl⟩

/-! ### Claim C8 -/

/-- C8: the code rejects a Put whose value is the empty string.  A PUT
entry with key "a" and empty value makes serializePayload throw (the
empty string is falsy in the `!entry.key || !entry.value` guard), while
the same entry with a one-byte value serializes fine.  The spec's
intent — key presence alone decides validity, empty values allowed — is
violated by the code. -/
theorem C8_put_empty_value_rejected :
    serializePayload ⟨0, 0, LogOperationType.PUT, some [97], some [], none, none⟩
      = .error [80] ∧
    serializePayload ⟨0, 0, LogOperationType.PUT, some [97], some [98], none, none⟩
      = .ok ([0, 1] ++ [97] ++ [0, 0, 0, 1] ++ [98]) :=
  ⟨rfl, rfl⟩

/-! ### WAL replay (WAL.readLogFile and its deserializers) -/

/-- Node Buffer.readUIntBE family: big-endian unsigned read of n bytes;
a read past the end of the buffer throws ERR_OUT_OF_RANGE. -/
def readUIntBE (bs : List Nat) (off n : Nat) : Except Unit Nat :=
  if off + n ≤ bs.length then .ok (beVal ((bs.drop off).take n)) else .error ()

/-- Buffer.toString("utf8", start, end): a clamped slice that never
throws; the decoded string is represented by its raw bytes. -/
def readBytes (bs : List Nat) (off len : Nat) : Str := (bs.drop off).take len

/-- The BATCH_PUT deserialization loop: `count` pairs of
`[keyLen u16][key][valueLen u32][value]`.  Note the value slice is
clamped but the following length read throws if the offset ran past the
end. -/
def readBatchPairs (payload : List Nat) : Nat → Nat → Except Unit (List Str × List Str)
  | _, 0 => .ok ([], [])
  | off, n + 1 => do
    let keyLen ← readUIntBE payload off 2
    let key := readBytes payload (off + 2) keyLen
    let valueLen ← readUIntBE payload (off + 2 + keyLen) 4
    let value := readBytes payload (off + 2 + keyLen + 4) valueLen
    let rest ← readBatchPairs payload (off + 2 + keyLen + 4 + valueLen) n
    .ok (key :: rest.1, value :: rest.2)

/-- WAL.deserializePayload: per-operation payload decoding, returning
the optional key/value/keys/values fields. -/
def deserializePayload (operation : LogOperationType) (payload : List Nat) :
    Except Unit (Option Str × Option Str × Option (List Str) × Option (List Str)) :=
  match operation with
  | .PUT => do
    let keyLen ← readUIntBE payload 0 2
    let key := readBytes payload 2 keyLen
    let valueLen ← readUIntBE payload (2 + keyLen) 4
    let value := readBytes payload (2 + keyLen + 4) valueLen
    .ok (some key, some value, none, none)
  | .DELETE => do
    let keyLen ← readUIntBE payload 0 2
    let key := readBytes payload 2 keyLen
    .ok (some key, none, none, none)
  | .BATCH_PUT => do
    let count ← readUIntBE payload 0 4
    let kvs ← readBatchPairs payload 4 count
    .ok (none, none, some kvs.1, some kvs.2)

/-- WAL.deserializeEntry: skip the checksum, read sequence id (u64 at
4), timestamp (u64 at 12), opcode (u8 at 20), then the payload from
byte 21.  Any out-of-range read or unknown opcode throws. -/
def deserializeEntry (buffer : List Nat) : Except Unit LogEntry := do
  let sequenceId ← readUIntBE buffer 4 8
  let timestamp ← readUIntBE buffer 12 8
  let opCode ← readUIntBE buffer 20 1
  let operation ← codeToOperation opCode
  let fields ← deserializePayload operation (buffer.drop 21)
  .ok ⟨sequenceId, timestamp, operation, fields.1, fields.2.1, fields.2.2.1, fields.2.2.2⟩

/-- WAL.validateChecksum: the stored u32 at offset 0 must equal the
CRC-32 of everything after it.  (Reached only after deserializeEntry
succeeded, so the buffer has at least 21 bytes.) -/
def validateChecksum (buffer : List Nat) : Bool :=
  beVal (buffer.take 4) == calculateChecksum (buffer.drop 4)

/-- WAL.readLogFile: scan a segment frame by frame, collecting entries;
stop (returning what was collected, never an error) at: fewer than 4
bytes left for the length field, a declared length running past the end
of the file, a deserialization failure, or a checksum mismatch. -/
def readLogFile (bytes : List Nat) : List LogEntry :=
  if h4 : bytes.length < 4 then []
  else if hl : bytes.length < 4 + beVal (bytes.take 4) then []
  else
    match deserializeEntry ((bytes.drop 4).take (beVal (bytes.take 4))) with
    | .error _ => []
    | .ok entry =>
      if validateChecksum ((bytes.drop 4).take (beVal (bytes.take 4))) then
        entry :: readLogFile (bytes.drop (4 + beVal (bytes.take 4)))
      else []
termination_by bytes.length
decreasing_by
  simp only [List.length_drop]
  omega

theorem beVal_foldl (l : List Nat) (acc : Nat) :
    l.foldl (fun acc b => acc * 256 + b % 256) acc = acc * 256 ^ l.length + beVal l := by
  induction l generalizing acc with
  | nil => simp [beVal]
  | cons x xs ih =>
    rw [List.foldl_cons, ih]
    have h2 : beVal (x :: xs) = (x % 256) * 256 ^ xs.length + beVal xs := by
      unfold beVal
      rw [List.foldl_cons]
      have := ih (0 * 256 + x % 256)
      simpa using this
    rw [h2]
    simp [List.length_cons, pow_succ]
    ring

theorem beVal_cons (x : Nat) (xs : List Nat) :
    beVal (x :: xs) = (x % 256) * 256 ^ xs.length + beVal xs := by
  unfold beVal
  rw [List.foldl_cons]
  simpa using beVal_foldl xs (0 * 256 + x % 256)

theorem beVal_append (a b : List Nat) :
    beVal (a ++ b) = beVal a * 256 ^ b.length + beVal b := by
  unfold beVal
  rw [List.foldl_append]
  exact beVal_foldl b _

theorem beVal_lt (l : List Nat) : beVal l < 256 ^ l.length := by
  induction l with
  | nil => simp [beVal]
  | cons x xs ih =>
    rw [beVal_cons]
    have h1 : x % 256 ≤ 255 := by omega
    have h2 : (x % 256) * 256 ^ xs.length ≤ 255 * 256 ^ xs.length :=
      Nat.mul_le_mul_right _ h1
    have h3 : 255 * 256 ^ xs.length + 256 ^ xs.length = 256 ^ (xs.length + 1) := by
      rw [pow_succ]
      ring
    simp only [List.length_cons]
    omega

theorem beVal_beBytes (n v : Nat) : beVal (beBytes n v) = v % 256 ^ n := by
  induction n generalizing v with
  | zero => simp [beBytes, beVal, Nat.mod_one]
  | succ n ih =>
    rw [beBytes, beVal_cons, beBytes_length, ih]
    have h1 : (256 : Nat) ^ (n + 1) = 256 ^ n * 256 := pow_succ 256 n
    have h2 : v % (256 ^ n * 256) = v % 256 ^ n + 256 ^ n * (v / 256 ^ n % 256) :=
      Nat.mod_mul
    have h3 : v / 256 ^ n % 256 % 256 = v / 256 ^ n % 256 := by omega
    rw [h1, h2, h3]
    ring

theorem beVal_eq_of_lt {n v : Nat} (h : v < 256 ^ n) : beVal (beBytes n v) = v := by
  rw [beVal_beBytes]
  exact Nat.mod_eq_of_lt h

/-- Distinct byte lists of the same length have distinct big-endian
values. -/
theorem beVal_inj {P S1 S2 : List Nat} {x y : Nat}
    (hlen : S1.length = S2.length) (hx : x < 256) (hy : y < 256) (hne : x ≠ y) :
    beVal (P ++ x :: S1) ≠ beVal (P ++ y :: S2) := by
  rw [beVal_append, beVal_append, beVal_cons, beVal_cons]
  simp only [List.length_cons]
  have hx' : x % 256 = x := Nat.mod_eq_of_lt hx
  have hy' : y % 256 = y := Nat.mod_eq_of_lt hy
  rw [hlen, hx', hy']
  intro h
  have key : x * 256 ^ S2.length + beVal S1 = y * 256 ^ S2.length + beVal S2 :=
    Nat.add_left_cancel h
  have h1 : beVal S1 < 256 ^ S2.length := hlen ▸ beVal_lt S1
  have h2 : beVal S2 < 256 ^ S2.length := beVal_lt S2
  rcases Nat.lt_or_ge x y with hxy | hxy
  · have hle : (x + 1) * 256 ^ S2.length ≤ y * 256 ^ S2.length :=
      Nat.mul_le_mul_right _ (by omega)
    rw [Nat.add_mul, one_mul] at hle
    omega
  · have hyx : y < x := by omega
    have hle : (y + 1) * 256 ^ S2.length ≤ x * 256 ^ S2.length :=
      Nat.mul_le_mul_right _ (by omega)
    rw [Nat.add_mul, one_mul] at hle
    omega

theorem take_set_of_le {α : Type} (l : List α) (i n : Nat) (b : α) (h : n ≤ i) :
    (l.set i b).take n = l.take n := by
  induction l generalizing i n with
  | nil => simp
  | cons x xs ih =>
    cases i with
    | zero =>
      have hn : n = 0 := by omega
      simp [hn]
    | succ i =>
      cases n with
      | zero => simp
      | succ n =>
        simp only [List.set, List.take]
        rw [ih i n (by omega)]

theorem self_eq_take_getD_cons_drop (l : List Nat) (j : Nat) (h : j < l.length) :
    l = l.take j ++ l.getD j 0 :: l.drop (j + 1) := by
  induction l generalizing j with
  | nil => simp at h
  | cons x xs ih =>
    cases j with
    | zero => simp
    | succ j =>
      simp only [List.take, List.getD_cons_succ, List.drop, List.cons_append]
      rw [← ih j (by simpa using h)]

theorem getD_mem (l : List Nat) (j : Nat) (h : j < l.length) : l.getD j 0 ∈ l := by
  induction l generalizing j with
  | nil => simp at h
  | cons x xs ih =>
    cases j with
    | zero => simp
    | succ j =>
      simp only [List.getD_cons_succ]
      exact List.mem_cons_of_mem x (ih j (by simpa using h))

/-- A well-formed CRC-valid WAL frame carrying a record: the length
field matches the frame size, the record deserializes, and the stored
checksum matches the recomputed CRC-32. -/
def ValidFrame (chunk : List Nat) (entry : LogEntry) : Prop :=
  4 ≤ chunk.length ∧
  beVal (chunk.take 4) = chunk.length - 4 ∧
  deserializeEntry (chunk.drop 4) = .ok entry ∧
  validateChecksum (chunk.drop 4) = true

theorem readLogFile_cons {chunk rest : List Nat} {entry : LogEntry}
    (hv : ValidFrame chunk entry) :
    readLogFile (chunk ++ rest) = entry :: readLogFile rest := by
  obtain ⟨h4, hlen, hparse, hcrc⟩ := hv
  have hlen2 : (chunk ++ rest).length = chunk.length + rest.length := List.length_append _ _
  have ht4 : (chunk ++ rest).take 4 = chunk.take 4 := List.take_append_of_le_length h4
  have hdrop : (chunk ++ rest).drop 4 = chunk.drop 4 ++ rest :=
    List.drop_append_of_le_length h4
  have htake : (chunk.drop 4 ++ rest).take (chunk.length - 4) = chunk.drop 4 :=
    List.take_left' (by simp [List.length_drop])
  rw [readLogFile]
  rw [dif_neg (by omega : ¬ (chunk ++ rest).length < 4)]
  rw [ht4, hlen]
  rw [dif_neg (by omega : ¬ (chunk ++ rest).length < 4 + (chunk.length - 4))]
  rw [hdrop, htake, hparse]
  simp only [hcrc, if_true]
  have harith : 4 + (chunk.length - 4) = chunk.length := by omega
  rw [harith, List.drop_left]

theorem readLogFile_badStart {tail : List Nat}
    (hbad : tail.length < 4 ∨ tail.length < 4 + beVal (tail.take 4) ∨
      deserializeEntry ((tail.drop 4).take (beVal (tail.take 4))) = .error () ∨
      validateChecksum ((tail.drop 4).take (beVal (tail.take 4))) = false) :
    readLogFile tail = [] := by
  rw [readLogFile]
  by_cases h4 : tail.length < 4
  · rw [dif_pos h4]
  · rw [dif_neg h4]
    by_cases hl : tail.length < 4 + beVal (tail.take 4)
    · rw [dif_pos hl]
    · rw [dif_neg hl]
      rcases hbad with h | h | h | h
      · exact absurd h h4
      · exact absurd h hl
      · rw [h]
      · rcases hde : deserializeEntry ((tail.drop 4).take (beVal (tail.take 4))) with e | entry
        · rfl
        · simp [h]

theorem getD_drop (l : List Nat) (n j : Nat) : (l.drop n).getD j 0 = l.getD (n + j) 0 := by
  show ((l.drop n).get? j).getD 0 = (l.get? (n + j)).getD 0
  rw [List.get?_drop]

theorem getD_take (l : List Nat) (n j : Nat) (h : j < n) :
    (l.take n).getD j 0 = l.getD j 0 := by
  show ((l.take n).get? j).getD 0 = (l.get? j).getD 0
  rw [List.get?_take h]

/-- Flipping a single byte of a valid frame anywhere after the length
field (in the stored checksum, header or payload) makes the frame fail
replay validation: either deserialization throws or the CRC no longer
matches, so the reader stops and returns nothing for it. -/
theorem readLogFile_flip {chunk : List Nat} {entry : LogEntry} {i b : Nat}
    (hv : ValidFrame chunk entry)
    (hbytes : ∀ x ∈ chunk, x < 256)
    (hi4 : 4 ≤ i) (hilen : i < chunk.length)
    (hb : b < 256) (hne : b ≠ chunk.getD i 0) :
    readLogFile (chunk.set i b) = [] := by
  obtain ⟨h4, hlenf, hparse, hcrc⟩ := hv
  have hcrcEq : beVal ((chunk.drop 4).take 4) = calculateChecksum ((chunk.drop 4).drop 4) := by
    have h := hcrc
    unfold validateChecksum at h
    rw [beq_iff_eq] at h
    exact h
  have ht4 : (chunk.set i b).take 4 = chunk.take 4 := take_set_of_le _ _ _ _ hi4
  have hd4 : (chunk.set i b).drop 4 = (chunk.drop 4).set (i - 4) b := by
    rw [List.drop_set, if_neg (by omega)]
  have hebl : (chunk.drop 4).length = chunk.length - 4 := List.length_drop _ _
  have hj : i - 4 < (chunk.drop 4).length := by omega
  have hebuf : ((chunk.set i b).drop 4).take (beVal ((chunk.set i b).take 4))
      = (chunk.drop 4).set (i - 4) b := by
    rw [ht4, hlenf, hd4]
    exact List.take_all_of_le (by simp [List.length_set, hebl])
  have holdval : (chunk.drop 4).getD (i - 4) 0 = chunk.getD i 0 := by
    rw [getD_drop]
    congr 1
    omega
  have hold256 : (chunk.drop 4).getD (i - 4) 0 < 256 := by
    rw [holdval]
    exact hbytes _ (getD_mem chunk i hilen)
  have hold256c : chunk.getD i 0 < 256 := hbytes _ (getD_mem chunk i hilen)
  apply readLogFile_badStart
  rcases hde : deserializeEntry (((chunk.set i b).drop 4).take (beVal ((chunk.set i b).take 4)))
    with e | e'
  · cases e
    exact Or.inr (Or.inr (Or.inl rfl))
  · refine Or.inr (Or.inr (Or.inr ?_))
    rw [hebuf]
    unfold validateChecksum
    simp only [beq_eq_false_iff_ne, ne_eq]
    intro hEqual
    by_cases hj4 : i - 4 < 4
    · have t4 : ((chunk.drop 4).set (i - 4) b).take 4 = ((chunk.drop 4).take 4).set (i - 4) b :=
        List.set_take
      have d4 : ((chunk.drop 4).set (i - 4) b).drop 4 = (chunk.drop 4).drop 4 := by
        rw [List.drop_set, if_pos hj4]
      rw [t4, d4, ← hcrcEq] at hEqual
      have hjt : i - 4 < ((chunk.drop 4).take 4).length := by
        simp only [List.length_take]
        omega
      obtain ⟨P, S, hPS, hPSset⟩ : ∃ P S,
          (chunk.drop 4).take 4 = P ++ chunk.getD i 0 :: S ∧
          ((chunk.drop 4).take 4).set (i - 4) b = P ++ b :: S := by
        refine ⟨((chunk.drop 4).take 4).take (i - 4), ((chunk.drop 4).take 4).drop (i - 4 + 1),
          ?_, List.set_eq_take_cons_drop b hjt⟩
        have hbold : ((chunk.drop 4).take 4).getD (i - 4) 0 = chunk.getD i 0 := by
          rw [getD_take _ _ _ hj4, holdval]
        rw [← hbold]
        exact self_eq_take_getD_cons_drop _ _ hjt
      rw [hPSset, hPS] at hEqual
      exact beVal_inj rfl hb hold256c hne hEqual
    · have t4 : ((chunk.drop 4).set (i - 4) b).take 4 = (chunk.drop 4).take 4 :=
        take_set_of_le _ _ _ _ (by omega)
      have d4 : ((chunk.drop 4).set (i - 4) b).drop 4
          = ((chunk.drop 4).drop 4).set (i - 4 - 4) b := by
        rw [List.drop_set, if_neg (by omega)]
      rw [t4, d4, hcrcEq] at hEqual
      have hjd : i - 4 - 4 < ((chunk.drop 4).drop 4).length := by
        simp only [List.length_drop]
        omega
      obtain ⟨P, S, hPS, hPSset, hmemP, hmemS⟩ : ∃ P S,
          (chunk.drop 4).drop 4 = P ++ chunk.getD i 0 :: S ∧
          ((chunk.drop 4).drop 4).set (i - 4 - 4) b = P ++ b :: S ∧
          (∀ x ∈ P, x < 256) ∧ (∀ x ∈ S, x < 256) := by
        refine ⟨((chunk.drop 4).drop 4).take (i - 4 - 4),
          ((chunk.drop 4).drop 4).drop (i - 4 - 4 + 1),
          ?_, List.set_eq_take_cons_drop b hjd, ?_, ?_⟩
        · have hbold : ((chunk.drop 4).drop 4).getD (i - 4 - 4) 0 = chunk.getD i 0 := by
            rw [getD_drop, getD_drop]
            congr 1
            omega
          rw [← hbold]
          exact self_eq_take_getD_cons_drop _ _ hjd
        · exact fun x hx =>
            hbytes x (List.mem_of_mem_drop (List.mem_of_mem_drop (List.mem_of_mem_take hx)))
        · exact fun x hx =>
            hbytes x (List.mem_of_mem_drop (List.mem_of_mem_drop (List.mem_of_mem_drop hx)))
      rw [hPSset, hPS] at hEqual
      exact calculateChecksum_flip P S _ _ hmemP hmemS hold256c hb
        (fun hEq => hne hEq.symm) hEqual

/-! ### Claim C3 -/

/-- C3: for any segment consisting of well-formed CRC-valid frames
followed by a corrupted tail (too short for a length field, declared
length past end of file, failing deserialization, failing checksum, or a
single flipped byte inside an otherwise valid last frame), replay
returns exactly the records of the well-formed prefix, in order, and
never an error (`readLogFile` is total and returns a plain list). -/
theorem C3_replay_torn_tail (frames : List (List Nat × LogEntry)) (tail : List Nat)
    (hframes : ∀ p ∈ frames, ValidFrame p.1 p.2)
    (hbad : tail.length < 4 ∨ tail.length < 4 + beVal (tail.take 4) ∨
      deserializeEntry ((tail.drop 4).take (beVal (tail.take 4))) = .error () ∨
      validateChecksum ((tail.drop 4).take (beVal (tail.take 4))) = false ∨
      (∃ chunk e i b, ValidFrame chunk e ∧ (∀ x ∈ chunk, x < 256) ∧ 4 ≤ i ∧
        i < chunk.length ∧ b < 256 ∧ b ≠ chunk.getD i 0 ∧ tail = chunk.set i b)) :
    readLogFile ((frames.map Prod.fst).flatten ++ tail) = frames.map Prod.snd := by
  have htail : readLogFile tail = [] := by
    rcases hbad with h | h | h | h | ⟨chunk, e, i, b, hvf, hby, hi4, hil, hb, hne, heq⟩
    · exact readLogFile_badStart (Or.inl h)
    · exact readLogFile_badStart (Or.inr (Or.inl h))
    · exact readLogFile_badStart (Or.inr (Or.inr (Or.inl h)))
    · exact readLogFile_badStart (Or.inr (Or.inr (Or.inr h)))
    · rw [heq]
      exact readLogFile_flip hvf hby hi4 hil hb hne
  induction frames with
  | nil => simpa using htail
  | cons p ps ih =>
    have hv : ValidFrame p.1 p.2 := hframes p (List.mem_cons_self _ _)
    simp only [List.map_cons, List.flatten_cons]
    rw [List.append_assoc, readLogFile_cons hv]
    rw [ih (fun q hq => hframes q (List.mem_cons_of_mem _ hq))]

/-- The body of a concrete DELETE record: sequence id 0, timestamp 0,
opcode 2, payload key-length 1 and key "a". -/
def C3_witness_data : List Nat :=
  beBytes 8 0 ++ beBytes 8 0 ++ [2] ++ ([0, 1] ++ [97])

/-- That record framed for the WAL: 4-byte length field, 4-byte stored
CRC-32, then the record body. -/
def C3_witness_frame : List Nat :=
  beBytes 4 24 ++ beBytes 4 (calculateChecksum C3_witness_data) ++ C3_witness_data

/-- The log entry carried by `C3_witness_frame`. -/
def C3_witness_entry : LogEntry :=
  ⟨0, 0, .DELETE, some [97], none, none, none⟩

theorem C3_witness_frame_valid : ValidFrame C3_witness_frame C3_witness_entry :=
  ⟨by decide, by decide, rfl, rfl⟩

theorem C3_replay_torn_tail_witness :
    readLogFile
        ((([(C3_witness_frame, C3_witness_entry)].map Prod.fst).flatten) ++ [255]) =
      [C3_witness_entry] :=
  C3_replay_torn_tail [(C3_witness_frame, C3_witness_entry)] [255]
    (by
      intro p hp
      rw [List.mem_singleton] at hp
      subst hp
      exact C3_witness_frame_valid)
    (Or.inl (by decide))

/-! ### Manifest (Manifest.ts, ManifestTypes.ts)

File numbers are JavaScript numbers; they are modelled as `Int` so that
the `nextFileNumber - 1` in `applyEdit` keeps its JavaScript meaning on
every input state. -/

/-- SSTableMetadata (sstable types): descriptor of one table file. -/
structure SSTableMetadata where
  fileNumber : Int
  filePath : Str
  entryCount : Nat
  firstKey : Str
  lastKey : Str
  fileSize : Nat
  createdAt : Nat
  indexOffset : Nat
  dataOffset : Nat
  bloomFilterOffset : Option Nat := none
  deriving Repr, DecidableEq

/-- ManifestState (ManifestTypes.ts). -/
structure ManifestState where
  sstables : List SSTableMetadata
  nextFileNumber : Int
  lastFlushedSequence : Nat
  version : Nat
  createdAt : Nat
  deriving Repr, DecidableEq

/-- EMPTY_MANIFEST_STATE (ManifestTypes.ts); `createdAt` is Date.now()
at module load, passed in here. -/
def EMPTY_MANIFEST_STATE (now : Nat) : ManifestState :=
  ⟨[], 1, 0, 0, now⟩

/-- A partial VersionEdit as passed to Manifest.applyEdit: absent
fields are `none`. -/
structure VersionEdit where
  addedSSTables : Option (List SSTableMetadata) := none
  removedFileNumbers : Option (List Int) := none
  nextFileNumber : Option Int := none
  lastFlushedSequence : Option Nat := none

/-- One step of the stable insertion sort realizing
`sstables.sort((a, b) => b.fileNumber - a.fileNumber)`: descending by
file number. -/
def insertByFileNumberDesc (s : SSTableMetadata) :
    List SSTableMetadata → List SSTableMetadata
  | [] => [s]
  | t :: ts =>
    if t.fileNumber < s.fileNumber then s :: t :: ts
    else t :: insertByFileNumberDesc s ts

/-- Sort descending by file number (stable, as Array.prototype.sort). -/
def sortByFileNumberDesc (l : List SSTableMetadata) : List SSTableMetadata :=
  l.foldl (fun acc s => insertByFileNumberDesc s acc) []

/-- Manifest.applyEdit, state-transition part (the fsync/rename
persistence is outside this model): remove, then add, sort
newest-first, recompute `nextFileNumber` as `edit.nextFileNumber ??`
the max-reduce over the new list seeded with `state.nextFileNumber - 1`
plus one, and advance `version` by exactly one. -/
def applyEdit (state : ManifestState) (edit : VersionEdit) : ManifestState :=
  let sstables0 := state.sstables
  let sstables1 :=
    match edit.removedFileNumbers with
    | some rm =>
      if 0 < rm.length then
        sstables0.filter (fun s => !(rm.contains s.fileNumber))
      else sstables0
    | none => sstables0
  let sstables2 :=
    match edit.addedSSTables with
    | some add => if 0 < add.length then sstables1 ++ add else sstables1
    | none => sstables1
  let sstables := sortByFileNumberDesc sstables2
  let maxFileNumber :=
    sstables.foldl (fun mx s => max mx s.fileNumber) (state.nextFileNumber - 1)
  { sstables := sstables
    nextFileNumber := edit.nextFileNumber.getD (maxFileNumber + 1)
    lastFlushedSequence := edit.lastFlushedSequence.getD state.lastFlushedSequence
    version := state.version + 1
    createdAt := state.createdAt }

/-- Manifest.addSSTable: apply an edit adding one table and explicitly
setting `nextFileNumber` to `metadata.fileNumber + 1`. -/
def addSSTable (state : ManifestState) (metadata : SSTableMetadata) : ManifestState :=
  applyEdit state
    { addedSSTables := some [metadata], nextFileNumber := some (metadata.fileNumber + 1) }

/-- Manifest.removeSSTables. -/
def removeSSTables (state : ManifestState) (fileNumbers : List Int) : ManifestState :=
  applyEdit state { removedFileNumbers := some fileNumbers }

/-- The edits the claim quantifies over: any sequence of addSSTable and
removeSSTables calls. -/
inductive ManifestOp where
  | add (m : SSTableMetadata)
  | remove (fns : List Int)
  deriving Repr, DecidableEq

/-- Apply one manifest call. -/
def applyOp (st : ManifestState) : ManifestOp → ManifestState
  | .add m => addSSTable st m
  | .remove fns => removeSSTables st fns

/-- Apply a sequence of manifest calls in order. -/
def applyOps (st : ManifestState) (ops : List ManifestOp) : ManifestState :=
  ops.foldl applyOp st

/-- The allocation discipline of the store: every added table's file
number was handed out by `getNextFileNumber`, i.e. is at least the
manifest's `nextFileNumber` at the moment the add is applied. -/
def allocOk : ManifestState → List ManifestOp → Bool
  | _, [] => true
  | st, op :: ops =>
    (match op with
     | .add m => decide (st.nextFileNumber ≤ m.fileNumber)
     | .remove _ => true) && allocOk (applyOp st op) ops

/-- The claimed invariant: `next_file_number` strictly above every
listed file number. -/
def NextAboveAll (st : ManifestState) : Prop :=
  ∀ m ∈ st.sstables, m.fileNumber < st.nextFileNumber

instance : DecidablePred NextAboveAll := fun st =>
  inferInstanceAs (Decidable (∀ m ∈ st.sstables, m.fileNumber < st.nextFileNumber))

/-- The claimed ordering invariant: newest first (descending file
numbers). -/
def SortedDesc (l : List SSTableMetadata) : Prop :=
  l.Pairwise (fun a b => b.fileNumber ≤ a.fileNumber)

theorem mem_insertByFileNumberDesc {x s : SSTableMetadata} {l : List SSTableMetadata} :
    x ∈ insertByFileNumberDesc s l ↔ x = s ∨ x ∈ l := by
  induction l with
  | nil => simp [insertByFileNumberDesc]
  | cons t ts ih =>
    unfold insertByFileNumberDesc
    by_cases h : t.fileNumber < s.fileNumber
    · rw [if_pos h]
      simp
    · rw [if_neg h]
      simp only [List.mem_cons, ih]
      tauto

theorem sortedDesc_insertByFileNumberDesc {s : SSTableMetadata} {l : List SSTableMetadata}
    (h : SortedDesc l) : SortedDesc (insertByFileNumberDesc s l) := by
  induction l with
  | nil => exact List.pairwise_singleton _ _
  | cons t ts ih =>
    obtain ⟨hhead, hts⟩ := List.pairwise_cons.mp h
    unfold insertByFileNumberDesc
    by_cases hc : t.fileNumber < s.fileNumber
    · rw [if_pos hc]
      refine List.Pairwise.cons ?_ (List.Pairwise.cons hhead hts)
      intro y hy
      rcases List.mem_cons.mp hy with rfl | hyt
      · omega
      · have := hhead y hyt
        omega
    · rw [if_neg hc]
      refine List.Pairwise.cons ?_ (ih hts)
      intro y hy
      rcases mem_insertByFileNumberDesc.mp hy with rfl | hyt
      · omega
      · exact hhead y hyt

theorem mem_foldl_insert {x : SSTableMetadata} (l acc : List SSTableMetadata) :
    x ∈ l.foldl (fun acc s => insertByFileNumberDesc s acc) acc ↔ x ∈ acc ∨ x ∈ l := by
  induction l generalizing acc with
  | nil => simp
  | cons t ts ih =>
    rw [List.foldl_cons, ih, mem_insertByFileNumberDesc]
    simp only [List.mem_cons]
    tauto

theorem mem_sortByFileNumberDesc {x : SSTableMetadata} {l : List SSTableMetadata} :
    x ∈ sortByFileNumberDesc l ↔ x ∈ l := by
  unfold sortByFileNumberDesc
  rw [mem_foldl_insert]
  simp

theorem sortedDesc_foldl_insert (l acc : List SSTableMetadata) (h : SortedDesc acc) :
    SortedDesc (l.foldl (fun acc s => insertByFileNumberDesc s acc) acc) := by
  induction l generalizing acc with
  | nil => exact h
  | cons t ts ih =>
    rw [List.foldl_cons]
    exact ih _ (sortedDesc_insertByFileNumberDesc h)

theorem sortedDesc_sortByFileNumberDesc (l : List SSTableMetadata) :
    SortedDesc (sortByFileNumberDesc l) :=
  sortedDesc_foldl_insert l [] List.Pairwise.nil

theorem le_foldl_max (l : List SSTableMetadata) (base : Int) :
    base ≤ l.foldl (fun mx s => max mx s.fileNumber) base ∧
      ∀ x ∈ l, x.fileNumber ≤ l.foldl (fun mx s => max mx s.fileNumber) base := by
  induction l generalizing base with
  | nil => simp
  | cons t ts ih =>
    rw [List.foldl_cons]
    obtain ⟨h1, h2⟩ := ih (max base t.fileNumber)
    refine ⟨le_trans (le_max_left _ _) h1, ?_⟩
    intro x hx
    rcases List.mem_cons.mp hx with rfl | hxt
    · exact le_trans (le_max_right _ _) h1
    · exact h2 x hxt

/-- `applyEdit` with no explicit `nextFileNumber` (the removeSSTables
shape) restores `NextAboveAll` unconditionally: the new counter is one
above the running max over the surviving list. -/
theorem nextAboveAll_applyEdit_none (st : ManifestState) (edit : VersionEdit)
    (hnone : edit.nextFileNumber = none) : NextAboveAll (applyEdit st edit) := by
  intro m hm
  simp only [applyEdit, hnone, Option.getD_none] at hm ⊢
  have := (le_foldl_max _ (st.nextFileNumber - 1)).2 m hm
  omega

/-- `addSSTable` preserves `NextAboveAll` when the added file number is
at least the current counter. -/
theorem nextAboveAll_addSSTable (st : ManifestState) (m : SSTableMetadata)
    (hinv : NextAboveAll st) (halloc : st.nextFileNumber ≤ m.fileNumber) :
    NextAboveAll (addSSTable st m) := by
  intro x hx
  simp only [addSSTable, applyEdit, Option.getD_some] at hx ⊢
  rw [mem_sortByFileNumberDesc] at hx
  simp only [List.length_cons, List.length_nil] at hx
  rw [if_pos (by omega)] at hx
  rcases List.mem_append.mp hx with hxs | hxm
  · have := hinv x hxs
    omega
  · rcases List.mem_singleton.mp hxm with rfl
    omega

theorem sortedDesc_applyEdit (st : ManifestState) (edit : VersionEdit) :
    SortedDesc (applyEdit st edit).sstables := by
  simp only [applyEdit]
  exact sortedDesc_sortByFileNumberDesc _

theorem version_applyOp (st : ManifestState) (op : ManifestOp) :
    (applyOp st op).version = st.version + 1 := by
  cases op <;> rfl

theorem manifest_invariants_step (ops : List ManifestOp) (st : ManifestState)
    (hinv : NextAboveAll st) (hsorted : SortedDesc st.sstables)
    (halloc : allocOk st ops = true) :
    NextAboveAll (applyOps st ops) ∧ SortedDesc (applyOps st ops).sstables ∧
      (applyOps st ops).version = st.version + ops.length := by
  induction ops generalizing st with
  | nil => exact ⟨hinv, hsorted, by simp [applyOps]⟩
  | cons op ops ih =>
    have key : NextAboveAll (applyOp st op) ∧ allocOk (applyOp st op) ops = true := by
      cases op with
      | add m =>
        simp only [allocOk, Bool.and_eq_true, decide_eq_true_eq] at halloc
        exact ⟨nextAboveAll_addSSTable st m hinv halloc.1, halloc.2⟩
      | remove fns =>
        simp only [allocOk, Bool.true_and] at halloc
        exact ⟨nextAboveAll_applyEdit_none st _ rfl, halloc⟩
    obtain ⟨hstep, hrest⟩ := key
    have hsorted' : SortedDesc (applyOp st op).sstables := by
      cases op with
      | add m => exact sortedDesc_applyEdit st _
      | remove fns => exact sortedDesc_applyEdit st _
    have hops : applyOps st (op :: ops) = applyOps (applyOp st op) ops := rfl
    obtain ⟨h1, h2, h3⟩ := ih (applyOp st op) hstep hsorted' hrest
    refine ⟨hops ▸ h1, hops ▸ h2, ?_⟩
    rw [hops, h3, version_applyOp]
    simp only [List.length_cons]
    omega

/-! ### Claim C9 -/

/-- A minimal table descriptor with a given file number, for concrete
manifest runs. -/
def C9_meta (fn : Int) : SSTableMetadata :=
  ⟨fn, [], 0, [], [], 0, 0, 0, 0, none⟩

/-- C9 counterexample: from the fresh state, addSSTable with file
number 5 then addSSTable with file number 3 leaves
`nextFileNumber = 4` while a table with file number 5 is still listed,
violating the claimed invariant `next_file_number > max(file_number)`.
(`addSSTable` overwrites the counter with `fileNumber + 1`
unconditionally, so an out-of-order add regresses it.) -/
theorem C9_counterexample :
    (applyOps (EMPTY_MANIFEST_STATE 0)
        [ManifestOp.add (C9_meta 5), ManifestOp.add (C9_meta 3)]).nextFileNumber = 4 ∧
    C9_meta 5 ∈ (applyOps (EMPTY_MANIFEST_STATE 0)
        [ManifestOp.add (C9_meta 5), ManifestOp.add (C9_meta 3)]).sstables ∧
    ¬ NextAboveAll (applyOps (EMPTY_MANIFEST_STATE 0)
        [ManifestOp.add (C9_meta 5), ManifestOp.add (C9_meta 3)]) := by
  refine ⟨rfl, by decide, ?_⟩
  intro h
  have := h (C9_meta 5) (by decide)
  revert this
  decide

/-- C9 (amended): under the store's allocation discipline — every
added table's file number is at least the manifest's current
`nextFileNumber`, as holds when numbers come from `getNextFileNumber`
— every state reached from the fresh state by addSSTable /
removeSSTables edits keeps `nextFileNumber` strictly above every listed
file number and the list sorted newest-first; each edit increments
`version` by exactly one (so after n edits the version is n). -/
theorem C9_manifest_invariants (now : Nat) (ops : List ManifestOp)
    (halloc : allocOk (EMPTY_MANIFEST_STATE now) ops = true) :
    NextAboveAll (applyOps (EMPTY_MANIFEST_STATE now) ops) ∧
    SortedDesc (applyOps (EMPTY_MANIFEST_STATE now) ops).sstables ∧
    (applyOps (EMPTY_MANIFEST_STATE now) ops).version = ops.length ∧
    ∀ st op, (applyOp st op).version = st.version + 1 := by
  obtain ⟨h1, h2, h3⟩ :=
    manifest_invariants_step ops (EMPTY_MANIFEST_STATE now)
      (by intro m hm; cases hm) List.Pairwise.nil halloc
  exact ⟨h1, h2, by simpa [EMPTY_MANIFEST_STATE] using h3, version_applyOp⟩

theorem C9_manifest_invariants_witness :
    NextAboveAll (applyOps (EMPTY_MANIFEST_STATE 0)
        [ManifestOp.add (C9_meta 1), ManifestOp.remove [1], ManifestOp.add (C9_meta 2)]) ∧
    SortedDesc (applyOps (EMPTY_MANIFEST_STATE 0)
        [ManifestOp.add (C9_meta 1), ManifestOp.remove [1], ManifestOp.add (C9_meta 2)]).sstables ∧
    (applyOps (EMPTY_MANIFEST_STATE 0)
        [ManifestOp.add (C9_meta 1), ManifestOp.remove [1], ManifestOp.add (C9_meta 2)]).version
        = [ManifestOp.add (C9_meta 1), ManifestOp.remove [1],
            ManifestOp.add (C9_meta 2)].length ∧
    ∀ st op, (applyOp st op).version = st.version + 1 :=
  C9_manifest_invariants 0
    [ManifestOp.add (C9_meta 1), ManifestOp.remove [1], ManifestOp.add (C9_meta 2)]
    (by decide)

/-! ### LSMStore write path (LSMStore.ts) -/

/-- The parts of LSMStore state touched by the write path: the WAL's
sequence counter and appended records, the two memtables, and the flush
flag. -/
structure LSMStoreState where
  sequenceId : Nat
  walRecords : List LogEntry
  activeMemTable : MemTable
  immutableMemTable : Option MemTable
  flushing : Bool
  memTableSizeLimit : Int

/-- WAL.append, state part: stamp the entry with `sequenceId++` and the
current time and record it. -/
def storeWalAppend (st : LSMStoreState) (operation : LogOperationType)
    (key value : Option Str) (keys values : Option (List Str)) (now : Nat) :
    LSMStoreState :=
  { st with
    sequenceId := st.sequenceId + 1
    walRecords := st.walRecords ++ [⟨st.sequenceId, now, operation, key, value, keys, values⟩] }

/-- LSMStore.maybeFlush / triggerFlush: when the active memtable is
full and no flush is running, swap it to immutable and start a fresh
active table. -/
def storeMaybeFlush (st : LSMStoreState) : LSMStoreState :=
  if st.activeMemTable.isFull then
    if st.flushing then st
    else
      { st with
        immutableMemTable := some st.activeMemTable
        activeMemTable := ⟨Tree.leaf, 0, st.memTableSizeLimit⟩
        flushing := true }
  else st

/-- LSMStore.batchPut: empty input returns 0 immediately; otherwise
append one BATCH_PUT WAL record with all keys and values, put every
pair into the active memtable, and maybe flush; returns the number of
entries written. -/
def batchPut (st : LSMStoreState) (entries : List KVPair) (now : Nat) :
    LSMStoreState × Nat :=
  if entries.length = 0 then (st, 0)
  else
    let keys := entries.map (fun e => e.key)
    let values := entries.map (fun e => e.value)
    let st1 := storeWalAppend st .BATCH_PUT none none (some keys) (some values) now
    let st2 := { st1 with
      activeMemTable :=
        entries.foldl (fun mt e => mt.put e.key e.value false now) st1.activeMemTable }
    (storeMaybeFlush st2, entries.length)

/-! ### Claim C10 -/

/-- C10: batchPut on the empty list returns 0 and is a no-op on the
whole engine state — in particular the WAL sequence counter does not
advance, no WAL record is appended, the active memtable is untouched
and no flush is triggered. -/
theorem C10_batchPut_empty_noop (st : LSMStoreState) (now : Nat) :
    batchPut st [] now = (st, 0) ∧
    (batchPut st [] now).1.sequenceId = st.sequenceId ∧
    (batchPut st [] now).1.walRecords = st.walRecords ∧
    (batchPut st [] now).1.activeMemTable = st.activeMemTable ∧
    (batchPut st [] now).1.immutableMemTable = st.immutableMemTable ∧
    (batchPut st [] now).1.flushing = st.flushing :=
  ⟨rfl, rfl, rfl, rfl, rfl, rfl⟩



/-! Generic list helpers -/

theorem getD_set_self {α : Type} (d : α) (l : List α) (i : Nat) (a : α) (h : i < l.length) :
    (l.set i a).getD i d = a := by
  induction l generalizing i with
  | nil => simp at h
  | cons x xs ih =>
    cases i with
    | zero => simp
    | succ i => simpa using ih i (by simpa using h)

theorem getD_set_ne {α : Type} (d : α) (l : List α) {i k : Nat} (a : α) (h : i ≠ k) :
    (l.set i a).getD k d = l.getD k d := by
  induction l generalizing i k with
  | nil => simp
  | cons x xs ih =>
    cases i with
    | zero =>
      cases k with
      | zero => exact absurd rfl h
      | succ k => simp
    | succ i =>
      cases k with
      | zero => simp
      | succ k => simpa using ih (fun hh => h (by omega))

theorem getD_append_left {α : Type} (d : α) (A B : List α) (i : Nat) (h : i < A.length) :
    (A ++ B).getD i d = A.getD i d := by
  induction A generalizing i with
  | nil => simp at h
  | cons x xs ih =>
    cases i with
    | zero => simp
    | succ i => simpa using ih i (by simpa using h)

theorem getD_append_end {α : Type} (d : α) (A : List α) (x : α) :
    (A ++ [x]).getD A.length d = x := by
  induction A with
  | nil => simp
  | cons y ys ih => simpa using ih

theorem getD_of_take_cons_drop {α : Type} (d : α) (l : List α) (j : Nat) (h : j < l.length) :
    l = l.take j ++ l.getD j d :: l.drop (j + 1) := by
  induction l generalizing j with
  | nil => simp at h
  | cons x xs ih =>
    cases j with
    | zero => simp
    | succ j =>
      simp only [List.take, List.getD_cons_succ, List.drop, List.cons_append]
      rw [← ih j (by simpa using h)]

theorem getD_drop_add {α : Type} (d : α) (l : List α) (n j : Nat) :
    (l.drop n).getD j d = l.getD (n + j) d := by
  induction l generalizing n with
  | nil => simp
  | cons x xs ih =>
    cases n with
    | zero => simp
    | succ n =>
      show (xs.drop n).getD j d = (x :: xs).getD (n + 1 + j) d
      rw [ih n]
      have harith : n + 1 + j = (n + j) + 1 := by omega
      rw [harith, List.getD_cons_succ]

theorem set_append_right_len {α : Type} (A D : List α) (k : Nat) (x : α) :
    (A ++ D).set (A.length + k) x = A ++ D.set k x := by
  induction A with
  | nil => simp
  | cons y ys ih => simpa [Nat.succ_add] using ih

/-- Swapping two positions of a list is a permutation. -/
theorem swap_perm {α : Type} (d : α) {l : List α} {i j : Nat} (hij : i < j) (hj : j < l.length) :
    ((l.set i (l.getD j d)).set j (l.getD i d)).Perm l := by
  set a := l.getD i d with ha
  set b := l.getD j d with hb
  set A := l.take i with hA
  set D := l.drop (i + 1) with hD
  have hil : i < l.length := lt_trans hij hj
  have hdec1 : l = A ++ a :: D := getD_of_take_cons_drop d l i hil
  have hAlen : A.length = i := by
    rw [hA, List.length_take]
    omega
  have hDlen : D.length = l.length - (i + 1) := by
    rw [hD, List.length_drop]
  have hjd : j - (i + 1) < D.length := by omega
  have hbD : D.getD (j - (i + 1)) d = b := by
    rw [hD, getD_drop_add, hb]
    congr 1
    omega
  set B := D.take (j - (i + 1)) with hB
  set C := D.drop (j - (i + 1) + 1) with hC
  have hdec2 : D = B ++ b :: C := by
    rw [hB, hC, ← hbD]
    exact getD_of_take_cons_drop d D _ hjd
  have hset1 : l.set i b = A ++ b :: D := by
    conv_lhs => rw [hdec1]
    have : A ++ a :: D = A ++ (a :: D) := rfl
    rw [this, show i = A.length + 0 by omega, set_append_right_len]
    rfl
  have hset2 : (l.set i b).set j a = A ++ b :: (B ++ a :: C) := by
    rw [hset1]
    have hj' : j = A.length + (1 + (j - (i + 1))) := by omega
    rw [hj', set_append_right_len]
    congr 1
    show (b :: D).set (1 + (j - (i+1))) a = b :: (B ++ a :: C)
    have : (1 + (j - (i+1))) = (j - (i+1)) + 1 := by omega
    rw [this]
    show b :: D.set (j - (i+1)) a = b :: (B ++ a :: C)
    congr 1
    rw [List.set_eq_take_cons_drop a hjd, ← hB, ← hC]
  rw [hset2]
  conv_rhs => rw [hdec1, hdec2]
  refine List.Perm.append_left A ?_
  have h1 : (b :: (B ++ a :: C)).Perm (b :: a :: (B ++ C)) :=
    List.Perm.cons b List.perm_middle
  have h2 : (b :: a :: (B ++ C)).Perm (a :: b :: (B ++ C)) := List.Perm.swap a b _
  have h3 : (a :: b :: (B ++ C)).Perm (a :: (B ++ b :: C)) :=
    List.Perm.cons a List.perm_middle.symm
  exact (h1.trans h2).trans h3

theorem perm_eq_of_length_le_one {α : Type} {l₁ l₂ : List α}
    (h : l₁.Perm l₂) (hlen : l₂.length ≤ 1) : l₁ = l₂ := by
  match l₂, hlen with
  | [], _ => exact List.Perm.eq_nil h
  | [a], _ => exact List.perm_singleton.mp h

/-! ### MinHeap (MinHeap.ts)

A binary min-heap in a flat array, generic over an element type and a
JavaScript-style comparator returning a signed number. -/

section MinHeap

variable {α : Type} (cmp : α → α → Int) (d : α)

/-- Parent slot of heap index `i`: `Math.floor((i - 1) / 2)`. -/
def heapParent (i : Nat) : Nat := (i - 1) / 2

/-- MinHeap.bubbleUp: move the element at `index` up while it compares
below its parent. -/
def bubbleUp : List α → Nat → List α
  | l, 0 => l
  | l, i + 1 =>
    let cur := l.getD (i + 1) d
    let par := l.getD (i / 2) d
    if 0 ≤ cmp cur par then l
    else bubbleUp ((l.set (i / 2) cur).set (i + 1) par) (i / 2)
termination_by l i => i
decreasing_by omega

/-- MinHeap.insert: push at the end, restore the heap upward. -/
def heapInsert (l : List α) (x : α) : List α := bubbleUp cmp d (l ++ [x]) l.length

/-- The index bubbleDown swaps with: the smallest of slot `i` and its
two children. -/
def downTarget (l : List α) (i : Nat) : Nat :=
  let left := 2 * i + 1
  let right := 2 * i + 2
  let s1 := if left < l.length ∧ cmp (l.getD left d) (l.getD i d) < 0 then left else i
  if right < l.length ∧ cmp (l.getD right d) (l.getD s1 d) < 0 then right else s1

theorem downTarget_cases (l : List α) (i : Nat) :
    downTarget cmp d l i = i ∨
      (i < downTarget cmp d l i ∧ downTarget cmp d l i < l.length) := by
  unfold downTarget
  dsimp only
  split_ifs <;> omega

/-- MinHeap.bubbleDown: swap downward with the smallest child until the
heap property is restored. -/
def bubbleDown : List α → Nat → List α
  | l, i =>
    if hs : downTarget cmp d l i = i then l
    else
      bubbleDown
        ((l.set i (l.getD (downTarget cmp d l i) d)).set (downTarget cmp d l i) (l.getD i d))
        (downTarget cmp d l i)
termination_by l i => l.length - i
decreasing_by
  rcases downTarget_cases cmp d l i with h | h
  · exact absurd h hs
  · simp only [List.length_set]
    omega

/-- MinHeap.extractMin: return the root, move the last element to the
root, restore the heap downward. -/
def extractMin (l : List α) : Option (α × List α) :=
  if l.length = 0 then none
  else if l.length = 1 then some (l.getD 0 d, [])
  else some (l.getD 0 d, bubbleDown cmp d (l.dropLast.set 0 (l.getD (l.length - 1) d)) 0)

/-- The heap left behind by `extractMin` on a non-empty heap. -/
def extractMinTail (l : List α) : List α :=
  if l.length ≤ 1 then []
  else bubbleDown cmp d (l.dropLast.set 0 (l.getD (l.length - 1) d)) 0

/-- On a non-empty heap, `extractMin` returns the root together with
`extractMinTail`. -/
theorem extractMin_eq_root_tail (l : List α) (h : l ≠ []) :
    extractMin cmp d l = some (l.getD 0 d, extractMinTail cmp d l) := by
  have h0 : l.length ≠ 0 := fun hh => h (List.length_eq_zero.mp hh)
  unfold extractMin extractMinTail
  rw [if_neg h0]
  by_cases h1 : l.length = 1
  · rw [if_pos h1, if_pos (by omega)]
  · rw [if_neg h1, if_neg (by omega)]

/-- The binary-heap ordering invariant: every non-root slot compares at
or above its parent. -/
def HeapInv (l : List α) : Prop :=
  ∀ i, 0 < i → i < l.length → 0 ≤ cmp (l.getD i d) (l.getD (heapParent i) d)

theorem bubbleUp_length : ∀ (j : Nat) (l : List α), (bubbleUp cmp d l j).length = l.length
  | 0, l => by rw [bubbleUp]
  | j + 1, l => by
    rw [bubbleUp]
    split_ifs with h
    · rfl
    · rw [bubbleUp_length (j / 2)]
      simp

theorem bubbleUp_perm : ∀ (j : Nat) (l : List α), j < l.length → (bubbleUp cmp d l j).Perm l
  | 0, l, _ => by
    rw [bubbleUp]
  | j + 1, l, hj => by
    rw [bubbleUp]
    split_ifs with h
    · exact List.Perm.refl l
    · have hp : j / 2 < j + 1 := by omega
      have hswap := @swap_perm α d l (j / 2) (j + 1) hp hj
      have hrec := bubbleUp_perm (j / 2)
        ((l.set (j / 2) (l.getD (j+1) d)).set (j + 1) (l.getD (j / 2) d))
        (by simpa using lt_of_lt_of_le hp (le_of_lt hj))
      exact hrec.trans hswap

theorem bubbleDown_length : ∀ (l : List α) (i : Nat), (bubbleDown cmp d l i).length = l.length
  | l, i => by
    rw [bubbleDown]
    split_ifs with h
    · rfl
    · rw [bubbleDown_length]
      simp
termination_by l i => l.length - i
decreasing_by
  rcases downTarget_cases cmp d l i with hc | hc
  · exact absurd hc h
  · simp only [List.length_set]
    omega

theorem bubbleDown_perm : ∀ (l : List α) (i : Nat), i < l.length → (bubbleDown cmp d l i).Perm l
  | l, i, hi => by
    rw [bubbleDown]
    split_ifs with h
    · exact List.Perm.refl l
    · rcases downTarget_cases cmp d l i with hc | hc
      · exact absurd hc h
      · have hswap := @swap_perm α d l i (downTarget cmp d l i) hc.1 hc.2
        have hrec := bubbleDown_perm
          ((l.set i (l.getD (downTarget cmp d l i) d)).set (downTarget cmp d l i) (l.getD i d))
          (downTarget cmp d l i) (by simpa using hc.2)
        exact hrec.trans hswap
termination_by l i => l.length - i
decreasing_by
  rcases downTarget_cases cmp d l i with hc | hc
  · exact absurd hc h
  · simp only [List.length_set]
    omega


theorem heapParent_succ (j : Nat) : heapParent (j + 1) = j / 2 := by
  simp [heapParent]

theorem heapParent_lt {i : Nat} (h : 0 < i) : heapParent i < i := by
  unfold heapParent
  omega

theorem heapParent_children {c j : Nat} (h0 : 0 < c) (h : heapParent c = j) :
    c = 2 * j + 1 ∨ c = 2 * j + 2 := by
  unfold heapParent at h
  omega

theorem heapParent_left (i : Nat) : heapParent (2 * i + 1) = i := by
  unfold heapParent
  omega

theorem heapParent_right (i : Nat) : heapParent (2 * i + 2) = i := by
  unfold heapParent
  omega

/-- `bubbleUp`'s working invariant: the heap property may fail only at
the edge from `j` to its parent, and the children of `j` already
compare at or above `j`'s parent. -/
def AlmostUp (l : List α) (j : Nat) : Prop :=
  (∀ i, 0 < i → i < l.length → i ≠ j → 0 ≤ cmp (l.getD i d) (l.getD (heapParent i) d)) ∧
  (∀ c, c < l.length → 0 < j → heapParent c = j →
    0 ≤ cmp (l.getD c d) (l.getD (heapParent j) d))

variable (hswap : ∀ a b, cmp a b = -(cmp b a))
variable (htrans : ∀ a b c, cmp a b ≤ 0 → cmp b c ≤ 0 → cmp a c ≤ 0)

theorem cmp_flip (hswap : ∀ a b, cmp a b = -(cmp b a)) (a b : α) :
    0 ≤ cmp a b ↔ cmp b a ≤ 0 := by
  rw [hswap b a]
  omega

theorem cmp_ge_trans (hswap : ∀ a b, cmp a b = -(cmp b a))
    (htrans : ∀ a b c, cmp a b ≤ 0 → cmp b c ≤ 0 → cmp a c ≤ 0)
    (a b c : α) (hba : 0 ≤ cmp b a) (hcb : 0 ≤ cmp c b) :
    0 ≤ cmp c a :=
  (cmp_flip cmp hswap c a).mpr
    (htrans a b c ((cmp_flip cmp hswap b a).mp hba) ((cmp_flip cmp hswap c b).mp hcb))

theorem cmp_self (hswap : ∀ a b, cmp a b = -(cmp b a)) (a : α) : cmp a a = 0 := by
  have := hswap a a
  omega

theorem bubbleUp_spec (hswap : ∀ a b, cmp a b = -(cmp b a))
    (htrans : ∀ a b c, cmp a b ≤ 0 → cmp b c ≤ 0 → cmp a c ≤ 0) :
    ∀ (j : Nat) (l : List α), j < l.length → AlmostUp cmp d l j →
      HeapInv cmp d (bubbleUp cmp d l j)
  | 0, l, _, halm => by
    rw [bubbleUp]
    intro i hi hil
    exact halm.1 i hi hil (by omega)
  | j + 1, l, hj, halm => by
    rw [bubbleUp]
    split_ifs with h
    · intro i hi hil
      by_cases hij : i = j + 1
      · subst hij
        rw [heapParent_succ]
        exact h
      · exact halm.1 i hi hil hij
    · have hcmp : cmp (l.getD (j + 1) d) (l.getD (j / 2) d) < 0 := by omega
      set p := j / 2 with hp
      set cur := l.getD (j + 1) d with hcur
      set par := l.getD p d with hpar
      set l' := (l.set p cur).set (j + 1) par with hl'
      have hpj : p < j + 1 := by omega
      have hplen : p < l.length := lt_trans hpj hj
      have hlen' : l'.length = l.length := by simp [hl']
      have g1 : l'.getD (j + 1) d = par :=
        getD_set_self d _ _ _ (by simpa using hj)
      have g2 : l'.getD p d = cur := by
        rw [hl', getD_set_ne d _ _ (by omega), getD_set_self d _ _ _ hplen]
      have g3 : ∀ x, x ≠ p → x ≠ j + 1 → l'.getD x d = l.getD x d := by
        intro x hxp hxj
        rw [hl', getD_set_ne d _ _ (fun hh => hxj hh.symm), getD_set_ne d _ _ (fun hh => hxp hh.symm)]
      have hpsucc : heapParent (j + 1) = p := heapParent_succ j
      have halm' : AlmostUp cmp d l' p := by
        constructor
        · intro i hi hil' hip
          rw [hlen'] at hil'
          by_cases hij1 : i = j + 1
          · subst hij1
            rw [hpsucc, g1, g2]
            rw [hswap par cur]
            omega
          · have hiv : l'.getD i d = l.getD i d := g3 i hip hij1
            by_cases hpar1 : heapParent i = j + 1
            · rw [hiv, hpar1, g1]
              have := halm.2 i hil' (by omega) hpar1
              rw [hpsucc] at this
              exact this
            · by_cases hpar2 : heapParent i = p
              · rw [hiv, hpar2, g2]
                have hedge : 0 ≤ cmp (l.getD i d) par := by
                  have := halm.1 i hi hil' hij1
                  rw [hpar2] at this
                  exact this
                refine cmp_ge_trans cmp hswap htrans cur par (l.getD i d) ?_ hedge
                rw [hswap par cur]
                omega
              · rw [hiv, g3 _ hpar2 hpar1]
                exact halm.1 i hi hil' hij1
        · intro c hc hp0 hparc
          rw [hlen'] at hc
          have hppp : heapParent p < p := heapParent_lt hp0
          have hgp : l'.getD (heapParent p) d = l.getD (heapParent p) d :=
            g3 _ (by omega) (by omega)
          have hedgep : 0 ≤ cmp (l.getD p d) (l.getD (heapParent p) d) :=
            halm.1 p hp0 hplen (by omega)
          by_cases hcj : c = j + 1
          · subst hcj
            rw [g1, hgp]
            exact hedgep
          · have hcgt : 2 * p + 1 ≤ c := by
              have h0c : 0 < c := by
                unfold heapParent at hparc
                omega
              rcases heapParent_children h0c hparc with hcc | hcc <;> omega
            have hcp : c ≠ p := by omega
            rw [g3 c hcp hcj, hgp]
            have hedgec : 0 ≤ cmp (l.getD c d) (l.getD p d) := by
              have := halm.1 c (by omega) hc hcj
              rw [hparc] at this
              exact this
            exact cmp_ge_trans cmp hswap htrans (l.getD (heapParent p) d) (l.getD p d)
              (l.getD c d) hedgep hedgec
      exact bubbleUp_spec hswap htrans p l' (by omega) halm'


/-- With the swap target equal to the current slot, both children (when
present) already compare at or above it. -/
theorem downTarget_self_facts {l : List α} {i : Nat} (h : downTarget cmp d l i = i) :
    ∀ c, (c = 2 * i + 1 ∨ c = 2 * i + 2) → c < l.length →
      0 ≤ cmp (l.getD c d) (l.getD i d) := by
  unfold downTarget at h
  dsimp only at h
  split_ifs at h with h1 h2 h2
  · omega
  · omega
  · omega
  · intro c hcc hcl
    rcases hcc with rfl | rfl
    · rcases lt_or_ge (cmp (l.getD (2 * i + 1) d) (l.getD i d)) 0 with hb | hb
      · exact absurd ⟨hcl, hb⟩ h1
      · exact hb
    · rcases lt_or_ge (cmp (l.getD (2 * i + 2) d) (l.getD i d)) 0 with hb | hb
      · exact absurd ⟨hcl, hb⟩ h2
      · exact hb

theorem downTarget_ne_facts (hswap : ∀ a b, cmp a b = -(cmp b a))
    (htrans : ∀ a b c, cmp a b ≤ 0 → cmp b c ≤ 0 → cmp a c ≤ 0)
    {l : List α} {i : Nat} (h : downTarget cmp d l i ≠ i) :
    (downTarget cmp d l i = 2 * i + 1 ∨ downTarget cmp d l i = 2 * i + 2) ∧
    downTarget cmp d l i < l.length ∧
    cmp (l.getD (downTarget cmp d l i) d) (l.getD i d) ≤ 0 ∧
    (∀ c, (c = 2 * i + 1 ∨ c = 2 * i + 2) → c ≠ downTarget cmp d l i → c < l.length →
      0 ≤ cmp (l.getD c d) (l.getD (downTarget cmp d l i) d)) := by
  unfold downTarget at h ⊢
  dsimp only at h ⊢
  split_ifs at h ⊢ with h1 h2 h2
  · obtain ⟨hl1, hc1⟩ := h1
    obtain ⟨hl2, hc2⟩ := h2
    refine ⟨Or.inr rfl, hl2, htrans _ _ _ (le_of_lt hc2) (le_of_lt hc1), ?_⟩
    intro c hcc hct hcl
    rcases hcc with rfl | rfl
    · rw [hswap]
      omega
    · omega
  · obtain ⟨hl1, hc1⟩ := h1
    refine ⟨Or.inl rfl, hl1, le_of_lt hc1, ?_⟩
    intro c hcc hct hcl
    rcases hcc with rfl | rfl
    · omega
    · rcases lt_or_ge (cmp (l.getD (2 * i + 2) d) (l.getD (2 * i + 1) d)) 0 with hb | hb
      · exact absurd ⟨hcl, hb⟩ h2
      · exact hb
  · obtain ⟨hl2, hc2⟩ := h2
    refine ⟨Or.inr rfl, hl2, le_of_lt hc2, ?_⟩
    intro c hcc hct hcl
    rcases hcc with rfl | rfl
    · have hb : 0 ≤ cmp (l.getD (2 * i + 1) d) (l.getD i d) := by
        rcases lt_or_ge (cmp (l.getD (2 * i + 1) d) (l.getD i d)) 0 with hb | hb
        · exact absurd ⟨hcl, hb⟩ h1
        · exact hb
      refine cmp_ge_trans cmp hswap htrans _ (l.getD i d) _ ?_ hb
      rw [hswap]
      omega
    · omega
  · omega

/-- `bubbleDown`'s working invariant: the heap property may fail only
on the edges from `j` down to its children, and the children of `j`
already compare at or above `j`'s parent. -/
def AlmostDown (l : List α) (j : Nat) : Prop :=
  (∀ i, 0 < i → i < l.length → heapParent i ≠ j →
    0 ≤ cmp (l.getD i d) (l.getD (heapParent i) d)) ∧
  (∀ c, c < l.length → 0 < j → heapParent c = j →
    0 ≤ cmp (l.getD c d) (l.getD (heapParent j) d))

theorem bubbleDown_spec (hswap : ∀ a b, cmp a b = -(cmp b a))
    (htrans : ∀ a b c, cmp a b ≤ 0 → cmp b c ≤ 0 → cmp a c ≤ 0) :
    ∀ (l : List α) (i : Nat), AlmostDown cmp d l i → HeapInv cmp d (bubbleDown cmp d l i)
  | l, i, halm => by
    rw [bubbleDown]
    split_ifs with hs
    · intro x hx hxl
      by_cases hpx : heapParent x = i
      · rw [hpx]
        exact downTarget_self_facts cmp d hs x (heapParent_children hx hpx) hxl
      · exact halm.1 x hx hxl hpx
    · obtain ⟨hdc, hdlen, hdle, hother⟩ := downTarget_ne_facts cmp d hswap htrans hs
      have hit : i < downTarget cmp d l i := by rcases hdc with hh | hh <;> omega
      have hpt : heapParent (downTarget cmp d l i) = i := by
        rcases hdc with hh | hh
        · rw [hh]
          exact heapParent_left i
        · rw [hh]
          exact heapParent_right i
      refine bubbleDown_spec hswap htrans _ _ ?_
      set t := downTarget cmp d l i with ht
      set a := l.getD i d with hA
      set b := l.getD t d with hB
      set l' := (l.set i b).set t a with hl'
      have hil : i < l.length := lt_trans hit hdlen
      have hlen' : l'.length = l.length := by simp [hl']
      have g1 : l'.getD t d = a := getD_set_self d _ _ _ (by simpa using hdlen)
      have g2 : l'.getD i d = b := by
        rw [hl', getD_set_ne d _ _ (by omega), getD_set_self d _ _ _ hil]
      have g3 : ∀ x, x ≠ i → x ≠ t → l'.getD x d = l.getD x d := by
        intro x hxi hxt
        rw [hl', getD_set_ne d _ _ (fun hh => hxt hh.symm),
          getD_set_ne d _ _ (fun hh => hxi hh.symm)]
      constructor
      · intro x hx hxl hpx
        rw [hlen'] at hxl
        by_cases hxt : x = t
        · subst hxt
          rw [g1, hpt, g2, hswap a b]
          omega
        · by_cases hxi : x = i
          · subst hxi
            have hpi := heapParent_lt hx
            rw [g2, g3 _ (by omega) (by omega)]
            exact halm.2 t hdlen hx hpt
          · by_cases hpxi : heapParent x = i
            · rw [g3 x hxi hxt, hpxi, g2]
              exact hother x (heapParent_children hx hpxi) hxt hxl
            · rw [g3 x hxi hxt, g3 _ hpxi hpx]
              exact halm.1 x hx hxl hpxi
      · intro c hc ht0 hpc
        rw [hlen'] at hc
        have hc2t : 2 * t + 1 ≤ c := by
          unfold heapParent at hpc
          omega
        rw [hpt, g2, g3 c (by omega) (by omega)]
        have h1 := halm.1 c (by omega) hc (by omega)
        rw [hpc] at h1
        exact h1
termination_by l i => l.length - i
decreasing_by
  rcases downTarget_cases cmp d l i with hcc | hcc
  · exact absurd hcc hs
  · simp only [List.length_set]
    omega

theorem heapRoot_min (hswap : ∀ a b, cmp a b = -(cmp b a))
    (htrans : ∀ a b c, cmp a b ≤ 0 → cmp b c ≤ 0 → cmp a c ≤ 0)
    {l : List α} (hinv : HeapInv cmp d l) :
    ∀ i, i < l.length → 0 ≤ cmp (l.getD i d) (l.getD 0 d) := by
  intro i
  induction i using Nat.strong_induction_on with
  | _ i ih =>
    intro hil
    rcases Nat.eq_zero_or_pos i with rfl | hi
    · rw [cmp_self cmp hswap]
    · have hedge := hinv i hi hil
      have hp := ih (heapParent i) (heapParent_lt hi) (lt_trans (heapParent_lt hi) hil)
      exact cmp_ge_trans cmp hswap htrans _ _ _ hp hedge

theorem heap_min_all (hswap : ∀ a b, cmp a b = -(cmp b a))
    (htrans : ∀ a b c, cmp a b ≤ 0 → cmp b c ≤ 0 → cmp a c ≤ 0)
    {l : List α} (hinv : HeapInv cmp d l) :
    ∀ x ∈ l, 0 ≤ cmp x (l.getD 0 d) := by
  intro x hx
  obtain ⟨i, hi, rfl⟩ := List.mem_iff_getElem.mp hx
  rw [← List.getD_eq_getElem l d hi]
  exact heapRoot_min cmp d hswap htrans hinv i hi

theorem heapInsert_length (l : List α) (x : α) :
    (heapInsert cmp d l x).length = l.length + 1 := by
  unfold heapInsert
  rw [bubbleUp_length]
  simp

theorem heapInsert_perm (l : List α) (x : α) : (heapInsert cmp d l x).Perm (x :: l) := by
  unfold heapInsert
  refine (bubbleUp_perm cmp d l.length (l ++ [x]) (by simp)).trans ?_
  simpa using @List.perm_middle α x l []

theorem heapInsert_heapInv (hswap : ∀ a b, cmp a b = -(cmp b a))
    (htrans : ∀ a b c, cmp a b ≤ 0 → cmp b c ≤ 0 → cmp a c ≤ 0)
    {l : List α} (hinv : HeapInv cmp d l) (x : α) :
    HeapInv cmp d (heapInsert cmp d l x) := by
  unfold heapInsert
  apply bubbleUp_spec cmp d hswap htrans l.length (l ++ [x]) (by simp)
  constructor
  · intro i hi hil hine
    have hil' : i < l.length := by
      simp only [List.length_append, List.length_cons, List.length_nil] at hil
      omega
    have hpil : heapParent i < l.length := lt_trans (heapParent_lt hi) hil'
    rw [getD_append_left d _ _ _ hil', getD_append_left d _ _ _ hpil]
    exact hinv i hi hil'
  · intro c hc h0 hpc
    unfold heapParent at hpc
    simp only [List.length_append, List.length_cons, List.length_nil] at hc
    omega

theorem getD_take_lt {β : Type} (e : β) (l : List β) {n j : Nat} (h : j < n) :
    (l.take n).getD j e = l.getD j e := by
  induction l generalizing n j with
  | nil => simp
  | cons x xs ih =>
    cases n with
    | zero => omega
    | succ n =>
      cases j with
      | zero => simp
      | succ j => simpa using ih (by omega)

theorem getD_dropLast {β : Type} (e : β) (l : List β) {j : Nat} (h : j < l.length - 1) :
    l.dropLast.getD j e = l.getD j e := by
  rw [List.dropLast_eq_take]
  exact getD_take_lt e l (by omega)

theorem extractMin_eq_none_iff (l : List α) : extractMin cmp d l = none ↔ l = [] := by
  unfold extractMin
  split_ifs with h0 h1
  · simp [List.length_eq_zero.mp h0]
  · have hne : l ≠ [] := by
      intro hh
      rw [hh] at h0
      simp at h0
    simp [hne]
  · have hne : l ≠ [] := by
      intro hh
      rw [hh] at h0
      simp at h0
    simp [hne]

theorem extractMin_some_length {l : List α} {m : α} {t : List α}
    (h : extractMin cmp d l = some (m, t)) : t.length + 1 = l.length := by
  unfold extractMin at h
  split_ifs at h with h0 h1
  · rw [Option.some.injEq, Prod.mk.injEq] at h
    rw [← h.2]
    simp only [List.length_nil]
    omega
  · rw [Option.some.injEq, Prod.mk.injEq] at h
    rw [← h.2, bubbleDown_length]
    simp only [List.length_set, List.length_dropLast]
    omega

theorem extractMin_some_spec (hswap : ∀ a b, cmp a b = -(cmp b a))
    (htrans : ∀ a b c, cmp a b ≤ 0 → cmp b c ≤ 0 → cmp a c ≤ 0)
    {l : List α} {m : α} {t : List α}
    (hinv : HeapInv cmp d l) (h : extractMin cmp d l = some (m, t)) :
    m = l.getD 0 d ∧ (m :: t).Perm l ∧ HeapInv cmp d t ∧ ∀ x ∈ l, 0 ≤ cmp x m := by
  have hmin := heap_min_all cmp d hswap htrans hinv
  unfold extractMin at h
  split_ifs at h with h0 h1
  · rw [Option.some.injEq, Prod.mk.injEq] at h
    obtain ⟨a, rfl⟩ := List.length_eq_one.mp h1
    obtain ⟨hm, ht⟩ := h
    refine ⟨hm.symm, ?_, ?_, ?_⟩
    · rw [← hm, ← ht]
      exact List.Perm.refl _
    · rw [← ht]
      intro i hi hil
      simp at hil
    · rw [← hm]
      exact hmin
  · rw [Option.some.injEq, Prod.mk.injEq] at h
    obtain ⟨hm, ht⟩ := h
    have hlen2 : 2 ≤ l.length := by omega
    have hlenDL : (l.dropLast.set 0 (l.getD (l.length - 1) d)).length = l.length - 1 := by
      simp only [List.length_set, List.length_dropLast]
    have halm : AlmostDown cmp d (l.dropLast.set 0 (l.getD (l.length - 1) d)) 0 := by
      constructor
      · intro x hx hxl hpx
        rw [hlenDL] at hxl
        have hpx0 : 0 < heapParent x := Nat.pos_of_ne_zero hpx
        have g : ∀ y, 0 < y → y < l.length - 1 →
            (l.dropLast.set 0 (l.getD (l.length - 1) d)).getD y d = l.getD y d := by
          intro y hy hyl
          rw [getD_set_ne d _ _ (by omega), getD_dropLast d l hyl]
        rw [g x hx hxl, g (heapParent x) hpx0 (lt_trans (heapParent_lt hx) hxl)]
        exact hinv x hx (by omega)
      · intro c hc h0c hpc
        omega
    have hhi : HeapInv cmp d t := by
      rw [← ht]
      exact bubbleDown_spec cmp d hswap htrans _ 0 halm
    obtain ⟨x0, rest, rfl⟩ : ∃ x0 rest, l = x0 :: rest := by
      cases l with
      | nil => simp at hlen2
      | cons y ys => exact ⟨y, ys, rfl⟩
    have hrest : rest ≠ [] := by
      intro hh
      rw [hh] at hlen2
      simp at hlen2
    have hdl : (x0 :: rest).dropLast = x0 :: rest.dropLast :=
      List.dropLast_cons_of_ne_nil hrest
    have hlast : (x0 :: rest).getD ((x0 :: rest).length - 1) d
        = rest.getD (rest.length - 1) d := by
      have hh : (x0 :: rest).length - 1 = (rest.length - 1) + 1 := by
        simp only [List.length_cons]
        have := List.length_pos.mpr hrest
        omega
      rw [hh, List.getD_cons_succ]
    have hrestdec : rest = rest.dropLast ++ [rest.getD (rest.length - 1) d] := by
      have hl0 := List.length_pos.mpr hrest
      have hdec := getD_of_take_cons_drop d rest (rest.length - 1) (by omega)
      rw [← List.dropLast_eq_take] at hdec
      conv_lhs => rw [hdec]
      simp only [List.append_cancel_left_eq, List.cons.injEq, true_and]
      rw [List.drop_eq_nil_iff_le]
      omega
    have hform : (x0 :: rest).dropLast.set 0 ((x0 :: rest).getD ((x0 :: rest).length - 1) d)
        = rest.getD (rest.length - 1) d :: rest.dropLast := by
      rw [hdl, hlast]
      rfl
    refine ⟨hm.symm, ?_, hhi, ?_⟩
    · have hperm1 : t.Perm (rest.getD (rest.length - 1) d :: rest.dropLast) := by
        rw [← ht, hform]
        exact bubbleDown_perm cmp d _ 0 (by simp)
      have hperm2 : (rest.getD (rest.length - 1) d :: rest.dropLast).Perm rest := by
        conv_rhs => rw [hrestdec]
        simpa using
          (@List.perm_middle α (rest.getD (rest.length - 1) d) rest.dropLast []).symm
      have hm0 : m = x0 := by rw [← hm]; rfl
      rw [hm0]
      exact List.Perm.cons x0 (hperm1.trans hperm2)
    · rw [← hm]
      exact hmin

end MinHeap


/-! ### MergeIterator (MergeIterator.ts)

The iterator's synchronous sources (SourceWrapper) are lists of merge
entries consumed front to back; `remaining` holds what each wrapper has
not yet returned.  The heap stores at most one pulled entry per
source. -/

/-- Default heap element for the heap primitives (never observed: all
accesses are in bounds). -/
def dHE : HeapEntry := ⟨⟨[], [], 0, false⟩, 0⟩

/-- State of a running merge. -/
structure MergeState where
  heap : List HeapEntry
  remaining : List (List MergeEntry)

/-- MergeIterator.advanceSource: pull the next entry of source `i` (if
the source exists and is not exhausted) into the heap, tagged with its
source index. -/
def advanceSource (st : MergeState) (i : Nat) : MergeState :=
  if i < st.remaining.length then
    match st.remaining.getD i [] with
    | [] => st
    | e :: rest =>
      ⟨heapInsert compareHeapEntries dHE st.heap ⟨e, i⟩, st.remaining.set i rest⟩
  else st

/-- Total number of entries still flowing through the merge. -/
def msize (st : MergeState) : Nat :=
  st.heap.length + (st.remaining.map List.length).sum

theorem sum_map_length_set (rs : List (List MergeEntry)) (i : Nat) (x : List MergeEntry)
    (h : i < rs.length) :
    ((rs.set i x).map List.length).sum + (rs.getD i []).length
      = (rs.map List.length).sum + x.length := by
  induction rs generalizing i with
  | nil => simp at h
  | cons s ss ih =>
    cases i with
    | zero => simp [Nat.add_comm, Nat.add_assoc, Nat.add_left_comm]
    | succ i =>
      have := ih i (by simpa using h)
      simp only [List.set, List.map_cons, List.sum_cons, List.getD_cons_succ]
      omega

theorem advanceSource_msize (st : MergeState) (i : Nat) :
    msize (advanceSource st i) = msize st := by
  unfold advanceSource
  split_ifs with hi
  · cases hrem : st.remaining.getD i [] with
    | nil => rfl
    | cons e rest =>
      unfold msize
      simp only
      rw [heapInsert_length]
      have hsum := sum_map_length_set st.remaining i rest hi
      rw [hrem] at hsum
      simp only [List.length_cons] at hsum
      omega
  · rfl

theorem extractMinTail_length (l : List HeapEntry) (h : l ≠ []) :
    (extractMinTail compareHeapEntries dHE l).length + 1 = l.length :=
  extractMin_some_length compareHeapEntries dHE (extractMin_eq_root_tail compareHeapEntries dHE l h)

/-- MergeIterator.iterate, inner loop: while the heap's root (`peek`)
carries the current key, `extractMin` it — on a non-empty heap that
returns the root and `extractMinTail` — and advance its source. -/
def drain : List HeapEntry → List (List MergeEntry) → Str → MergeState
  | [], rem, _ => ⟨[], rem⟩
  | top :: rest, rem, key =>
    if top.key = key then
      let st1 := advanceSource
        ⟨extractMinTail compareHeapEntries dHE (top :: rest), rem⟩ top.sourceIndex
      drain st1.heap st1.remaining key
    else ⟨top :: rest, rem⟩
termination_by heap rem key => msize ⟨heap, rem⟩
decreasing_by
  show msize (advanceSource
    ⟨extractMinTail compareHeapEntries dHE (top :: rest), rem⟩ top.sourceIndex)
    < msize ⟨top :: rest, rem⟩
  rw [advanceSource_msize]
  have hlen := extractMinTail_length (top :: rest) (by simp)
  unfold msize
  simp only [List.length_cons] at hlen ⊢
  omega

theorem drain_msize_le (heap : List HeapEntry) (rem : List (List MergeEntry)) (k : Str) :
    msize (drain heap rem k) ≤ msize ⟨heap, rem⟩ := by
  generalize hn : msize (⟨heap, rem⟩ : MergeState) = n
  induction n using Nat.strong_induction_on generalizing heap rem with
  | _ n ih =>
    subst hn
    cases heap with
    | nil => simp [drain]
    | cons top rest =>
      rw [drain]
      split_ifs with hk
      · have hlen := extractMinTail_length (top :: rest) (by simp)
        have hsz : msize (advanceSource
            ⟨extractMinTail compareHeapEntries dHE (top :: rest), rem⟩
            top.sourceIndex) < msize ⟨top :: rest, rem⟩ := by
          rw [advanceSource_msize]
          unfold msize
          simp only [List.length_cons] at hlen ⊢
          omega
        exact le_trans (ih _ hsz _ _ rfl) (le_of_lt hsz)
      · exact le_refl _

/-- MergeIterator.iterate, outer loop: `extractMin` the smallest entry
(the winner — on a non-empty heap the root, leaving `extractMinTail`),
drain same-key duplicates (advancing their sources), advance the
winner's source, then emit unless it is a filtered tombstone. -/
def mergeLoop (includeTombstones : Bool) :
    List HeapEntry → List (List MergeEntry) → List KVPair
  | [], _ => []
  | top :: rest, rem =>
    let st1 := drain (extractMinTail compareHeapEntries dHE (top :: rest)) rem top.key
    let st2 := advanceSource st1 top.sourceIndex
    if top.deleted && !includeTombstones then
      mergeLoop includeTombstones st2.heap st2.remaining
    else ⟨top.key, top.value⟩ :: mergeLoop includeTombstones st2.heap st2.remaining
termination_by heap rem => msize ⟨heap, rem⟩
decreasing_by
  all_goals
    show msize (advanceSource
      (drain (extractMinTail compareHeapEntries dHE (top :: rest)) rem top.key)
      top.sourceIndex) < msize ⟨top :: rest, rem⟩
    rw [advanceSource_msize]
    have hlen := extractMinTail_length (top :: rest) (by simp)
    have hd := drain_msize_le (extractMinTail compareHeapEntries dHE (top :: rest)) rem top.key
    unfold msize at hd ⊢
    simp only [List.length_cons] at hlen hd ⊢
    omega

/-- MergeIterator.initializeHeap: advance every source once. -/
def initializeHeap (sources : List (List MergeEntry)) : MergeState :=
  (List.range sources.length).foldl advanceSource ⟨[], sources⟩

/-- MergeIterator.iterate on synchronous sources. -/
def iterate (sources : List (List MergeEntry)) (includeTombstones : Bool) : List KVPair :=
  mergeLoop includeTombstones (initializeHeap sources).heap (initializeHeap sources).remaining

theorem che_swap (a b : HeapEntry) : compareHeapEntries a b = -(compareHeapEntries b a) := by
  have hs := localeCompare_swap a.key b.key
  unfold compareHeapEntries
  dsimp only
  split_ifs with h1 h2 h2 <;> omega

theorem che_le_trans (a b c : HeapEntry)
    (h1 : compareHeapEntries a b ≤ 0) (h2 : compareHeapEntries b c ≤ 0) :
    compareHeapEntries a c ≤ 0 := by
  unfold compareHeapEntries at h1 h2 ⊢
  dsimp only at h1 h2 ⊢
  by_cases hab : localeCompare a.key b.key = 0
  · have hkey : a.key = b.key := (localeCompare_eq_zero_iff _ _).mp hab
    rw [if_neg (not_not.mpr hab)] at h1
    by_cases hbc : localeCompare b.key c.key = 0
    · have hkey2 : b.key = c.key := (localeCompare_eq_zero_iff _ _).mp hbc
      have hac : localeCompare a.key c.key = 0 := by
        rw [hkey, hkey2, localeCompare_self]
      rw [if_neg (not_not.mpr hbc)] at h2
      rw [if_neg (not_not.mpr hac)]
      omega
    · have hlt : localeCompare b.key c.key < 0 := by
        rw [if_pos hbc] at h2
        omega
      have hac : localeCompare a.key c.key < 0 := by
        rw [hkey]
        exact hlt
      rw [if_pos (by omega)]
      omega
  · have hlt : localeCompare a.key b.key < 0 := by
      rw [if_pos hab] at h1
      omega
    by_cases hbc : localeCompare b.key c.key = 0
    · have hkey2 : b.key = c.key := (localeCompare_eq_zero_iff _ _).mp hbc
      have hac : localeCompare a.key c.key < 0 := by
        rw [← hkey2]
        exact hlt
      rw [if_pos (by omega)]
      omega
    · have hlt2 : localeCompare b.key c.key < 0 := by
        rw [if_pos hbc] at h2
        omega
      have hac := localeCompare_trans_neg hlt hlt2
      rw [if_pos (by omega)]
      omega

theorem che_nonneg_key {a b : HeapEntry} (h : 0 ≤ compareHeapEntries a b) :
    0 ≤ localeCompare a.key b.key := by
  unfold compareHeapEntries at h
  dsimp only at h
  by_cases hab : localeCompare a.key b.key = 0
  · omega
  · rw [if_pos hab] at h
    omega

theorem che_nonneg_idx {a b : HeapEntry} (h : 0 ≤ compareHeapEntries a b)
    (hk : a.key = b.key) : b.sourceIndex ≤ a.sourceIndex := by
  unfold compareHeapEntries at h
  dsimp only at h
  rw [hk, localeCompare_self] at h
  rw [if_neg (by omega)] at h
  omega

/-! ### Reference recursion for the merge and the run invariant -/

/-- Entries of source `i` currently sitting in the heap. -/
def srcEntries (heap : List HeapEntry) (i : Nat) : List HeapEntry :=
  heap.filter (fun e => decide (e.sourceIndex = i))

theorem srcEntries_cons (x : HeapEntry) (heap : List HeapEntry) (i : Nat) :
    srcEntries (x :: heap) i
      = if x.sourceIndex = i then x :: srcEntries heap i else srcEntries heap i := by
  by_cases h : x.sourceIndex = i <;> simp [srcEntries, List.filter_cons, h]

theorem srcEntries_eq_of_perm {h1 h2 : List HeapEntry} (hp : h1.Perm h2) (i : Nat)
    (hone : (srcEntries h2 i).length ≤ 1) : srcEntries h1 i = srcEntries h2 i :=
  perm_eq_of_length_le_one (hp.filter _) hone

theorem mem_srcEntries {heap : List HeapEntry} {i : Nat} {e : HeapEntry} :
    e ∈ srcEntries heap i ↔ e ∈ heap ∧ e.sourceIndex = i := by
  simp [srcEntries, List.mem_filter]

/-- Relation between a merge state and the abstract per-source streams
`rs` it still has to deliver: the heap holds at most one entry per
source, each source's stream is its heap entry (if any) followed by the
wrapper's remaining suffix, and only exhausted sources are missing from
the heap. -/
structure MergeInv (heap : List HeapEntry) (rem rs : List (List MergeEntry)) : Prop where
  hlen : rem.length = rs.length
  hidx : ∀ e ∈ heap, e.sourceIndex < rs.length
  hsrc : ∀ i < rs.length,
    (srcEntries heap i).map HeapEntry.toMergeEntry ++ rem.getD i [] = rs.getD i []
  hone : ∀ i, (srcEntries heap i).length ≤ 1
  hlag : ∀ i < rs.length, srcEntries heap i = [] → rem.getD i [] = []

theorem MergeInv_perm {heap heap2 : List HeapEntry} {rem rs : List (List MergeEntry)}
    (hinv : MergeInv heap rem rs) (hp : heap2.Perm heap) : MergeInv heap2 rem rs := by
  have hse : ∀ i, srcEntries heap2 i = srcEntries heap i :=
    fun i => srcEntries_eq_of_perm hp i (hinv.hone i)
  refine ⟨hinv.hlen, ?_, ?_, ?_, ?_⟩
  · intro e he
    exact hinv.hidx e (hp.mem_iff.mp he)
  · intro i hi
    rw [hse i]
    exact hinv.hsrc i hi
  · intro i
    rw [hse i]
    exact hinv.hone i
  · intro i hi hnil
    rw [hse i] at hnil
    exact hinv.hlag i hi hnil

theorem getD_mem_of_lt {β : Type} (e : β) (l : List β) (j : Nat) (h : j < l.length) :
    l.getD j e ∈ l := by
  induction l generalizing j with
  | nil => simp at h
  | cons x xs ih =>
    cases j with
    | zero => simp
    | succ j =>
      simp only [List.getD_cons_succ]
      exact List.mem_cons_of_mem x (ih j (by simpa using h))

theorem mem_iff_getD {β : Type} (e : β) {l : List β} {x : β} :
    x ∈ l ↔ ∃ j, j < l.length ∧ l.getD j e = x := by
  constructor
  · intro hx
    obtain ⟨i, hi, rfl⟩ := List.mem_iff_getElem.mp hx
    exact ⟨i, hi, List.getD_eq_getElem l e hi⟩
  · rintro ⟨j, hj, rfl⟩
    exact getD_mem_of_lt e l j hj

theorem list_ext_getD {β : Type} (e : β) {l1 l2 : List β}
    (hlen : l1.length = l2.length)
    (h : ∀ i, i < l1.length → l1.getD i e = l2.getD i e) : l1 = l2 := by
  induction l1 generalizing l2 with
  | nil =>
    cases l2 with
    | nil => rfl
    | cons y ys => simp at hlen
  | cons x xs ih =>
    cases l2 with
    | nil => simp at hlen
    | cons y ys =>
      have hx := h 0 (by simp)
      simp only [List.getD_cons_zero] at hx
      subst hx
      congr 1
      refine ih (by simpa using hlen) ?_
      intro i hi
      have := h (i + 1) (by simpa using hi)
      simpa using this

theorem getD_range_map {β : Type} (e : β) (n : Nat) (f : Nat → β) (i : Nat) :
    ((List.range n).map f).getD i e = if i < n then f i else e := by
  rw [List.getD_eq_getElem?_getD, List.getElem?_map]
  split_ifs with h
  · rw [List.getElem?_range h]
    rfl
  · rw [List.getElem?_eq_none (by simpa using by omega)]
    rfl

/-! Reference recursion: repeatedly take the least front key, emit the
first source's front entry for it, and pop every source whose front
carries that key. -/

/-- Keys at the front of the non-exhausted streams. -/
def frontKeys (rs : List (List MergeEntry)) : List Str :=
  rs.filterMap (fun s => s.head?.map MergeEntry.key)

/-- Least key under localeCompare. -/
def lcMinKey : List Str → Option Str
  | [] => none
  | k :: ks =>
    match lcMinKey ks with
    | none => some k
    | some m => if localeCompare k m ≤ 0 then some k else some m

/-- Drop the front entry of one stream when it carries key `k`. -/
def popOne : List MergeEntry → Str → List MergeEntry
  | [], _ => []
  | e :: t, k => if e.key = k then t else e :: t

/-- Pop key `k` from the front of every stream carrying it. -/
def popHeads (rs : List (List MergeEntry)) (k : Str) : List (List MergeEntry) :=
  rs.map (fun s => popOne s k)

/-- Pop key `k` from every stream except stream `wi` (the winner's,
whose front is popped separately by `advanceSource`). -/
def popHeadsExcept (rs : List (List MergeEntry)) (k : Str) (wi : Nat) :
    List (List MergeEntry) :=
  (List.range rs.length).map
    (fun i => if i = wi then rs.getD i [] else popOne (rs.getD i []) k)

/-- The front entry for key `k` of the first stream whose front carries
`k`. -/
def specWinner (rs : List (List MergeEntry)) (k : Str) : Option MergeEntry :=
  (rs.filterMap (fun s => s.head?.bind (fun e => if e.key = k then some e else none))).head?

/-- The entry for key `q` in the first stream containing `q` at all. -/
def firstContaining (rs : List (List MergeEntry)) (q : Str) : Option MergeEntry :=
  (rs.filterMap (fun s => s.find? (fun e => e.key == q))).head?

theorem popOne_length_le (s : List MergeEntry) (k : Str) :
    (popOne s k).length ≤ s.length := by
  cases s with
  | nil => simp [popOne]
  | cons e t =>
    simp only [popOne]
    split_ifs <;> simp

theorem popOne_sub (s : List MergeEntry) (k : Str) : ∀ e ∈ popOne s k, e ∈ s := by
  cases s with
  | nil => simp [popOne]
  | cons e t =>
    simp only [popOne]
    split_ifs with h
    · intro x hx
      exact List.mem_cons_of_mem e hx
    · intro x hx
      exact hx

theorem sum_popHeads_le (rs : List (List MergeEntry)) (k : Str) :
    ((popHeads rs k).map List.length).sum ≤ (rs.map List.length).sum := by
  induction rs with
  | nil => simp [popHeads]
  | cons s ss ih =>
    simp only [popHeads, List.map_cons, List.sum_cons] at ih ⊢
    have := popOne_length_le s k
    omega

theorem sum_popHeads_lt (rs : List (List MergeEntry)) (k : Str)
    (h : ∃ s ∈ rs, ∃ e t, s = e :: t ∧ e.key = k) :
    ((popHeads rs k).map List.length).sum < (rs.map List.length).sum := by
  induction rs with
  | nil => simp at h
  | cons s ss ih =>
    simp only [popHeads, List.map_cons, List.sum_cons]
    rcases h with ⟨s0, hs0, e, t, hst, hek⟩
    rcases List.mem_cons.mp hs0 with rfl | hmem
    · have hlt : (popOne s0 k).length < s0.length := by
        rw [hst]
        show (if e.key = k then t else e :: t).length < (e :: t).length
        rw [if_pos hek]
        simp
      have := sum_popHeads_le ss k
      simp only [popHeads] at this
      omega
    · have := ih ⟨s0, hmem, e, t, hst, hek⟩
      simp only [popHeads] at this
      have := popOne_length_le s k
      omega

theorem mem_frontKeys {rs : List (List MergeEntry)} {k : Str} :
    k ∈ frontKeys rs ↔ ∃ s ∈ rs, ∃ e t, s = e :: t ∧ e.key = k := by
  unfold frontKeys
  rw [List.mem_filterMap]
  constructor
  · rintro ⟨s, hs, hf⟩
    cases s with
    | nil => simp at hf
    | cons e t =>
      simp only [List.head?_cons, Option.map_some] at hf
      exact ⟨e :: t, hs, e, t, rfl, Option.some.inj hf⟩
  · rintro ⟨s, hs, e, t, rfl, hk⟩
    exact ⟨e :: t, hs, by simp [hk]⟩

theorem lcMinKey_eq_none_iff (ks : List Str) : lcMinKey ks = none ↔ ks = [] := by
  cases ks with
  | nil => simp [lcMinKey]
  | cons k ks =>
    simp only [lcMinKey]
    rcases hm : lcMinKey ks with _ | m
    · dsimp only
      simp
    · dsimp only
      split_ifs <;> simp

theorem lcMinKey_spec :
    ∀ (ks : List Str) (m : Str), lcMinKey ks = some m →
      m ∈ ks ∧ ∀ k ∈ ks, localeCompare m k ≤ 0 := by
  intro ks
  induction ks with
  | nil => simp [lcMinKey]
  | cons k ks ih =>
    intro m hm
    simp only [lcMinKey] at hm
    rcases h0 : lcMinKey ks with _ | m0
    · rw [h0] at hm
      dsimp only at hm
      simp only [Option.some.injEq] at hm
      subst hm
      have hnil : ks = [] := (lcMinKey_eq_none_iff ks).mp h0
      subst hnil
      refine ⟨by simp, ?_⟩
      intro k' hk'
      rcases List.mem_singleton.mp hk' with rfl
      rw [localeCompare_self]
    · rw [h0] at hm
      dsimp only at hm
      obtain ⟨hmem0, hall0⟩ := ih m0 h0
      split_ifs at hm with hc
      · simp only [Option.some.injEq] at hm
        subst hm
        refine ⟨by simp, ?_⟩
        intro k' hk'
        rcases List.mem_cons.mp hk' with rfl | hk'
        · rw [localeCompare_self]
        · exact localeCompare_le_trans hc (hall0 k' hk')
      · simp only [Option.some.injEq] at hm
        subst hm
        refine ⟨List.mem_cons_of_mem k hmem0, ?_⟩
        intro k' hk'
        rcases List.mem_cons.mp hk' with rfl | hk'
        · have hsw := localeCompare_swap k' m0
          omega
        · exact hall0 k' hk'

/-- Per-stream strict ascending order (localeCompare) — "sorted input
sources" in the claim. -/
def SortedSrcs (rs : List (List MergeEntry)) : Prop :=
  ∀ s ∈ rs, s.Pairwise (fun a b => localeCompare a.key b.key < 0)

/-- The reference merge: repeatedly take the least front key, emit the
first source's front entry for it (unless a filtered tombstone), and
pop that key from every front. -/
def specMerge (includeTombstones : Bool) (rs : List (List MergeEntry)) : List KVPair :=
  match hk : lcMinKey (frontKeys rs) with
  | none => []
  | some k =>
    match specWinner rs k with
    | none => []
    | some w =>
      if w.deleted && !includeTombstones then specMerge includeTombstones (popHeads rs k)
      else ⟨k, w.value⟩ :: specMerge includeTombstones (popHeads rs k)
termination_by (rs.map List.length).sum
decreasing_by
  all_goals
    exact sum_popHeads_lt rs k (mem_frontKeys.mp (lcMinKey_spec _ _ hk).1)

theorem sortedSrcs_popHeads {rs : List (List MergeEntry)} {k : Str}
    (h : SortedSrcs rs) : SortedSrcs (popHeads rs k) := by
  intro s' hs'
  obtain ⟨s, hs, rfl⟩ := List.mem_map.mp hs'
  have hsorted := h s hs
  cases s with
  | nil => exact List.Pairwise.nil
  | cons e t =>
    show ((if e.key = k then t else e :: t)).Pairwise _
    split_ifs with hek
    · exact hsorted.of_cons
    · exact hsorted

theorem specWinner_eq :
    ∀ (rs : List (List MergeEntry)) (k : Str) (wi : Nat) (em : MergeEntry),
      wi < rs.length →
      (∃ t0, rs.getD wi [] = em :: t0) → em.key = k →
      (∀ j, j < wi →
        (rs.getD j []).head?.bind (fun e => if e.key = k then some e else none) = none) →
      specWinner rs k = some em := by
  intro rs
  induction rs with
  | nil =>
    intro k wi em hwi
    simp at hwi
  | cons s ss ih =>
    intro k wi em hwi hhead hem hprev
    cases wi with
    | zero =>
      obtain ⟨t0, ht0⟩ := hhead
      simp only [List.getD_cons_zero] at ht0
      subst ht0
      simp [specWinner, List.filterMap_cons, hem]
    | succ wi =>
      have h0 := hprev 0 (by omega)
      simp only [List.getD_cons_zero] at h0
      have hrest : specWinner ss k = some em := by
        refine ih k wi em (by simpa using hwi) ?_ hem ?_
        · simpa using hhead
        · intro j hj
          simpa using hprev (j + 1) (by omega)
      unfold specWinner at hrest ⊢
      rw [List.filterMap_cons, h0]
      exact hrest

theorem find?_eq_head_bind {s : List MergeEntry} {k : Str}
    (hsorted : s.Pairwise (fun a b => localeCompare a.key b.key < 0))
    (hfront : ∀ e t0, s = e :: t0 → localeCompare k e.key ≤ 0) :
    s.find? (fun e => e.key == k) = s.head?.bind (fun e => if e.key = k then some e else none) := by
  cases s with
  | nil => rfl
  | cons e t0 =>
    by_cases hek : e.key = k
    · have hbeq : (e.key == k) = true := by simpa using hek
      simp [List.find?_cons, hbeq, hek]
    · have hbeq : (e.key == k) = false := by simpa using hek
      simp only [List.find?_cons, hbeq, List.head?_cons, Option.some_bind]
      rw [if_neg hek]
      apply List.find?_eq_none.mpr
      intro x hx
      have hgt : localeCompare e.key x.key < 0 := (List.pairwise_cons.mp hsorted).1 x hx
      have hke : localeCompare k e.key ≤ 0 := hfront e t0 rfl
      have hkx : localeCompare k x.key < 0 := localeCompare_lt_of_le_of_lt hke hgt
      simp only [beq_iff_eq]
      intro hxk
      rw [hxk, localeCompare_self] at hkx
      omega

theorem firstContaining_eq_specWinner {rs : List (List MergeEntry)} {k : Str}
    (hsorted : SortedSrcs rs)
    (hminfront : ∀ kk ∈ frontKeys rs, localeCompare k kk ≤ 0) :
    firstContaining rs k = specWinner rs k := by
  unfold firstContaining specWinner
  congr 1
  apply List.filterMap_congr
  intro s hs
  refine find?_eq_head_bind (hsorted s hs) ?_
  intro e t0 hst
  exact hminfront e.key (mem_frontKeys.mpr ⟨s, hs, e, t0, hst, rfl⟩)

theorem firstContaining_popHeads {rs : List (List MergeEntry)} {k q : Str}
    (hq : q ≠ k) : firstContaining (popHeads rs k) q = firstContaining rs q := by
  unfold firstContaining popHeads
  congr 1
  rw [List.filterMap_map]
  apply List.filterMap_congr
  intro s hs
  show ((popOne s k).find? (fun e => e.key == q)) = s.find? (fun e => e.key == q)
  cases s with
  | nil => rfl
  | cons e t =>
    show ((if e.key = k then t else e :: t)).find? _ = _
    split_ifs with hek
    · have hbeq : (e.key == q) = false := by
        simp only [beq_eq_false_iff_ne, ne_eq]
        rw [hek]
        exact fun hh => hq hh.symm
      simp [List.find?_cons, hbeq]
    · rfl

theorem srcEntries_append (h1 h2 : List HeapEntry) (i : Nat) :
    srcEntries (h1 ++ h2) i = srcEntries h1 i ++ srcEntries h2 i :=
  List.filter_append h1 h2

/-- Facts about a source whose front entry `dup` is held outside the
heap (`out` are other held-out entries of different sources, `t` the
heap). -/
theorem held_src_facts {out t : List HeapEntry} {dup : HeapEntry}
    {rem rs : List (List MergeEntry)} (hinv : MergeInv (out ++ dup :: t) rem rs)
    (hout : ∀ x ∈ out, x.sourceIndex ≠ dup.sourceIndex) :
    dup.sourceIndex < rs.length ∧ srcEntries t dup.sourceIndex = [] ∧
      rs.getD dup.sourceIndex [] = dup.toMergeEntry :: rem.getD dup.sourceIndex [] := by
  have hwi : dup.sourceIndex < rs.length :=
    hinv.hidx dup (List.mem_append_right out (List.mem_cons_self dup t))
  have houtnil : srcEntries out dup.sourceIndex = [] := by
    rw [srcEntries, List.filter_eq_nil_iff]
    intro x hx
    simpa using hout x hx
  have hcons : srcEntries (out ++ dup :: t) dup.sourceIndex
      = dup :: srcEntries t dup.sourceIndex := by
    rw [srcEntries_append, houtnil, srcEntries_cons, if_pos rfl]
    rfl
  have htnil : srcEntries t dup.sourceIndex = [] := by
    have hone := hinv.hone dup.sourceIndex
    rw [hcons] at hone
    simp only [List.length_cons] at hone
    exact List.length_eq_zero.mp (by omega)
  have hsrc := hinv.hsrc dup.sourceIndex hwi
  rw [hcons, htnil] at hsrc
  simp only [List.map_cons, List.map_nil, List.cons_append, List.nil_append] at hsrc
  exact ⟨hwi, htnil, hsrc.symm⟩

/-- Effect of advancing the source of an entry `dup` just pulled out of
the heap: the invariant is restored against the streams with `dup`'s
stream replaced by what its wrapper still holds.  `out` are the other
held-out entries (none of them from `dup`'s source). -/
theorem advance_spec {out t : List HeapEntry} {dup : HeapEntry}
    {rem rs : List (List MergeEntry)}
    (hinv : MergeInv (out ++ dup :: t) rem rs)
    (hout : ∀ x ∈ out, x.sourceIndex ≠ dup.sourceIndex)
    (hhi : HeapInv compareHeapEntries dHE t) :
    MergeInv (out ++ (advanceSource ⟨t, rem⟩ dup.sourceIndex).heap)
      (advanceSource ⟨t, rem⟩ dup.sourceIndex).remaining
      (rs.set dup.sourceIndex (rem.getD dup.sourceIndex [])) ∧
    HeapInv compareHeapEntries dHE (advanceSource ⟨t, rem⟩ dup.sourceIndex).heap ∧
    (∀ x ∈ (advanceSource ⟨t, rem⟩ dup.sourceIndex).heap,
      x ∈ t ∨ ∃ e rest, rem.getD dup.sourceIndex [] = e :: rest ∧ x = ⟨e, dup.sourceIndex⟩) := by
  obtain ⟨hwi, htnil, hsplit⟩ := held_src_facts hinv hout
  have houtnil : srcEntries out dup.sourceIndex = [] := by
    rw [srcEntries, List.filter_eq_nil_iff]
    intro x hx
    simpa using hout x hx
  have hwiR : dup.sourceIndex < rem.length := by
    rw [hinv.hlen]
    exact hwi
  have hsrcne : ∀ i, i ≠ dup.sourceIndex →
      srcEntries (out ++ t) i = srcEntries (out ++ dup :: t) i := by
    intro i hi
    rw [srcEntries_append, srcEntries_append, srcEntries_cons, if_neg (fun hh => hi hh.symm)]
  unfold advanceSource
  rw [if_pos (by simpa using hwiR)]
  simp only
  cases hrem : rem.getD dup.sourceIndex [] with
  | nil =>
    dsimp only
    refine ⟨⟨?_, ?_, ?_, ?_, ?_⟩, hhi, ?_⟩
    · simp only [List.length_set]
      exact hinv.hlen
    · intro e he
      simp only [List.length_set]
      rcases List.mem_append.mp he with he1 | he2
      · exact hinv.hidx e (List.mem_append_left _ he1)
      · exact hinv.hidx e (List.mem_append_right _ (List.mem_cons_of_mem dup he2))
    · intro i hi
      simp only [List.length_set] at hi
      by_cases hiw : i = dup.sourceIndex
      · subst hiw
        rw [srcEntries_append, houtnil, htnil, hrem, getD_set_self _ _ _ _ hwi]
        simp
      · rw [hsrcne i hiw, getD_set_ne _ _ _ (fun hh => hiw hh.symm)]
        exact hinv.hsrc i hi
    · intro i
      by_cases hiw : i = dup.sourceIndex
      · subst hiw
        rw [srcEntries_append, houtnil, htnil]
        simp
      · rw [hsrcne i hiw]
        exact hinv.hone i
    · intro i hi hnil
      simp only [List.length_set] at hi
      by_cases hiw : i = dup.sourceIndex
      · subst hiw
        exact hrem
      · rw [hsrcne i hiw] at hnil
        exact hinv.hlag i hi hnil
    · intro x hx
      exact Or.inl hx
  | cons e rest =>
    dsimp only
    have hperm : (heapInsert compareHeapEntries dHE t ⟨e, dup.sourceIndex⟩).Perm
        ((⟨e, dup.sourceIndex⟩ : HeapEntry) :: t) := heapInsert_perm compareHeapEntries dHE t _
    have hone' : ∀ i, (srcEntries (out ++ (⟨e, dup.sourceIndex⟩ : HeapEntry) :: t) i).length ≤ 1 := by
      intro i
      by_cases hiw : i = dup.sourceIndex
      · subst hiw
        rw [srcEntries_append, houtnil, srcEntries_cons, if_pos rfl, htnil]
        simp
      · rw [srcEntries_append, srcEntries_cons, if_neg (fun hh => hiw hh.symm),
          ← srcEntries_append, hsrcne i hiw]
        exact hinv.hone i
    have honeIns : ∀ i, (srcEntries ((⟨e, dup.sourceIndex⟩ : HeapEntry) :: t) i).length ≤ 1 := by
      intro i
      have := hone' i
      rw [srcEntries_append] at this
      simp only [List.length_append] at this
      omega
    have hseq : ∀ i, srcEntries (heapInsert compareHeapEntries dHE t ⟨e, dup.sourceIndex⟩) i
        = srcEntries ((⟨e, dup.sourceIndex⟩ : HeapEntry) :: t) i :=
      fun i => srcEntries_eq_of_perm hperm i (honeIns i)
    have hseqApp : ∀ i,
        srcEntries (out ++ heapInsert compareHeapEntries dHE t ⟨e, dup.sourceIndex⟩) i
          = srcEntries (out ++ (⟨e, dup.sourceIndex⟩ : HeapEntry) :: t) i := by
      intro i
      rw [srcEntries_append, srcEntries_append, hseq]
    refine ⟨⟨?_, ?_, ?_, ?_, ?_⟩, ?_, ?_⟩
    · simp only [List.length_set]
      exact hinv.hlen
    · intro x hx
      simp only [List.length_set]
      rcases List.mem_append.mp hx with hx0 | hxI
      · exact hinv.hidx x (List.mem_append_left _ hx0)
      · rcases List.mem_cons.mp (hperm.mem_iff.mp hxI) with hx1 | hx2
        · rw [hx1]
          exact hwi
        · exact hinv.hidx x (List.mem_append_right _ (List.mem_cons_of_mem dup hx2))
    · intro i hi
      simp only [List.length_set] at hi
      by_cases hiw : i = dup.sourceIndex
      · subst hiw
        rw [hseqApp, srcEntries_append, houtnil, srcEntries_cons, if_pos rfl, htnil,
          getD_set_self _ _ _ _ hwiR, getD_set_self _ _ _ _ hwi]
        simp
      · rw [hseqApp, srcEntries_append, srcEntries_cons, if_neg (fun hh => hiw hh.symm),
          ← srcEntries_append, hsrcne i hiw,
          getD_set_ne _ _ _ (fun hh => hiw hh.symm), getD_set_ne _ _ _ (fun hh => hiw hh.symm)]
        exact hinv.hsrc i hi
    · intro i
      rw [hseqApp]
      exact hone' i
    · intro i hi hnil
      simp only [List.length_set] at hi
      rw [hseqApp] at hnil
      by_cases hiw : i = dup.sourceIndex
      · subst hiw
        rw [srcEntries_append, houtnil, srcEntries_cons, if_pos rfl] at hnil
        simp at hnil
      · rw [srcEntries_append, srcEntries_cons, if_neg (fun hh => hiw hh.symm),
          ← srcEntries_append, hsrcne i hiw] at hnil
        rw [getD_set_ne _ _ _ (fun hh => hiw hh.symm)]
        exact hinv.hlag i hi hnil
    · exact heapInsert_heapInv compareHeapEntries dHE che_swap che_le_trans hhi _
    · intro x hx
      rcases List.mem_cons.mp (hperm.mem_iff.mp hx) with hx1 | hx2
      · exact Or.inr ⟨e, rest, rfl, hx1⟩
      · exact Or.inl hx2

theorem popHeadsExcept_length (rs : List (List MergeEntry)) (k : Str) (wi : Nat) :
    (popHeadsExcept rs k wi).length = rs.length := by
  simp [popHeadsExcept]

theorem popHeadsExcept_getD (rs : List (List MergeEntry)) (k : Str) (wi i : Nat)
    (hi : i < rs.length) :
    (popHeadsExcept rs k wi).getD i []
      = if i = wi then rs.getD i [] else popOne (rs.getD i []) k := by
  rw [popHeadsExcept, getD_range_map, if_pos hi]

theorem popOne_eq_of_gt {s : List MergeEntry} {k : Str}
    (h : ∀ e t0, s = e :: t0 → localeCompare k e.key < 0) : popOne s k = s := by
  cases s with
  | nil => rfl
  | cons e t0 =>
    show (if e.key = k then t0 else e :: t0) = e :: t0
    rw [if_neg]
    intro hek
    have := h e t0 rfl
    rw [← hek, localeCompare_self] at this
    omega

/-- A stream with a non-empty front has its front entry in the heap. -/
theorem srcEntries_singleton_of_front {heap : List HeapEntry}
    {rem rs : List (List MergeEntry)} {i : Nat} (hinv : MergeInv heap rem rs)
    (hi : i < rs.length) {e0 : MergeEntry} {t0 : List MergeEntry}
    (hfront : rs.getD i [] = e0 :: t0) :
    ∃ x ∈ heap, x.sourceIndex = i ∧ x.toMergeEntry = e0 := by
  cases hse : srcEntries heap i with
  | nil =>
    have hrnil := hinv.hlag i hi hse
    have h2 := hinv.hsrc i hi
    rw [hse, hrnil, hfront] at h2
    simp at h2
  | cons x xs =>
    have hone := hinv.hone i
    rw [hse] at hone
    simp only [List.length_cons] at hone
    have hxs : xs = [] := List.length_eq_zero.mp (by omega)
    subst hxs
    have h2 := hinv.hsrc i hi
    rw [hse, hfront] at h2
    simp only [List.map_cons, List.map_nil, List.cons_append, List.nil_append,
      List.cons.injEq] at h2
    have hxmem : x ∈ srcEntries heap i := by
      rw [hse]
      exact List.mem_cons_self x []
    obtain ⟨hxh, hxi⟩ := mem_srcEntries.mp hxmem
    exact ⟨x, hxh, hxi, h2.1⟩

/-- If no heap entry carries the current key, no other stream fronts
it, so the per-key pop leaves the streams unchanged. -/
theorem heap_front_ne_popExcept {hp : List HeapEntry} {rem rs : List (List MergeEntry)}
    {m : HeapEntry} (hinv : MergeInv (m :: hp) rem rs)
    (hnok : ∀ x ∈ hp, x.key ≠ m.key) :
    popHeadsExcept rs m.key m.sourceIndex = rs := by
  apply list_ext_getD ([] : List MergeEntry)
  · exact popHeadsExcept_length rs m.key m.sourceIndex
  · intro i hi
    rw [popHeadsExcept_length] at hi
    rw [popHeadsExcept_getD rs m.key m.sourceIndex i hi]
    by_cases hiw : i = m.sourceIndex
    · rw [if_pos hiw]
    · rw [if_neg hiw]
      cases hfront : rs.getD i [] with
      | nil => rfl
      | cons e0 t0 =>
        obtain ⟨x, hxmem, hxi, hxe⟩ := srcEntries_singleton_of_front hinv hi hfront
        rcases List.mem_cons.mp hxmem with rfl | hxhp
        · exact absurd hxi.symm hiw
        · show (if e0.key = m.key then t0 else e0 :: t0) = e0 :: t0
          rw [if_neg]
          rw [← hxe]
          exact hnok x hxhp

/-- The inner drain loop removes from the heap exactly the current-key
entries (advancing their sources) and leaves every stream except the
winner's popped past the current key; the invariant holds with the
winner still held out, and the heap stays a heap. -/
theorem drain_spec :
    ∀ (n : Nat) (hp : List HeapEntry) (rem rs : List (List MergeEntry)) (m : HeapEntry),
      msize ⟨hp, rem⟩ = n →
      MergeInv (m :: hp) rem rs →
      HeapInv compareHeapEntries dHE hp →
      (∀ x ∈ hp, 0 ≤ compareHeapEntries x m) →
      SortedSrcs rs →
      MergeInv (m :: (drain hp rem m.key).heap) (drain hp rem m.key).remaining
          (popHeadsExcept rs m.key m.sourceIndex) ∧
        HeapInv compareHeapEntries dHE (drain hp rem m.key).heap := by
  intro n
  induction n using Nat.strong_induction_on with
  | _ n ih =>
    intro hp rem rs m hn hinv hhi hmin hsorted
    cases hp with
    | nil =>
      simp only [drain]
      rw [heap_front_ne_popExcept hinv (by intro x hx; simp at hx)]
      refine ⟨hinv, ?_⟩
      intro i h1 h2
      simp at h2
    | cons top rest =>
      by_cases hk : top.key = m.key
      case neg =>
        rw [drain, if_neg hk]
        have hnok : ∀ x ∈ top :: rest, x.key ≠ m.key := by
          intro x hx hxkey
          have hxtop : 0 ≤ compareHeapEntries x top := by
            have := heap_min_all compareHeapEntries dHE che_swap che_le_trans hhi x hx
            simpa using this
          have htopm := hmin top (List.mem_cons_self _ _)
          have h1 : 0 ≤ localeCompare top.key m.key := che_nonneg_key htopm
          have h2 : 0 ≤ localeCompare x.key top.key := che_nonneg_key hxtop
          rw [hxkey] at h2
          have hswp := localeCompare_swap top.key m.key
          have h0 : localeCompare top.key m.key = 0 := by omega
          exact hk ((localeCompare_eq_zero_iff _ _).mp h0)
        rw [heap_front_ne_popExcept hinv hnok]
        exact ⟨hinv, hhi⟩
      case pos =>
        rw [drain, if_pos hk]
        dsimp only
        have hxm := extractMin_eq_root_tail compareHeapEntries dHE (top :: rest) (by simp)
        obtain ⟨hroot, hperm, hhit, hminall⟩ :=
          extractMin_some_spec compareHeapEntries dHE che_swap che_le_trans hhi hxm
        simp only [List.getD_cons_zero] at hperm hminall
        have hjw : top.sourceIndex ≠ m.sourceIndex := by
          have hone := hinv.hone m.sourceIndex
          rw [srcEntries_cons, if_pos rfl] at hone
          simp only [List.length_cons] at hone
          have hnil : srcEntries (top :: rest) m.sourceIndex = [] :=
            List.length_eq_zero.mp (by omega)
          intro he
          have hmem : top ∈ srcEntries (top :: rest) m.sourceIndex :=
            mem_srcEntries.mpr ⟨List.mem_cons_self _ _, he⟩
          rw [hnil] at hmem
          simp at hmem
        have hout' : ∀ x ∈ ([m] : List HeapEntry), x.sourceIndex ≠ top.sourceIndex := by
          intro x hx
          rcases List.mem_singleton.mp hx with rfl
          exact fun hh => hjw hh.symm
        have hinv2 : MergeInv ([m] ++ top :: extractMinTail compareHeapEntries dHE (top :: rest))
            rem rs := by
          apply MergeInv_perm hinv
          exact List.Perm.cons m hperm
        obtain ⟨hwiT, htnilT, hsplitT⟩ := held_src_facts hinv2 hout'
        obtain ⟨hinv3, hhi3, hmem3⟩ := advance_spec hinv2 hout' hhit
        have hsz : msize (advanceSource
            ⟨extractMinTail compareHeapEntries dHE (top :: rest), rem⟩ top.sourceIndex) < n := by
          rw [advanceSource_msize]
          have hlen := extractMinTail_length (top :: rest) (by simp)
          rw [← hn]
          unfold msize
          simp only [List.length_cons] at hlen ⊢
          omega
        have hremfront : ∀ e r2, rem.getD top.sourceIndex [] = e :: r2 →
            localeCompare m.key e.key < 0 := by
          intro e r2 hrj
          have hsj : rs.getD top.sourceIndex [] ∈ rs := getD_mem_of_lt _ _ _ hwiT
          have hsorted_j := hsorted _ hsj
          rw [hsplitT, hrj] at hsorted_j
          have hlt : localeCompare top.toMergeEntry.key e.key < 0 :=
            (List.pairwise_cons.mp hsorted_j).1 e (by simp)
          have hkk : top.toMergeEntry.key = m.key := hk
          rw [hkk] at hlt
          exact hlt
        have hmin1 : ∀ x ∈ (advanceSource
            ⟨extractMinTail compareHeapEntries dHE (top :: rest), rem⟩ top.sourceIndex).heap,
            0 ≤ compareHeapEntries x m := by
          intro x hx
          rcases hmem3 x hx with hxt | ⟨e, r2, hrj, rfl⟩
          · exact hmin x (hperm.subset (List.mem_cons_of_mem top hxt))
          · have hlt := hremfront e r2 hrj
            show 0 ≤ compareHeapEntries ⟨e, top.sourceIndex⟩ m
            unfold compareHeapEntries
            dsimp only
            have hsw := localeCompare_swap m.key e.key
            rw [if_pos (by omega : localeCompare e.key m.key ≠ 0)]
            omega
        have hsorted1 : SortedSrcs
            (rs.set top.sourceIndex (rem.getD top.sourceIndex [])) := by
          intro s hs
          rcases List.mem_or_eq_of_mem_set hs with hs1 | rfl
          · exact hsorted s hs1
          · have hsj : rs.getD top.sourceIndex [] ∈ rs := getD_mem_of_lt _ _ _ hwiT
            have := hsorted _ hsj
            rw [hsplitT] at this
            exact this.of_cons
        obtain ⟨ihInv, ihHi⟩ := ih _ hsz
          (advanceSource
            ⟨extractMinTail compareHeapEntries dHE (top :: rest), rem⟩ top.sourceIndex).heap
          (advanceSource
            ⟨extractMinTail compareHeapEntries dHE (top :: rest), rem⟩ top.sourceIndex).remaining
          (rs.set top.sourceIndex (rem.getD top.sourceIndex [])) m rfl hinv3 hhi3 hmin1 hsorted1
        have hpeq : popHeadsExcept (rs.set top.sourceIndex (rem.getD top.sourceIndex []))
            m.key m.sourceIndex = popHeadsExcept rs m.key m.sourceIndex := by
          apply list_ext_getD ([] : List MergeEntry)
          · rw [popHeadsExcept_length, popHeadsExcept_length, List.length_set]
          · intro i hi
            rw [popHeadsExcept_length, List.length_set] at hi
            rw [popHeadsExcept_getD _ _ _ i (by simpa using hi),
              popHeadsExcept_getD _ _ _ i hi]
            by_cases hiw : i = m.sourceIndex
            · rw [if_pos hiw, if_pos hiw]
              rw [getD_set_ne _ _ _ (fun hh => hjw (by omega))]
            · rw [if_neg hiw, if_neg hiw]
              by_cases hij : i = top.sourceIndex
              · subst hij
                rw [getD_set_self ([] : List MergeEntry) rs top.sourceIndex
                  (rem.getD top.sourceIndex []) hwiT, hsplitT]
                show popOne (rem.getD top.sourceIndex []) m.key
                  = if top.toMergeEntry.key = m.key then rem.getD top.sourceIndex []
                    else top.toMergeEntry :: rem.getD top.sourceIndex []
                rw [if_pos (hk : top.toMergeEntry.key = m.key)]
                apply popOne_eq_of_gt
                intro e t0 hrj
                exact hremfront e t0 hrj
              · rw [getD_set_ne _ _ _ (fun hh => hij hh.symm)]
        rw [← hpeq]
        exact ⟨ihInv, ihHi⟩

theorem popHeads_getD (rs : List (List MergeEntry)) (k : Str) (i : Nat)
    (hi : i < rs.length) :
    (popHeads rs k).getD i [] = popOne (rs.getD i []) k := by
  have h1 : rs[i]? = some rs[i] := List.getElem?_eq_getElem hi
  rw [popHeads, List.getD_eq_getElem?_getD, List.getElem?_map, h1,
    List.getD_eq_getElem rs [] hi]
  rfl

theorem specMerge_none {tomb : Bool} {rs : List (List MergeEntry)}
    (h : lcMinKey (frontKeys rs) = none) : specMerge tomb rs = [] := by
  rw [specMerge]
  split
  · rfl
  · rename_i k heq
    rw [h] at heq
    simp at heq

theorem specMerge_some {tomb : Bool} {rs : List (List MergeEntry)} {k : Str} {w : MergeEntry}
    (hk : lcMinKey (frontKeys rs) = some k) (hw : specWinner rs k = some w) :
    specMerge tomb rs
      = if w.deleted && !tomb then specMerge tomb (popHeads rs k)
        else ⟨k, w.value⟩ :: specMerge tomb (popHeads rs k) := by
  rw [specMerge]
  split
  · rename_i heq
    rw [hk] at heq
    simp at heq
  · rename_i k' heq
    rw [hk] at heq
    injection heq with heq
    subst heq
    split
    · rename_i heq2
      rw [hw] at heq2
      simp at heq2
    · rename_i w' heq2
      rw [hw] at heq2
      injection heq2 with heq2
      subst heq2
      rfl

/-- The stream fronts are exactly the keys of the heap entries. -/
theorem frontKeys_iff_heap {heap : List HeapEntry} {rem rs : List (List MergeEntry)}
    (hinv : MergeInv heap rem rs) :
    ∀ kk, kk ∈ frontKeys rs ↔ ∃ e ∈ heap, e.key = kk := by
  intro kk
  rw [mem_frontKeys]
  constructor
  · rintro ⟨s, hs, e0, t0, rfl, rfl⟩
    obtain ⟨i, hi, hgd⟩ := (mem_iff_getD ([] : List MergeEntry)).mp hs
    obtain ⟨x, hxh, hxi, hxe⟩ := srcEntries_singleton_of_front hinv hi hgd
    refine ⟨x, hxh, ?_⟩
    show x.toMergeEntry.key = e0.key
    rw [hxe]
  · rintro ⟨e, he, rfl⟩
    have hi := hinv.hidx e he
    have hmem' : e ∈ srcEntries heap e.sourceIndex := mem_srcEntries.mpr ⟨he, rfl⟩
    have hone := hinv.hone e.sourceIndex
    have hse : srcEntries heap e.sourceIndex = [e] := by
      cases hse' : srcEntries heap e.sourceIndex with
      | nil =>
        rw [hse'] at hmem'
        simp at hmem'
      | cons y ys =>
        rw [hse'] at hone hmem'
        simp only [List.length_cons] at hone
        have hys : ys = [] := List.length_eq_zero.mp (by omega)
        subst hys
        rcases List.mem_singleton.mp hmem' with rfl
        rfl
    have hsrc := hinv.hsrc e.sourceIndex hi
    rw [hse] at hsrc
    refine ⟨rs.getD e.sourceIndex [], getD_mem_of_lt _ _ _ hi, e.toMergeEntry,
      rem.getD e.sourceIndex [], ?_, rfl⟩
    rw [← hsrc]
    simp

/-- The heap minimum's key is the least front key. -/
theorem minkey_of_heap {heap : List HeapEntry} {rem rs : List (List MergeEntry)}
    {m : HeapEntry} (hinv : MergeInv heap rem rs) (hmem : m ∈ heap)
    (hminall : ∀ x ∈ heap, 0 ≤ compareHeapEntries x m) :
    lcMinKey (frontKeys rs) = some m.key := by
  have hiff := frontKeys_iff_heap hinv
  cases hmk : lcMinKey (frontKeys rs) with
  | none =>
    have hnil : frontKeys rs = [] := (lcMinKey_eq_none_iff _).mp hmk
    have : m.key ∈ frontKeys rs := (hiff m.key).mpr ⟨m, hmem, rfl⟩
    rw [hnil] at this
    simp at this
  | some m0 =>
    obtain ⟨hm0mem, hm0min⟩ := lcMinKey_spec _ _ hmk
    obtain ⟨e0, he0, rfl⟩ := (hiff m0).mp hm0mem
    have h1 : 0 ≤ localeCompare e0.key m.key := che_nonneg_key (hminall e0 he0)
    have h2 : localeCompare e0.key m.key ≤ 0 :=
      hm0min m.key ((hiff m.key).mpr ⟨m, hmem, rfl⟩)
    exact congrArg some ((localeCompare_eq_zero_iff _ _).mp (by omega))

/-- The heap minimum is the front entry of the first stream fronting
its key. -/
theorem specWinner_of_heap {heap : List HeapEntry} {rem rs : List (List MergeEntry)}
    {m : HeapEntry} (hinv : MergeInv heap rem rs) (hmem : m ∈ heap)
    (hminall : ∀ x ∈ heap, 0 ≤ compareHeapEntries x m) :
    specWinner rs m.key = some m.toMergeEntry := by
  have hwi := hinv.hidx m hmem
  have hmem' : m ∈ srcEntries heap m.sourceIndex := mem_srcEntries.mpr ⟨hmem, rfl⟩
  have hone := hinv.hone m.sourceIndex
  have hse : srcEntries heap m.sourceIndex = [m] := by
    cases hse' : srcEntries heap m.sourceIndex with
    | nil =>
      rw [hse'] at hmem'
      simp at hmem'
    | cons y ys =>
      rw [hse'] at hone hmem'
      simp only [List.length_cons] at hone
      have hys : ys = [] := List.length_eq_zero.mp (by omega)
      subst hys
      rcases List.mem_singleton.mp hmem' with rfl
      rfl
  have hsrc := hinv.hsrc m.sourceIndex hwi
  rw [hse] at hsrc
  apply specWinner_eq rs m.key m.sourceIndex m.toMergeEntry hwi
  · refine ⟨rem.getD m.sourceIndex [], ?_⟩
    rw [← hsrc]
    simp
  · rfl
  · intro j hj
    cases hcase : rs.getD j [] with
    | nil => simp
    | cons e0 t0 =>
      obtain ⟨x, hxh, hxi, hxe⟩ :=
        srcEntries_singleton_of_front hinv (lt_trans hj hwi) hcase
      simp only [List.head?_cons, Option.some_bind]
      rw [if_neg]
      intro hek
      have hxkey : x.key = m.key := by
        show x.toMergeEntry.key = m.key
        rw [hxe]
        exact hek
      have := che_nonneg_idx (hminall x hxh) hxkey
      omega

/-- Simulation: the heap-driven merge loop computes the reference
merge of the streams it still has to deliver. -/
theorem mergeLoop_eq_specMerge :
    ∀ (n : Nat) (heap : List HeapEntry) (rem rs : List (List MergeEntry)) (tomb : Bool),
      msize ⟨heap, rem⟩ = n →
      MergeInv heap rem rs →
      HeapInv compareHeapEntries dHE heap →
      SortedSrcs rs →
      mergeLoop tomb heap rem = specMerge tomb rs := by
  intro n
  induction n using Nat.strong_induction_on with
  | _ n ih =>
    intro heap rem rs tomb hn hinv hhi hsorted
    cases heap with
    | nil =>
      simp only [mergeLoop]
      have hfk : frontKeys rs = [] := by
        cases hfk' : frontKeys rs with
        | nil => rfl
        | cons kk ks =>
          have hkk : kk ∈ frontKeys rs := by
            rw [hfk']
            simp
          obtain ⟨e, he, _⟩ := (frontKeys_iff_heap hinv kk).mp hkk
          simp at he
      rw [specMerge_none (by rw [hfk]; rfl)]
    | cons top rest =>
      rw [mergeLoop]
      set t' := extractMinTail compareHeapEntries dHE (top :: rest) with ht'
      have hxm := extractMin_eq_root_tail compareHeapEntries dHE (top :: rest) (by simp)
      obtain ⟨hroot, hperm, hhit, hminall⟩ :=
        extractMin_some_spec compareHeapEntries dHE che_swap che_le_trans hhi hxm
      simp only [List.getD_cons_zero] at hperm hminall
      have htopmem : top ∈ top :: rest := List.mem_cons_self _ _
      have ha : lcMinKey (frontKeys rs) = some top.key := minkey_of_heap hinv htopmem hminall
      have hb : specWinner rs top.key = some top.toMergeEntry :=
        specWinner_of_heap hinv htopmem hminall
      have hinvT : MergeInv (top :: t') rem rs := MergeInv_perm hinv hperm
      have hinvT' : MergeInv ([] ++ top :: t') rem rs := hinvT
      have houtE : ∀ x ∈ ([] : List HeapEntry), x.sourceIndex ≠ top.sourceIndex := by
        intro x hx
        simp at hx
      have hminT : ∀ x ∈ t', 0 ≤ compareHeapEntries x top :=
        fun x hx => hminall x (hperm.subset (List.mem_cons_of_mem top hx))
      obtain ⟨hinvD, hhiD⟩ :=
        drain_spec (msize ⟨t', rem⟩) t' rem rs top rfl hinvT hhit hminT hsorted
      have hinvD' : MergeInv ([] ++ top :: (drain t' rem top.key).heap)
          (drain t' rem top.key).remaining
          (popHeadsExcept rs top.key top.sourceIndex) := hinvD
      obtain ⟨hinvA, hhiA, hmemA⟩ := advance_spec hinvD' houtE hhiD
      obtain ⟨hwiE, htnilE, hsplitE⟩ := held_src_facts hinvD' houtE
      obtain ⟨hwiO, htnilO, hsplitO⟩ := held_src_facts hinvT' houtE
      have hEwi : (popHeadsExcept rs top.key top.sourceIndex).getD top.sourceIndex []
          = rs.getD top.sourceIndex [] := by
        rw [popHeadsExcept_getD rs top.key top.sourceIndex top.sourceIndex hwiO, if_pos rfl]
      have hrem2 : (drain t' rem top.key).remaining.getD top.sourceIndex []
          = rem.getD top.sourceIndex [] := by
        have h1 := hsplitE
        rw [hEwi, hsplitO] at h1
        injection h1 with h1a h1b
        exact h1b.symm
      have hfin : (popHeadsExcept rs top.key top.sourceIndex).set top.sourceIndex
          ((drain t' rem top.key).remaining.getD top.sourceIndex [])
          = popHeads rs top.key := by
        apply list_ext_getD ([] : List MergeEntry)
        · rw [List.length_set, popHeadsExcept_length, popHeads, List.length_map]
        · intro i hi
          simp only [List.length_set, popHeadsExcept_length] at hi
          rw [popHeads_getD rs top.key i hi]
          by_cases hiw : i = top.sourceIndex
          · subst hiw
            rw [getD_set_self _ _ _ _ (by rw [popHeadsExcept_length]; exact hi), hrem2,
              hsplitO]
            show rem.getD top.sourceIndex []
              = if top.toMergeEntry.key = top.key then rem.getD top.sourceIndex []
                else top.toMergeEntry :: rem.getD top.sourceIndex []
            rw [if_pos rfl]
          · rw [getD_set_ne _ _ _ (fun hh => hiw hh.symm),
              popHeadsExcept_getD rs top.key top.sourceIndex i hi, if_neg hiw]
      have hsz : msize (advanceSource (drain t' rem top.key) top.sourceIndex) < n := by
        rw [advanceSource_msize]
        have hdle := drain_msize_le t' rem top.key
        have hlen := extractMinTail_length (top :: rest) (by simp)
        rw [← hn]
        unfold msize at hdle ⊢
        dsimp only at hdle ⊢
        rw [← ht'] at hlen
        simp only [List.length_cons] at hlen ⊢
        omega
      have hsortF : SortedSrcs (popHeads rs top.key) := sortedSrcs_popHeads hsorted
      have hrec := ih _ hsz (advanceSource (drain t' rem top.key) top.sourceIndex).heap
        (advanceSource (drain t' rem top.key) top.sourceIndex).remaining
        (popHeads rs top.key) tomb rfl (hfin ▸ hinvA) hhiA hsortF
      rw [specMerge_some ha hb]
      by_cases hdel : (top.deleted && !tomb) = true
      · rw [if_pos hdel, if_pos hdel]
        exact hrec
      · rw [if_neg hdel, if_neg hdel, hrec]

/-- The merge state after the first `j` sources have been pulled into
the heap once. -/
def initStep (srcs : List (List MergeEntry)) (j : Nat) : MergeState :=
  (List.range j).foldl advanceSource ⟨[], srcs⟩

theorem initStep_succ (srcs : List (List MergeEntry)) (j : Nat) :
    initStep srcs (j + 1) = advanceSource (initStep srcs j) j := by
  unfold initStep
  rw [List.range_succ, List.foldl_append]
  rfl

theorem initStep_spec (srcs : List (List MergeEntry)) :
    ∀ j, j ≤ srcs.length →
      (initStep srcs j).remaining.length = srcs.length ∧
      (∀ e ∈ (initStep srcs j).heap, e.sourceIndex < j) ∧
      (∀ i, (srcEntries (initStep srcs j).heap i).length ≤ 1) ∧
      (∀ i, i < j →
        (srcEntries (initStep srcs j).heap i).map HeapEntry.toMergeEntry
            ++ (initStep srcs j).remaining.getD i [] = srcs.getD i [] ∧
          (srcEntries (initStep srcs j).heap i = [] →
            (initStep srcs j).remaining.getD i [] = [])) ∧
      (∀ i, j ≤ i → srcEntries (initStep srcs j).heap i = [] ∧
        (initStep srcs j).remaining.getD i [] = srcs.getD i []) ∧
      HeapInv compareHeapEntries dHE (initStep srcs j).heap := by
  intro j
  induction j with
  | zero =>
    intro hj
    refine ⟨rfl, ?_, ?_, ?_, ?_, ?_⟩
    · intro e he
      simp [initStep] at he
    · intro i
      simp [initStep, srcEntries]
    · intro i hi
      omega
    · intro i hi
      exact ⟨rfl, rfl⟩
    · intro i h1 h2
      simp [initStep] at h2
  | succ j ihj =>
    intro hj
    obtain ⟨ih1, ih2, ih3, ih4, ih5, ih6⟩ := ihj (by omega)
    obtain ⟨hjnil, hjrem⟩ := ih5 j (le_refl j)
    rw [initStep_succ]
    unfold advanceSource
    rw [if_pos (by rw [ih1]; omega)]
    cases hrem : (initStep srcs j).remaining.getD j [] with
    | nil =>
      dsimp only
      refine ⟨ih1, ?_, ih3, ?_, ?_, ih6⟩
      · intro e he
        have := ih2 e he
        omega
      · intro i hi
        by_cases hij : i = j
        · subst hij
          rw [hjnil]
          rw [hrem] at hjrem
          refine ⟨?_, fun _ => hrem⟩
          rw [hrem, ← hjrem]
          simp
        · exact ih4 i (by omega)
      · intro i hi
        exact ih5 i (by omega)
    | cons e rest =>
      dsimp only
      have hperm : (heapInsert compareHeapEntries dHE (initStep srcs j).heap ⟨e, j⟩).Perm
          ((⟨e, j⟩ : HeapEntry) :: (initStep srcs j).heap) :=
        heapInsert_perm compareHeapEntries dHE _ _
      have hone' : ∀ i, (srcEntries ((⟨e, j⟩ : HeapEntry) :: (initStep srcs j).heap) i).length
          ≤ 1 := by
        intro i
        by_cases hij : i = j
        · subst hij
          rw [srcEntries_cons, if_pos rfl, hjnil]
          simp
        · rw [srcEntries_cons, if_neg (fun hh => hij hh.symm)]
          exact ih3 i
      have hseq : ∀ i,
          srcEntries (heapInsert compareHeapEntries dHE (initStep srcs j).heap ⟨e, j⟩) i
            = srcEntries ((⟨e, j⟩ : HeapEntry) :: (initStep srcs j).heap) i :=
        fun i => srcEntries_eq_of_perm hperm i (hone' i)
      refine ⟨?_, ?_, ?_, ?_, ?_, ?_⟩
      · rw [List.length_set]
        exact ih1
      · intro x hx
        rcases List.mem_cons.mp (hperm.mem_iff.mp hx) with hx1 | hx2
        · rw [hx1]
          show j < j + 1
          omega
        · have := ih2 x hx2
          omega
      · intro i
        rw [hseq]
        exact hone' i
      · intro i hi
        by_cases hij : i = j
        · subst hij
          rw [hseq, srcEntries_cons, if_pos rfl, hjnil,
            getD_set_self _ _ _ _ (by rw [ih1]; omega), ← hjrem, hrem]
          constructor
          · simp
          · intro hcontra
            simp at hcontra
        · rw [hseq, srcEntries_cons, if_neg (fun hh => hij hh.symm),
            getD_set_ne _ _ _ (fun hh => hij hh.symm)]
          exact ih4 i (by omega)
      · intro i hi
        rw [hseq, srcEntries_cons,
          if_neg (show ¬ (⟨e, j⟩ : HeapEntry).sourceIndex = i by show ¬ j = i; omega),
          getD_set_ne _ _ _ (by omega)]
        exact ih5 i (by omega)
      · exact heapInsert_heapInv compareHeapEntries dHE che_swap che_le_trans ih6 _

theorem initializeHeap_spec (srcs : List (List MergeEntry)) :
    MergeInv (initializeHeap srcs).heap (initializeHeap srcs).remaining srcs ∧
      HeapInv compareHeapEntries dHE (initializeHeap srcs).heap := by
  have heq : initializeHeap srcs = initStep srcs srcs.length := rfl
  obtain ⟨h1, h2, h3, h4, h5, h6⟩ := initStep_spec srcs srcs.length (le_refl _)
  rw [heq]
  refine ⟨⟨h1, ?_, ?_, h3, ?_⟩, h6⟩
  · intro e he
    exact h2 e he
  · intro i hi
    exact (h4 i hi).1
  · intro i hi hnil
    exact (h4 i hi).2 hnil

/-- `iterate` computes the reference merge of its sources. -/
theorem iterate_eq_specMerge (srcs : List (List MergeEntry)) (tomb : Bool)
    (hsorted : SortedSrcs srcs) : iterate srcs tomb = specMerge tomb srcs := by
  obtain ⟨hinv, hhi⟩ := initializeHeap_spec srcs
  exact mergeLoop_eq_specMerge (msize (initializeHeap srcs))
    (initializeHeap srcs).heap (initializeHeap srcs).remaining srcs tomb rfl hinv hhi hsorted

theorem specWinner_isSome_of_mem {rs : List (List MergeEntry)} {k : Str}
    (h : k ∈ frontKeys rs) : ∃ w, specWinner rs k = some w := by
  obtain ⟨s, hs, e, t0, rfl, hek⟩ := mem_frontKeys.mp h
  have hmem : e ∈ rs.filterMap
      (fun s => s.head?.bind (fun e => if e.key = k then some e else none)) :=
    List.mem_filterMap.mpr ⟨e :: t0, hs, by simp [hek]⟩
  unfold specWinner
  cases hfm : rs.filterMap
      (fun s => s.head?.bind (fun e => if e.key = k then some e else none)) with
  | nil =>
    rw [hfm] at hmem
    simp at hmem
  | cons w ws => exact ⟨w, rfl⟩

theorem specWinner_mem {rs : List (List MergeEntry)} {k : Str} {w : MergeEntry}
    (h : specWinner rs k = some w) :
    w.key = k ∧ ∃ s ∈ rs, ∃ t0, s = w :: t0 := by
  unfold specWinner at h
  have hmem : w ∈ rs.filterMap
      (fun s => s.head?.bind (fun e => if e.key = k then some e else none)) := by
    cases hfm : rs.filterMap
        (fun s => s.head?.bind (fun e => if e.key = k then some e else none)) with
    | nil =>
      rw [hfm] at h
      simp at h
    | cons w0 ws =>
      rw [hfm] at h
      simp only [List.head?_cons, Option.some.injEq] at h
      exact h ▸ List.mem_cons_self w0 ws
  obtain ⟨s, hs, hf⟩ := List.mem_filterMap.mp hmem
  cases s with
  | nil => simp at hf
  | cons e t0 =>
    simp only [List.head?_cons, Option.some_bind] at hf
    split_ifs at hf with hek
    · simp only [Option.some.injEq] at hf
      subst hf
      exact ⟨hek, e :: t0, hs, t0, rfl⟩

theorem specMerge_keys_from (tomb : Bool) :
    ∀ (n : Nat) (rs : List (List MergeEntry)), (rs.map List.length).sum = n →
      ∀ p ∈ specMerge tomb rs, ∃ s ∈ rs, ∃ e ∈ s, e.key = p.key := by
  intro n
  induction n using Nat.strong_induction_on with
  | _ n ih =>
    intro rs hn p hp
    cases hmk : lcMinKey (frontKeys rs) with
    | none =>
      rw [specMerge_none hmk] at hp
      simp at hp
    | some k =>
      obtain ⟨hkmem, hkmin⟩ := lcMinKey_spec _ _ hmk
      obtain ⟨w, hw⟩ := specWinner_isSome_of_mem hkmem
      rw [specMerge_some hmk hw] at hp
      have hsub : p ∈ specMerge tomb (popHeads rs k) →
          ∃ s ∈ rs, ∃ e ∈ s, e.key = p.key := by
        intro hp2
        have hlt := sum_popHeads_lt rs k (mem_frontKeys.mp hkmem)
        obtain ⟨s', hs', e, he, hek⟩ :=
          ih _ (by omega) (popHeads rs k) rfl p hp2
        obtain ⟨s, hs, rfl⟩ := List.mem_map.mp hs'
        exact ⟨s, hs, e, popOne_sub s k e he, hek⟩
      split_ifs at hp with hdel
      · exact hsub hp
      · rcases List.mem_cons.mp hp with rfl | hp2
        · obtain ⟨hwk, s, hs, t0, rfl⟩ := specWinner_mem hw
          exact ⟨w :: t0, hs, w, by simp, hwk⟩
        · exact hsub hp2

theorem popHeads_entries_gt {rs : List (List MergeEntry)} {k : Str}
    (hsorted : SortedSrcs rs)
    (hmin : ∀ kk ∈ frontKeys rs, localeCompare k kk ≤ 0) :
    ∀ s' ∈ popHeads rs k, ∀ e ∈ s', localeCompare k e.key < 0 := by
  intro s' hs' e he
  obtain ⟨s, hs, rfl⟩ := List.mem_map.mp hs'
  cases s with
  | nil => simp [popOne] at he
  | cons e0 t0 =>
    have hfront : localeCompare k e0.key ≤ 0 :=
      hmin e0.key (mem_frontKeys.mpr ⟨e0 :: t0, hs, e0, t0, rfl, rfl⟩)
    have hsorted0 := hsorted (e0 :: t0) hs
    have hall := (List.pairwise_cons.mp hsorted0).1
    revert he
    show e ∈ (if e0.key = k then t0 else e0 :: t0) → _
    split_ifs with hek
    · intro he
      have := hall e he
      rw [hek] at this
      exact this
    · intro he
      rcases List.mem_cons.mp he with rfl | het
      · rcases lt_or_eq_of_le hfront with hlt | heq
        · exact hlt
        · exact absurd ((localeCompare_eq_zero_iff _ _).mp heq).symm hek
      · exact localeCompare_lt_of_le_of_lt hfront (hall e het)

theorem specMerge_pairwise (tomb : Bool) :
    ∀ (n : Nat) (rs : List (List MergeEntry)), (rs.map List.length).sum = n →
      SortedSrcs rs →
      (specMerge tomb rs).Pairwise (fun p q => localeCompare p.key q.key < 0) := by
  intro n
  induction n using Nat.strong_induction_on with
  | _ n ih =>
    intro rs hn hsorted
    cases hmk : lcMinKey (frontKeys rs) with
    | none =>
      rw [specMerge_none hmk]
      exact List.Pairwise.nil
    | some k =>
      obtain ⟨hkmem, hkmin⟩ := lcMinKey_spec _ _ hmk
      obtain ⟨w, hw⟩ := specWinner_isSome_of_mem hkmem
      rw [specMerge_some hmk hw]
      have hlt := sum_popHeads_lt rs k (mem_frontKeys.mp hkmem)
      have hrest := ih _ (by omega) (popHeads rs k) rfl (sortedSrcs_popHeads hsorted)
      split_ifs with hdel
      · exact hrest
      · refine List.Pairwise.cons ?_ hrest
        intro q hq
        obtain ⟨s', hs', e, he, hek⟩ :=
          specMerge_keys_from tomb _ (popHeads rs k) rfl q hq
        have := popHeads_entries_gt hsorted hkmin s' hs' e he
        rw [hek] at this
        exact this

theorem specMerge_find (tomb : Bool) :
    ∀ (n : Nat) (rs : List (List MergeEntry)), (rs.map List.length).sum = n →
      SortedSrcs rs → ∀ q : Str,
      (specMerge tomb rs).find? (fun p => p.key == q)
        = (firstContaining rs q).bind
            (fun e => if e.deleted && !tomb then none else some ⟨q, e.value⟩) := by
  intro n
  induction n using Nat.strong_induction_on with
  | _ n ih =>
    intro rs hn hsorted q
    cases hmk : lcMinKey (frontKeys rs) with
    | none =>
      rw [specMerge_none hmk]
      have hfk : frontKeys rs = [] := (lcMinKey_eq_none_iff _).mp hmk
      have hempty : ∀ s ∈ rs, s = [] := by
        intro s hs
        cases s with
        | nil => rfl
        | cons e t0 =>
          have : e.key ∈ frontKeys rs := mem_frontKeys.mpr ⟨e :: t0, hs, e, t0, rfl, rfl⟩
          rw [hfk] at this
          simp at this
      have hfc : firstContaining rs q = none := by
        unfold firstContaining
        have : rs.filterMap (fun s => s.find? (fun e => e.key == q)) = [] := by
          rw [List.filterMap_eq_nil_iff]
          intro s hs
          rw [hempty s hs]
          rfl
        rw [this]
        rfl
      rw [hfc]
      rfl
    | some k =>
      obtain ⟨hkmem, hkmin⟩ := lcMinKey_spec _ _ hmk
      obtain ⟨w, hw⟩ := specWinner_isSome_of_mem hkmem
      rw [specMerge_some hmk hw]
      have hlt := sum_popHeads_lt rs k (mem_frontKeys.mp hkmem)
      have hsortP := @sortedSrcs_popHeads rs k hsorted
      have hihP := ih _ (by omega) (popHeads rs k) rfl hsortP q
      by_cases hq : q = k
      · subst hq
        have hfc : firstContaining rs q = some w := by
          rw [firstContaining_eq_specWinner hsorted hkmin]
          exact hw
        rw [hfc]
        have hnone : (specMerge tomb (popHeads rs q)).find? (fun p => p.key == q) = none := by
          apply List.find?_eq_none.mpr
          intro p hp
          obtain ⟨s', hs', e, he, hek⟩ :=
            specMerge_keys_from tomb _ (popHeads rs q) rfl p hp
          have hgt := popHeads_entries_gt hsorted hkmin s' hs' e he
          rw [hek] at hgt
          simp only [beq_iff_eq]
          intro hpq
          rw [hpq, localeCompare_self] at hgt
          omega
        split_ifs with hdel
        · rw [hnone]
          simp only [Option.some_bind]
          rw [if_pos hdel]
        · rw [List.find?_cons, show ((⟨q, w.value⟩ : KVPair).key == q) = true by simp]
          simp only [Option.some_bind]
          rw [if_neg hdel]
      · have hfcP : firstContaining (popHeads rs k) q = firstContaining rs q :=
          firstContaining_popHeads hq
        split_ifs with hdel
        · rw [hihP, hfcP]
        · rw [List.find?_cons, show ((⟨k, w.value⟩ : KVPair).key == q) = false by
            simp only [beq_eq_false_iff_ne, ne_eq]
            exact fun hh => hq hh.symm, hihP, hfcP]

/-! ### Claim C1 -/

/-- C1: for sorted input sources (each strictly ascending under the
key order the system actually uses, localeCompare), `iterate` emits at
most one pair per unique key in strictly ascending key order, and for
every key `q` its output pair is determined by the entry for `q` in
the first (smallest-index, i.e. newest) source containing `q`: absent
if that winning entry is a tombstone and tombstones are filtered,
present with the winner's value otherwise, and absent when no source
contains `q`. -/
theorem C1_merge_iterator (srcs : List (List MergeEntry)) (includeTombstones : Bool)
    (hsorted : ∀ s ∈ srcs, s.Pairwise (fun a b => localeCompare a.key b.key < 0)) :
    (iterate srcs includeTombstones).Pairwise
      (fun p q => localeCompare p.key q.key < 0) ∧
    ∀ q : Str,
      (iterate srcs includeTombstones).find? (fun p => p.key == q)
        = (firstContaining srcs q).bind
            (fun e => if e.deleted && !includeTombstones then none
              else some ⟨q, e.value⟩) := by
  have heq := iterate_eq_specMerge srcs includeTombstones hsorted
  rw [heq]
  exact ⟨specMerge_pairwise includeTombstones _ srcs rfl hsorted,
    fun q => specMerge_find includeTombstones _ srcs rfl hsorted q⟩

/-- Concrete sorted sources: source 0 (newest) holds a→"x"; source 1
holds a→"y" and a tombstone for b. -/
def C1_srcs : List (List MergeEntry) :=
  [[⟨[97], [120], 0, false⟩], [⟨[97], [121], 0, false⟩, ⟨[98], [122], 0, true⟩]]

theorem C1_merge_iterator_witness :
    (iterate C1_srcs false).Pairwise (fun p q => localeCompare p.key q.key < 0) ∧
    ∀ q : Str,
      (iterate C1_srcs false).find? (fun p => p.key == q)
        = (firstContaining C1_srcs q).bind
            (fun e => if e.deleted && !false then none else some ⟨q, e.value⟩) :=
  C1_merge_iterator C1_srcs false (by decide)

/-! ### Range reads (LSMStore.readKeyRange, ISSTableReader.iterate)

`readKeyRange` merges range views of the active memtable, the immutable
memtable and the overlapping sstables.  The store mixes two key orders:
the early return on `startKey > endKey`, the sstable metadata overlap
test and the reader's scan bounds all use JavaScript native (UTF-16
code-unit) comparison, while the memtable range traversal and the merge
heap use `localeCompare`.  The reader's scan loop skips entries below
the start bound and stops at the first entry above the end bound;
`findStartOffset` only positions the scan at a sparse-index entry at or
before the first in-range key, so the scan is modelled from the start
of the data region, which yields the same entries. -/

/-- LSMStore.memTableRangeToMergeEntries: repackage memtable range
pairs as merge entries. -/
def memTableRangeToMergeEntries (pairs : List (Str × MemTableEntry)) : List MergeEntry :=
  pairs.map (fun p => ⟨p.1, p.2.value, p.2.timestamp, p.2.deleted⟩)

/-- The scan loop of ISSTableReader.iterate: skip an entry below
`effectiveStart`, return at the first entry above `effectiveEnd` (both
native comparisons), otherwise yield the entry. -/
def scanRange : List SSTableEntry → Str → Str → List SSTableEntry
  | [], _, _ => []
  | en :: t, s, e =>
    if jsCompare en.key s < 0 then scanRange t s e
    else if 0 < jsCompare en.key e then []
    else en :: scanRange t s e

/-- What readKeyRange reads of one sstable: its metadata key bounds and
its data entries in file order. -/
structure SSTableSrc where
  firstKey : Str
  lastKey : Str
  entries : List SSTableEntry
  deriving Repr, DecidableEq

/-- ISSTableReader.iterate with both bounds supplied: return nothing
when the requested range misses the metadata range (native
comparisons), otherwise run the scan loop over the data region. -/
def readerIterate (t : SSTableSrc) (startKey endKey : Str) : List SSTableEntry :=
  if 0 < jsCompare startKey t.lastKey ∨ jsCompare endKey t.firstKey < 0 then []
  else scanRange t.entries startKey endKey

/-- LSMStore.sstableRangeToMergeEntries: copy each yielded sstable
entry into a merge entry. -/
def sstableRangeToMergeEntries (entries : List SSTableEntry) : List MergeEntry :=
  entries.map (fun en => ⟨en.key, en.value, en.timestamp, en.deleted⟩)

/-- The store state readKeyRange reads: both memtables and the sstable
snapshot, newest first. -/
structure ReadState where
  activeMemTable : MemTable
  immutableMemTable : Option MemTable
  sstables : List SSTableSrc

/-- The sources readKeyRange hands to MergeIterator.fromMixedSources:
the two memtable ranges (each pushed only when non-empty), then the
readers of the sstables whose metadata range overlaps the query (native
comparisons), in snapshot order. -/
def rangeSources (st : ReadState) (startKey endKey : Str) : List (List MergeEntry) :=
  (let activeEntries :=
    memTableRangeToMergeEntries (st.activeMemTable.getRange startKey endKey)
  if 0 < activeEntries.length then [activeEntries] else []) ++
  (match st.immutableMemTable with
   | some imm =>
     let immutableEntries := memTableRangeToMergeEntries (imm.getRange startKey endKey)
     if 0 < immutableEntries.length then [immutableEntries] else []
   | none => []) ++
  st.sstables.filterMap (fun t =>
    if jsCompare t.lastKey startKey < 0 ∨ 0 < jsCompare t.firstKey endKey then none
    else some (sstableRangeToMergeEntries (readerIterate t startKey endKey)))

/-- LSMStore.readKeyRange: return nothing when startKey > endKey under
native comparison; otherwise merge the sources with the default
configuration (tombstones filtered).  The limit loop yields each pair
before checking `count >= limit`, so a limit of `l` yields up to
`max l 1` pairs. -/
def readKeyRange (st : ReadState) (startKey endKey : Str) (limit : Option Nat) :
    List KVPair :=
  if 0 < jsCompare startKey endKey then []
  else
    let merged := iterate (rangeSources st startKey endKey) false
    match limit with
    | none => merged
    | some l => merged.take (Nat.max l 1)

/-- The full version streams of the store in the claim's priority order
— active memtable, immutable memtable, then the sstables newest first.
The claim's "newest version" of a key is the first entry for the key
found along this list. -/
def allStreams (st : ReadState) : List (List MergeEntry) :=
  [memTableRangeToMergeEntries st.activeMemTable.getAllSorted] ++
  (match st.immutableMemTable with
   | some imm => [memTableRangeToMergeEntries imm.getAllSorted]
   | none => []) ++
  st.sstables.map (fun t => sstableRangeToMergeEntries t.entries)

/-! Helper lemmas for readKeyRange. -/

theorem jsCompare_swap (a b : Str) : jsCompare a b = -(jsCompare b a) :=
  listCmp_swap _ _

theorem js_eq_lc_plain {a b : Str} (ha : plainStr a) (hb : plainStr b) :
    jsCompare a b = localeCompare a b := by
  rw [jsCompare_plain ha hb, localeCompare_plain ha hb]

theorem ne_of_lc_neg {a b : Str} (h : localeCompare a b < 0) : a ≠ b := by
  intro hEq
  rw [hEq] at h
  rw [localeCompare_self] at h
  omega

theorem find?_filter_of_imp {α : Type} (p pr : α → Bool) (l : List α)
    (h : ∀ x, pr x = true → p x = true) :
    (l.filter p).find? pr = l.find? pr := by
  induction l with
  | nil => rfl
  | cons x t ih =>
    by_cases hx : p x = true
    · cases hpr : pr x
      · simp [List.filter_cons, hx, List.find?_cons, hpr, ih]
      · simp [List.filter_cons, hx, List.find?_cons, hpr]
    · have hprx : pr x = false := by
        cases hpr : pr x
        · rfl
        · exact absurd (h x hpr) hx
      simp [List.filter_cons, hx, List.find?_cons, hprx, ih]

theorem scanRange_sublist (l : List SSTableEntry) (s e : Str) :
    (scanRange l s e).Sublist l := by
  induction l with
  | nil => simp [scanRange]
  | cons en t ih =>
    rw [scanRange]
    split_ifs with h1 h2
    · exact ih.cons _
    · exact List.nil_sublist _
    · exact ih.cons₂ _

theorem scanRange_bounds {l : List SSTableEntry} {s e : Str} :
    ∀ x ∈ scanRange l s e, 0 ≤ jsCompare x.key s ∧ jsCompare x.key e ≤ 0 := by
  induction l with
  | nil => intro x hx; simp [scanRange] at hx
  | cons en t ih =>
    intro x hx
    rw [scanRange] at hx
    split_ifs at hx with h1 h2
    · exact ih x hx
    · simp at hx
    · rcases List.mem_cons.mp hx with rfl | hx2
      · exact ⟨by omega, by omega⟩
      · exact ih x hx2

theorem scanRange_find? {l : List SSTableEntry} {s e q : Str}
    (hsorted : l.Pairwise (fun a b => localeCompare a.key b.key < 0))
    (hplain : ∀ en ∈ l, plainStr en.key) (hs : plainStr s) (he : plainStr e)
    (hqs : 0 ≤ localeCompare q s) (hqe : localeCompare q e ≤ 0) :
    (scanRange l s e).find? (fun en => en.key == q)
      = l.find? (fun en => en.key == q) := by
  induction l with
  | nil => rfl
  | cons en t ih =>
    have hpen : plainStr en.key := hplain en (List.mem_cons_self _ _)
    have hpt : ∀ x ∈ t, plainStr x.key := fun x hx => hplain x (List.mem_cons_of_mem _ hx)
    obtain ⟨hhead, htail⟩ := List.pairwise_cons.mp hsorted
    rw [scanRange]
    split_ifs with h1 h2
    · have hlc : localeCompare en.key s < 0 := by
        rw [← js_eq_lc_plain hpen hs]; exact h1
      have hne : (en.key == q) = false := by
        rw [beq_eq_false_iff_ne]
        intro hEq
        rw [hEq] at hlc
        omega
      rw [List.find?_cons_of_neg _ (by simp [hne])]
      exact ih htail hpt
    · have hlc : 0 < localeCompare en.key e := by
        rw [← js_eq_lc_plain hpen he]; exact h2
      have hqen : localeCompare q en.key < 0 := by
        have hee : localeCompare e en.key < 0 := by
          have := localeCompare_swap en.key e; omega
        exact localeCompare_lt_of_le_of_lt hqe hee
      rw [List.find?_nil]
      symm
      rw [List.find?_eq_none]
      intro x hx
      rcases List.mem_cons.mp hx with rfl | hx2
      · simp [beq_eq_false_iff_ne, (ne_of_lc_neg hqen).symm]
      · have hx3 : localeCompare en.key x.key < 0 := hhead x hx2
        have hqx : localeCompare q x.key < 0 := localeCompare_trans_neg hqen hx3
        simp [beq_eq_false_iff_ne, (ne_of_lc_neg hqx).symm]
    · cases hbeq : (en.key == q)
      · rw [List.find?_cons_of_neg _ (by simp [hbeq]),
          List.find?_cons_of_neg _ (by simp [hbeq])]
        exact ih htail hpt
      · rw [List.find?_cons_of_pos _ (by simp [hbeq]),
          List.find?_cons_of_pos _ (by simp [hbeq])]

theorem memRange_find? {m : MemTable} {s e q : Str} (hbst : Tree.BST m.data)
    (hqs : 0 ≤ localeCompare q s) (hqe : localeCompare q e ≤ 0) :
    (memTableRangeToMergeEntries (m.getRange s e)).find? (fun en => en.key == q)
      = (memTableRangeToMergeEntries m.getAllSorted).find? (fun en => en.key == q) := by
  rw [MemTable.getRange, MemTable.getAllSorted, Tree.range_eq_filter hbst,
    memTableRangeToMergeEntries, memTableRangeToMergeEntries,
    List.find?_map, List.find?_map]
  refine congrArg (Option.map _) ?_
  apply find?_filter_of_imp
  intro p hp
  have hp1 : p.1 = q := by simpa using hp
  simp [hp1, hqs, hqe]

theorem memRange_empty {m : MemTable} {s e q : Str} (hbst : Tree.BST m.data)
    (hqs : 0 ≤ localeCompare q s) (hqe : localeCompare q e ≤ 0)
    (hempty : memTableRangeToMergeEntries (m.getRange s e) = []) :
    (memTableRangeToMergeEntries m.getAllSorted).find? (fun en => en.key == q)
      = none := by
  cases hf : (memTableRangeToMergeEntries m.getAllSorted).find?
      (fun en => en.key == q) with
  | none => rfl
  | some v =>
    exfalso
    have hv := List.mem_of_find?_eq_some hf
    have hvk := List.find?_some hf
    rw [memTableRangeToMergeEntries, MemTable.getAllSorted] at hv
    obtain ⟨p, hp, hpv⟩ := List.mem_map.mp hv
    have hp1 : p.1 = q := by
      rw [← hpv] at hvk
      simpa using hvk
    have hmem2 : p ∈ m.data.range s e := by
      rw [Tree.range_eq_filter hbst]
      exact List.mem_filter.mpr ⟨hp, by simp [hp1, hqs, hqe]⟩
    rw [memTableRangeToMergeEntries, MemTable.getRange] at hempty
    rw [List.map_eq_nil_iff] at hempty
    rw [hempty] at hmem2
    simp at hmem2

theorem sstable_skipped_none {t : SSTableSrc} {s e q : Str}
    (hplainT : plainStr t.firstKey ∧ plainStr t.lastKey ∧
      ∀ en ∈ t.entries, plainStr en.key)
    (hmeta : ∀ en ∈ t.entries,
      0 ≤ localeCompare en.key t.firstKey ∧ localeCompare en.key t.lastKey ≤ 0)
    (hs : plainStr s) (he : plainStr e)
    (hqs : 0 ≤ localeCompare q s) (hqe : localeCompare q e ≤ 0)
    (hskip : jsCompare t.lastKey s < 0 ∨ 0 < jsCompare t.firstKey e) :
    (sstableRangeToMergeEntries t.entries).find? (fun en => en.key == q) = none := by
  obtain ⟨hpf, hpl, hpen⟩ := hplainT
  rw [sstableRangeToMergeEntries, List.find?_eq_none]
  intro x hx
  obtain ⟨en, hen, rfl⟩ := List.mem_map.mp hx
  obtain ⟨h1, h2⟩ := hmeta en hen
  rcases hskip with hskip | hskip
  · have hls : localeCompare t.lastKey s < 0 := by
      rw [← js_eq_lc_plain hpl hs]; exact hskip
    have h3 : localeCompare en.key s < 0 := localeCompare_lt_of_le_of_lt h2 hls
    have h4 : localeCompare en.key q < 0 := by
      have h5 : localeCompare s q ≤ 0 := by have := localeCompare_swap q s; omega
      exact localeCompare_lt_of_lt_of_le h3 h5
    simp [ne_of_lc_neg h4]
  · have hfe : 0 < localeCompare t.firstKey e := by
      rw [← js_eq_lc_plain hpf he]; exact hskip
    have h4 : localeCompare e t.firstKey < 0 := by
      have := localeCompare_swap t.firstKey e; omega
    have h5 : localeCompare t.firstKey en.key ≤ 0 := by
      have := localeCompare_swap en.key t.firstKey; omega
    have h6 : localeCompare e en.key < 0 := localeCompare_lt_of_lt_of_le h4 h5
    have h7 : localeCompare q en.key < 0 := localeCompare_lt_of_le_of_lt hqe h6
    simp [(ne_of_lc_neg h7).symm]

theorem sstable_kept_find? {t : SSTableSrc} {s e q : Str}
    (hsorted : t.entries.Pairwise (fun a b => localeCompare a.key b.key < 0))
    (hplainT : plainStr t.firstKey ∧ plainStr t.lastKey ∧
      ∀ en ∈ t.entries, plainStr en.key)
    (hs : plainStr s) (he : plainStr e)
    (hqs : 0 ≤ localeCompare q s) (hqe : localeCompare q e ≤ 0)
    (hkeep : ¬(jsCompare t.lastKey s < 0 ∨ 0 < jsCompare t.firstKey e)) :
    (sstableRangeToMergeEntries (readerIterate t s e)).find? (fun en => en.key == q)
      = (sstableRangeToMergeEntries t.entries).find? (fun en => en.key == q) := by
  obtain ⟨hpf, hpl, hpen⟩ := hplainT
  push_neg at hkeep
  have hbail : ¬(0 < jsCompare s t.lastKey ∨ jsCompare e t.firstKey < 0) := by
    push_neg
    have h1 := jsCompare_swap s t.lastKey
    have h2 := jsCompare_swap e t.firstKey
    constructor
    · omega
    · omega
  rw [readerIterate, if_neg hbail,
    sstableRangeToMergeEntries, sstableRangeToMergeEntries,
    List.find?_map, List.find?_map]
  exact congrArg (Option.map _) (scanRange_find? hsorted hpen hs he hqs hqe)

theorem filterMap_of_pointwise {α β γ : Type} (fc : β → Option γ)
    (g : α → Option β) (h : α → β) (ts : List α)
    (hpt : ∀ t ∈ ts, (g t).bind fc = fc (h t)) :
    (ts.filterMap g).filterMap fc = (ts.map h).filterMap fc := by
  rw [List.filterMap_filterMap, List.filterMap_map]
  exact List.filterMap_congr hpt

theorem firstContaining_rangeSources {st : ReadState} {s e q : Str}
    (hps : plainStr s) (hpe : plainStr e)
    (hbstA : Tree.BST st.activeMemTable.data)
    (hbstI : ∀ imm, st.immutableMemTable = some imm → Tree.BST imm.data)
    (htsorted : ∀ t ∈ st.sstables,
      t.entries.Pairwise (fun a b => localeCompare a.key b.key < 0))
    (htplain : ∀ t ∈ st.sstables, plainStr t.firstKey ∧ plainStr t.lastKey ∧
      ∀ en ∈ t.entries, plainStr en.key)
    (hmeta : ∀ t ∈ st.sstables, ∀ en ∈ t.entries,
      0 ≤ localeCompare en.key t.firstKey ∧ localeCompare en.key t.lastKey ≤ 0)
    (hqs : 0 ≤ localeCompare q s) (hqe : localeCompare q e ≤ 0) :
    firstContaining (rangeSources st s e) q = firstContaining (allStreams st) q := by
  rw [firstContaining, firstContaining]
  refine congrArg List.head? ?_
  simp only [rangeSources, allStreams, List.filterMap_append]
  refine congrArg₂ (· ++ ·) (congrArg₂ (· ++ ·) ?_ ?_) ?_
  · by_cases hlen :
      0 < (memTableRangeToMergeEntries (st.activeMemTable.getRange s e)).length
    · rw [if_pos hlen]
      simp only [List.filterMap_cons, List.filterMap_nil,
        memRange_find? hbstA hqs hqe]
    · rw [if_neg hlen]
      have hnil : memTableRangeToMergeEntries (st.activeMemTable.getRange s e) = [] := by
        cases hcase : memTableRangeToMergeEntries (st.activeMemTable.getRange s e) with
        | nil => rfl
        | cons a l => rw [hcase] at hlen; simp at hlen
      simp only [List.filterMap_cons, List.filterMap_nil,
        memRange_empty hbstA hqs hqe hnil]
  · cases himm : st.immutableMemTable with
    | none => rfl
    | some imm =>
      have hbst := hbstI imm himm
      show List.filterMap (fun src => src.find? (fun en => en.key == q))
          (if 0 < (memTableRangeToMergeEntries (imm.getRange s e)).length
            then [memTableRangeToMergeEntries (imm.getRange s e)] else [])
        = List.filterMap (fun src => src.find? (fun en => en.key == q))
          [memTableRangeToMergeEntries imm.getAllSorted]
      by_cases hlen : 0 < (memTableRangeToMergeEntries (imm.getRange s e)).length
      · rw [if_pos hlen]
        simp only [List.filterMap_cons, List.filterMap_nil,
          memRange_find? hbst hqs hqe]
      · rw [if_neg hlen]
        have hnil : memTableRangeToMergeEntries (imm.getRange s e) = [] := by
          cases hcase : memTableRangeToMergeEntries (imm.getRange s e) with
          | nil => rfl
          | cons a l => rw [hcase] at hlen; simp at hlen
        simp only [List.filterMap_cons, List.filterMap_nil,
          memRange_empty hbst hqs hqe hnil]
  · apply filterMap_of_pointwise
    intro t ht
    by_cases hskip : jsCompare t.lastKey s < 0 ∨ 0 < jsCompare t.firstKey e
    · rw [if_pos hskip]
      exact (sstable_skipped_none (htplain t ht) (hmeta t ht) hps hpe
        hqs hqe hskip).symm
    · rw [if_neg hskip]
      exact sstable_kept_find? (htsorted t ht) (htplain t ht) hps hpe hqs hqe hskip

theorem sortedSrcs_rangeSources {st : ReadState} {s e : Str}
    (hbstA : Tree.BST st.activeMemTable.data)
    (hbstI : ∀ imm, st.immutableMemTable = some imm → Tree.BST imm.data)
    (htsorted : ∀ t ∈ st.sstables,
      t.entries.Pairwise (fun a b => localeCompare a.key b.key < 0)) :
    SortedSrcs (rangeSources st s e) := by
  have hmem : ∀ (m : MemTable), Tree.BST m.data →
      (memTableRangeToMergeEntries (m.getRange s e)).Pairwise
        (fun a b => localeCompare a.key b.key < 0) := by
    intro m hbst
    rw [memTableRangeToMergeEntries, MemTable.getRange, Tree.range_eq_filter hbst,
      List.pairwise_map]
    exact (Tree.entries_pairwise hbst).filter _
  intro src hsrc
  simp only [rangeSources] at hsrc
  rcases List.mem_append.mp hsrc with h12 | h3
  · rcases List.mem_append.mp h12 with h1 | h2
    · split_ifs at h1 with hlen
      · rw [List.mem_singleton.mp h1]
        exact hmem _ hbstA
      · simp at h1
    · cases himm : st.immutableMemTable with
      | none => rw [himm] at h2; simp at h2
      | some imm =>
        rw [himm] at h2
        dsimp only at h2
        split_ifs at h2 with hlen
        · rw [List.mem_singleton.mp h2]
          exact hmem _ (hbstI imm himm)
        · simp at h2
  · obtain ⟨t, ht, hg⟩ := List.mem_filterMap.mp h3
    split_ifs at hg with hskip
    injection hg with hg2
    rw [← hg2, sstableRangeToMergeEntries, List.pairwise_map, readerIterate]
    split_ifs with hbail
    · exact List.Pairwise.nil
    · exact (htsorted t ht).sublist (scanRange_sublist t.entries s e)

theorem rangeSources_keys {st : ReadState} {s e : Str}
    (hps : plainStr s) (hpe : plainStr e)
    (htplain : ∀ t ∈ st.sstables, plainStr t.firstKey ∧ plainStr t.lastKey ∧
      ∀ en ∈ t.entries, plainStr en.key) :
    ∀ src ∈ rangeSources st s e, ∀ en ∈ src,
      0 ≤ localeCompare en.key s ∧ localeCompare en.key e ≤ 0 := by
  have htree : ∀ (V : Type) (t : Tree V) (p : Str × V), p ∈ t.range s e →
      0 ≤ localeCompare p.1 s ∧ localeCompare p.1 e ≤ 0 := by
    intro V t
    induction t with
    | leaf => intro p hp; simp [Tree.range] at hp
    | node l k v r ihl ihr =>
      intro p hp
      simp only [Tree.range] at hp
      rcases List.mem_append.mp hp with hp12 | hp3
      · rcases List.mem_append.mp hp12 with hp1 | hp2
        · split_ifs at hp1 with h
          · exact ihl p hp1
          · simp at hp1
        · split_ifs at hp2 with h
          · rw [List.mem_singleton.mp hp2]
            exact h
          · simp at hp2
      · split_ifs at hp3 with h
        · exact ihr p hp3
        · simp at hp3
  have hmem : ∀ (m : MemTable), ∀ en ∈ memTableRangeToMergeEntries (m.getRange s e),
      0 ≤ localeCompare en.key s ∧ localeCompare en.key e ≤ 0 := by
    intro m en hen
    rw [memTableRangeToMergeEntries, MemTable.getRange] at hen
    obtain ⟨p, hp, hpe2⟩ := List.mem_map.mp hen
    rw [← hpe2]
    exact htree _ _ p hp
  intro src hsrc
  simp only [rangeSources] at hsrc
  rcases List.mem_append.mp hsrc with h12 | h3
  · rcases List.mem_append.mp h12 with h1 | h2
    · split_ifs at h1 with hlen
      · rw [List.mem_singleton.mp h1]
        exact hmem _
      · simp at h1
    · cases himm : st.immutableMemTable with
      | none => rw [himm] at h2; simp at h2
      | some imm =>
        rw [himm] at h2
        dsimp only at h2
        split_ifs at h2 with hlen
        · rw [List.mem_singleton.mp h2]
          exact hmem _
        · simp at h2
  · obtain ⟨t, ht, hg⟩ := List.mem_filterMap.mp h3
    split_ifs at hg with hskip
    injection hg with hg2
    intro en hen
    rw [← hg2, sstableRangeToMergeEntries] at hen
    obtain ⟨x, hx, hxe⟩ := List.mem_map.mp hen
    rw [readerIterate] at hx
    split_ifs at hx with hbail
    · simp at hx
    · obtain ⟨hb1, hb2⟩ := scanRange_bounds x hx
      have hpx : plainStr x.key :=
        (htplain t ht).2.2 x ((scanRange_sublist t.entries s e).subset hx)
      rw [js_eq_lc_plain hpx hps] at hb1
      rw [js_eq_lc_plain hpx hpe] at hb2
      rw [← hxe]
      exact ⟨hb1, hb2⟩

/-! ### Claim C5 -/

/-- A store whose active memtable holds the single live key "B"
(codepoint 66) with value "v" (118); no immutable memtable, no
sstables. -/
def C5_state : ReadState :=
  ⟨⟨Tree.node .leaf [66] ⟨[118], 0, false⟩ .leaf, 49, 1000⟩, none, []⟩

/-- A store whose active memtable holds the single live key "a"
(codepoint 97) with value "v" (118); no immutable memtable, no
sstables. -/
def C5_limit_state : ReadState :=
  ⟨⟨Tree.node .leaf [97] ⟨[118], 0, false⟩ .leaf, 49, 1000⟩, none, []⟩

/-- C5 counterexample, in the spec's codepoint order throughout.  Query
the store holding the live key "B" with start "B" (66) and end "a"
(97): in codepoint order (and equally in native UTF-16 order) start ≤
end, the key "B" lies in the closed range, and its newest version is
live, so the claim demands the pair ("B","v"); but the memtable range
traversal compares with localeCompare, which ranks "B" after "a"
(primary weight of B is b), so the tree range excludes the key and
readKeyRange returns nothing for every limit.  Second, with limit 0 the
claim allows at most 0 pairs, but the loop checks the limit only after
yielding: on the store holding "a", readKeyRange("a","a",limit 0)
returns one pair. -/
theorem C5_counterexample :
    cpCompare [66] [97] ≤ 0 ∧
    jsCompare [66] [97] ≤ 0 ∧
    (0 ≤ cpCompare [66] [66] ∧ cpCompare [66] [97] ≤ 0) ∧
    C5_state.activeMemTable.data.get [66] = some ⟨[118], 0, false⟩ ∧
    (∀ limit, readKeyRange C5_state [66] [97] limit = []) ∧
    (readKeyRange C5_limit_state [97] [97] (some 0)).length = 1 := by
  have hiter0 : iterate ([] : List (List MergeEntry)) false = [] := by
    rw [iterate_eq_specMerge _ _ (fun s hs => by simp at hs)]
    exact specMerge_none (by decide)
  have hsrc : rangeSources C5_state [66] [97] = [] := by decide
  have hsrc2 : rangeSources C5_limit_state [97] [97]
      = [[⟨[97], [118], 0, false⟩]] := by decide
  have hiter2 : iterate [[(⟨[97], [118], 0, false⟩ : MergeEntry)]] false
      = [⟨[97], [118]⟩] := by
    rw [iterate_eq_specMerge _ _
      (fun s hs => by rw [List.mem_singleton.mp hs]; decide)]
    have hk : lcMinKey (frontKeys [[(⟨[97], [118], 0, false⟩ : MergeEntry)]])
        = some [97] := by decide
    have hw : specWinner [[(⟨[97], [118], 0, false⟩ : MergeEntry)]] [97]
        = some ⟨[97], [118], 0, false⟩ := by decide
    rw [specMerge_some hk hw]
    have hpop : popHeads [[(⟨[97], [118], 0, false⟩ : MergeEntry)]] [97]
        = [([] : List MergeEntry)] := by decide
    rw [hpop, specMerge_none (by decide)]
    simp
  refine ⟨by decide, by decide, by decide, by decide, ?_, ?_⟩
  · intro limit
    cases limit with
    | none =>
      rw [readKeyRange, if_neg (by decide)]
      show iterate (rangeSources C5_state [66] [97]) false = []
      rw [hsrc]
      exact hiter0
    | some l =>
      rw [readKeyRange, if_neg (by decide)]
      show (iterate (rangeSources C5_state [66] [97]) false).take (Nat.max l 1) = []
      rw [hsrc, hiter0]
      exact List.take_nil
  · rw [readKeyRange, if_neg (by decide)]
    show ((iterate (rangeSources C5_limit_state [97] [97]) false).take
      (Nat.max 0 1)).length = 1
    rw [hsrc2, hiter2]
    rfl

/-- C5, amended: restricted to plain keys and bounds (lowercase ASCII
letters and digits, where the native UTF-16 order used by the early
return, the metadata overlap test and the reader scan agrees with the
localeCompare order used by the memtable and the merge heap), and given
the maintained source invariants (memtables are binary search trees,
sstable entries are sorted ascending with correct metadata key bounds),
readKeyRange returns nothing when start > end; its output is strictly
ascending by key; an explicit limit `l` truncates the unlimited output
to `max l 1` pairs (the loop checks the limit only after yielding, so
limit 0 still yields one pair); and a key q is found in the output (with
its newest value) exactly when q lies in the closed range and the first
version of q along active memtable, immutable memtable, then sstables
newest-first is not a tombstone. -/
theorem C5_readKeyRange_plain (st : ReadState) (startKey endKey : Str)
    (hps : plainStr startKey) (hpe : plainStr endKey)
    (hbstA : Tree.BST st.activeMemTable.data)
    (hbstI : ∀ imm, st.immutableMemTable = some imm → Tree.BST imm.data)
    (htsorted : ∀ t ∈ st.sstables,
      t.entries.Pairwise (fun a b => localeCompare a.key b.key < 0))
    (htplain : ∀ t ∈ st.sstables, plainStr t.firstKey ∧ plainStr t.lastKey ∧
      ∀ en ∈ t.entries, plainStr en.key)
    (hmeta : ∀ t ∈ st.sstables, ∀ en ∈ t.entries,
      0 ≤ localeCompare en.key t.firstKey ∧ localeCompare en.key t.lastKey ≤ 0) :
    (0 < localeCompare startKey endKey →
      ∀ limit, readKeyRange st startKey endKey limit = []) ∧
    (readKeyRange st startKey endKey none).Pairwise
      (fun p q => localeCompare p.key q.key < 0) ∧
    (∀ l, readKeyRange st startKey endKey (some l)
      = (readKeyRange st startKey endKey none).take (Nat.max l 1)) ∧
    (∀ q : Str,
      (readKeyRange st startKey endKey none).find? (fun p => p.key == q)
        = if 0 ≤ localeCompare q startKey ∧ localeCompare q endKey ≤ 0 then
            (firstContaining (allStreams st) q).bind
              (fun en => if en.deleted then none else some ⟨q, en.value⟩)
          else none) := by
  have hjs : jsCompare startKey endKey = localeCompare startKey endKey :=
    js_eq_lc_plain hps hpe
  have hsorted := @sortedSrcs_rangeSources st startKey endKey
    hbstA hbstI htsorted
  refine ⟨?_, ?_, ?_, ?_⟩
  · intro h0 limit
    cases limit with
    | none => rw [readKeyRange, if_pos (by omega)]
    | some l => rw [readKeyRange, if_pos (by omega)]
  · by_cases hcond : 0 < jsCompare startKey endKey
    · rw [readKeyRange, if_pos hcond]
      exact List.Pairwise.nil
    · rw [readKeyRange, if_neg hcond]
      rw [show (match (none : Option Nat) with
          | none => iterate (rangeSources st startKey endKey) false
          | some l => (iterate (rangeSources st startKey endKey) false).take
              (Nat.max l 1)) = iterate (rangeSources st startKey endKey) false
        from rfl]
      rw [iterate_eq_specMerge _ _ hsorted]
      exact specMerge_pairwise false _ _ rfl hsorted
  · intro l
    by_cases hcond : 0 < jsCompare startKey endKey
    · rw [readKeyRange, if_pos hcond, readKeyRange, if_pos hcond]
      simp
    · rw [readKeyRange, if_neg hcond, readKeyRange, if_neg hcond]
  · intro q
    by_cases hq : 0 ≤ localeCompare q startKey ∧ localeCompare q endKey ≤ 0
    · obtain ⟨hqs, hqe⟩ := hq
      have hcond : ¬ 0 < jsCompare startKey endKey := by
        have h1 : localeCompare startKey q ≤ 0 := by
          have := localeCompare_swap q startKey; omega
        have h2 : localeCompare startKey endKey ≤ 0 :=
          localeCompare_le_trans h1 hqe
        omega
      rw [readKeyRange, if_neg hcond]
      rw [show (match (none : Option Nat) with
          | none => iterate (rangeSources st startKey endKey) false
          | some l => (iterate (rangeSources st startKey endKey) false).take
              (Nat.max l 1)) = iterate (rangeSources st startKey endKey) false
        from rfl]
      rw [iterate_eq_specMerge _ _ hsorted]
      rw [specMerge_find false _ _ rfl hsorted q]
      rw [firstContaining_rangeSources hps hpe hbstA hbstI htsorted htplain hmeta
        hqs hqe]
      rw [if_pos ⟨hqs, hqe⟩]
      cases firstContaining (allStreams st) q with
      | none => rfl
      | some en => simp
    · rw [if_neg hq]
      by_cases hcond : 0 < jsCompare startKey endKey
      · rw [readKeyRange, if_pos hcond]
        rfl
      · rw [readKeyRange, if_neg hcond]
        rw [show (match (none : Option Nat) with
            | none => iterate (rangeSources st startKey endKey) false
            | some l => (iterate (rangeSources st startKey endKey) false).take
                (Nat.max l 1)) = iterate (rangeSources st startKey endKey) false
          from rfl]
        rw [iterate_eq_specMerge _ _ hsorted]
        rw [List.find?_eq_none]
        intro p hp
        obtain ⟨src, hsrc, en, hen, hek⟩ :=
          specMerge_keys_from false _ _ rfl p hp
        have hbounds := rangeSources_keys hps hpe htplain src hsrc en hen
        rw [hek] at hbounds
        intro hcontra
        have hpq : p.key = q := by simpa using hcontra
        rw [hpq] at hbounds
        exact hq hbounds

/-- A store with plain keys: active memtable holding the live key "a"
(97) with value "v" (118), no immutable memtable, and one sstable with
metadata bounds "b".."b" holding the live key "b" (98) with value "w"
(119). -/
def C5_wit_state : ReadState :=
  ⟨⟨Tree.node .leaf [97] ⟨[118], 0, false⟩ .leaf, 49, 1000⟩, none,
   [⟨[98], [98], [⟨[98], [119], 0, false⟩]⟩]⟩

theorem C5_readKeyRange_plain_witness :
    (0 < localeCompare [97] [99] →
      ∀ limit, readKeyRange C5_wit_state [97] [99] limit = []) ∧
    (readKeyRange C5_wit_state [97] [99] none).Pairwise
      (fun p q => localeCompare p.key q.key < 0) ∧
    (∀ l, readKeyRange C5_wit_state [97] [99] (some l)
      = (readKeyRange C5_wit_state [97] [99] none).take (Nat.max l 1)) ∧
    (∀ q : Str,
      (readKeyRange C5_wit_state [97] [99] none).find? (fun p => p.key == q)
        = if 0 ≤ localeCompare q [97] ∧ localeCompare q [99] ≤ 0 then
            (firstContaining (allStreams C5_wit_state) q).bind
              (fun en => if en.deleted then none else some ⟨q, en.value⟩)
          else none) :=
  C5_readKeyRange_plain C5_wit_state [97] [99] (by decide) (by decide)
    ⟨trivial, trivial, trivial, trivial⟩ (fun imm h => nomatch h)
    (by decide) (by decide) (by decide)

end LSM
